import Mathlib

/-!
# EMV public-key infrastructure: signed-message codec

A shallow embedding of `src/lib/emv_pki.c`, `src/lib/emv_pki_priv.c`, `src/lib/emv_pk.c`
and of the dispatch layer `src/lib/crypto/crypto.c`.

Conventions of the embedding

* A byte is a `Nat`; a buffer (pointer plus length) is a `List Nat`.
* `size_t` arithmetic that can wrap is written with an explicit `% 2 ^ 64`.
* A C function returning a pointer has result type `Res`: `ok` for a non-NULL
  result, `null` for a NULL result and `fault` when the C code performs an access
  outside an object or through a NULL pointer (undefined behaviour).
* The crypto backend is a table of function pointers in the source
  (`crypto_backend`, `crypto_hash`, `crypto_pk`); it is a structure of functions here
  and every definition takes it as a parameter.
-/

namespace Emv

/-! ## Results, sizes and memory accesses -/

/-- Outcome of a C call returning a pointer: a non-NULL value, NULL, or undefined
behaviour (an access outside an object or through NULL). -/
inductive Res (α : Type) where
  | ok : α → Res α
  | null : Res α
  | fault : Res α
deriving DecidableEq, Repr

/-- Sequencing: NULL and undefined behaviour end the call. -/
def Res.bind {α β : Type} (r : Res α) (f : α → Res β) : Res β :=
  match r with
  | .ok a => f a
  | .null => .null
  | .fault => .fault

instance : Monad Res where
  pure := Res.ok
  bind := Res.bind

/-- The guard `if (!p) return NULL;` on a pointer `p`. -/
def or_null {α : Type} (o : Option α) : Res α :=
  match o with
  | some a => .ok a
  | none => .null

/-- Use of a pointer that the code does not test: NULL is dereferenced. -/
def or_fault {α : Type} (o : Option α) : Res α :=
  match o with
  | some a => .ok a
  | none => .fault

/-- The guard `if (c) return NULL;`. -/
def reject_if (c : Prop) [Decidable c] : Res Unit :=
  if c then .null else .ok ()

/-- Number of values of a `size_t` (64-bit). -/
def SIZE_MOD : Nat := 2 ^ 64

/-- Subtraction of two `size_t` values, wrapping modulo `2 ^ 64`. -/
def size_sub (a b : Nat) : Nat := (a + (SIZE_MOD - b % SIZE_MOD)) % SIZE_MOD

/-- Read of `buf[i]`: undefined behaviour outside the buffer. -/
def rd (buf : List Nat) (i : Nat) : Res Nat :=
  match buf[i]? with
  | some b => .ok b
  | none => .fault

/-- Read of the `n` bytes at `buf + off`: undefined behaviour when the range leaves the
buffer. -/
def rdn (buf : List Nat) (off n : Nat) : Res (List Nat) :=
  if off + n ≤ buf.length then .ok ((buf.drop off).take n) else .fault

/-- Store `buf[i] = b`: undefined behaviour outside the buffer. -/
def wr (buf : List Nat) (i b : Nat) : Res (List Nat) :=
  if i < buf.length then .ok (buf.set i b) else .fault

/-- Write of `src` at `dst + off` (`memcpy`): a copy of zero bytes changes nothing, any
other copy must stay inside `dst`. -/
def memcpy_at (dst : List Nat) (off : Nat) (src : List Nat) : Res (List Nat) :=
  if src.length = 0 then .ok dst
  else if off + src.length ≤ dst.length then
    .ok (dst.take off ++ src ++ dst.drop (off + src.length))
  else .fault

/-- Fill of `n` bytes `c` at `dst + off` (`memset`), checked before the bytes are built. -/
def memset_at (dst : List Nat) (off c n : Nat) : Res (List Nat) :=
  if n = 0 then .ok dst
  else if off + n ≤ dst.length then
    .ok (dst.take off ++ List.replicate n c ++ dst.drop (off + n))
  else .fault

/-! ## Data model -/

/-- One TLV record (`struct tlv`): `len` is the length of `value`. -/
structure tlv where
  tag : Nat
  value : List Nat
deriving DecidableEq, Repr

/-- Length field of a TLV. -/
def tlv.len (t : tlv) : Nat := t.value.length

/-- The record `empty_tlv` of `emv_pki.c`. -/
def empty_tlv : tlv := { tag := 0, value := [] }

/-- An EMV public key, `struct emv_pk` of `openemv/emv_pk.h`. -/
structure emv_pk where
  rid : List Nat
  index : Nat
  serial : List Nat
  pan : List Nat
  hash_algo : Nat
  pk_algo : Nat
  hash : List Nat
  exp : List Nat
  elen : Nat
  mlen : Nat
  modulus : List Nat
  expire : Nat
deriving DecidableEq, Repr

/-! ## Crypto dispatch layer (`crypto.c`) -/

/-- A hash context, `struct crypto_hash`: the bytes written so far, the digest size
(`get_size`, a `size_t`) and the digest as a function of the bytes written (`read`,
`none` for a NULL result). -/
structure crypto_hash where
  algo : Nat
  written : List Nat
  get_size : Nat
  read : List Nat → Option (List Nat)
  get_size_lt : get_size < 2 ^ 64

/-- A key context, `struct crypto_pk`: `encrypt` and `decrypt` return `none` for NULL,
`decrypt`, `get_nbits` and `get_parameter` may be absent function pointers; the length
reported by `encrypt` is a `size_t`. -/
structure crypto_pk where
  algo : Nat
  encrypt : List Nat → Option (List Nat)
  decrypt : Option (List Nat → Option (List Nat))
  get_nbits : Option Nat
  get_parameter : Option (Nat → Option (List Nat))
  encrypt_lt : ∀ x y, encrypt x = some y → y.length < 2 ^ 64

/-- The backend selected by `crypto_init`; a failed initialisation is the backend whose
two functions return `none`. -/
structure crypto_backend where
  hash_open : Nat → Option crypto_hash
  pk_open : Nat → List Nat → List Nat → Option crypto_pk

/-- Embedding of `crypto_hash_open`. -/
def crypto_hash_open (be : crypto_backend) (hash : Nat) : Option crypto_hash :=
  match be.hash_open hash with
  | some ch => some { ch with algo := hash }
  | none => none

/-- Embedding of `crypto_hash_write`. -/
def crypto_hash_write (ch : crypto_hash) (buf : List Nat) : crypto_hash :=
  { ch with written := ch.written ++ buf }

/-- Embedding of `crypto_hash_read`. -/
def crypto_hash_read (ch : crypto_hash) : Option (List Nat) := ch.read ch.written

/-- Embedding of `crypto_hash_get_size`. -/
def crypto_hash_get_size (ch : crypto_hash) : Nat := ch.get_size

/-- Embedding of `crypto_pk_open` for the parameters modulus and exponent. -/
def crypto_pk_open (be : crypto_backend) (pk : Nat) (modulus exp : List Nat) :
    Option crypto_pk :=
  match be.pk_open pk modulus exp with
  | some cp => some { cp with algo := pk }
  | none => none

/-- Embedding of `crypto_pk_encrypt`. -/
def crypto_pk_encrypt (cp : crypto_pk) (buf : List Nat) : Option (List Nat) :=
  cp.encrypt buf

/-- Embedding of `crypto_pk_decrypt`. -/
def crypto_pk_decrypt (cp : crypto_pk) (buf : List Nat) : Option (List Nat) :=
  match cp.decrypt with
  | none => none
  | some f => f buf

/-- Embedding of `crypto_pk_get_nbits`. -/
def crypto_pk_get_nbits (cp : crypto_pk) : Nat :=
  match cp.get_nbits with
  | none => 0
  | some n => n

/-! ## `emv_pki.c` -/

/-- The table `emv_pki_hash_psn[256] = { 0, 0, 11, 2, 17, 2, }`. -/
def emv_pki_hash_psn (msgtype : Nat) : Nat :=
  [0, 0, 11, 2, 17, 2].getD msgtype 0

/-- The loop over the variadic TLV pointers of `emv_pki_decode_message`: each value is
written to the hash until the first NULL. -/
def hash_write_tlvs (ch : crypto_hash) : List (Option tlv) → crypto_hash
  | [] => ch
  | none :: _ => ch
  | some t :: rest => hash_write_tlvs (crypto_hash_write ch t.value) rest

/-- Embedding of `emv_pki_decode_message`: the result is the buffer `data` and the
length stored in `*len`. -/
def emv_pki_decode_message (be : crypto_backend) (enc_pk : Option emv_pk) (msgtype : Nat)
    (cert_tlv : Option tlv) (extras : List (Option tlv)) : Res (List Nat × Nat) := do
  let enc_pk ← or_null enc_pk
  let cert_tlv ← or_null cert_tlv
  reject_if (cert_tlv.len ≠ enc_pk.mlen)
  let kcp ← or_null (crypto_pk_open be enc_pk.pk_algo (enc_pk.modulus.take enc_pk.mlen)
    (enc_pk.exp.take enc_pk.elen))
  let data ← or_fault (crypto_pk_encrypt kcp cert_tlv.value)
  let data_len := data.length
  let last ← rd data (size_sub data_len 1)
  reject_if (last ≠ 0xbc)
  let first ← rd data 0
  reject_if (first ≠ 0x6a)
  let second ← rd data 1
  reject_if (second ≠ msgtype)
  let hash_pos := emv_pki_hash_psn msgtype
  reject_if (hash_pos = 0 ∨ hash_pos > data_len)
  let algo ← rd data hash_pos
  let ch ← or_null (crypto_hash_open be algo)
  let hash_len := crypto_hash_get_size ch
  let body ← rdn data 1 (size_sub (size_sub data_len 2) hash_len)
  let ch := crypto_hash_write ch body
  let ch := hash_write_tlvs ch extras
  let stored ← rdn data (size_sub (size_sub data_len 1) hash_len) hash_len
  let h ← or_fault (crypto_hash_read ch)
  let computed ← rdn h 0 hash_len
  reject_if (stored ≠ computed)
  .ok (data, size_sub (size_sub data_len hash_len) 1)

/-- The loop of `emv_cn_length` from byte index `i` over the bytes not yet visited. -/
def emv_cn_length_loop : List Nat → Nat → Nat
  | [], i => 2 * i
  | c :: rest, i =>
    if c >>> 4 = 0xf then 2 * i
    else if c &&& 0xf = 0xf then 2 * i + 1
    else emv_cn_length_loop rest (i + 1)

/-- Embedding of `emv_cn_length`. -/
def emv_cn_length (t : tlv) : Nat := emv_cn_length_loop t.value 0

/-- Embedding of `emv_cn_get`. -/
def emv_cn_get (t : tlv) (pos : Nat) : Res Nat :=
  if pos > t.len * 2 then .ok 0xf
  else do
    let c ← rd t.value (pos / 2)
    if pos % 2 ≠ 0 then .ok (c &&& 0xf) else .ok (c >>> 4)

/-- Embedding of `emv_pk_new` (`emv_pk.c`): a zeroed key with a zeroed modulus of `modlen`
bytes; allocation failure is not modelled. -/
def emv_pk_new (modlen explen : Nat) : Option emv_pk :=
  if explen > 3 then none
  else some
    { rid := List.replicate 5 0, index := 0, serial := List.replicate 3 0,
      pan := List.replicate 10 0, hash_algo := 0, pk_algo := 0,
      hash := List.replicate 20 0, exp := List.replicate 3 0, elen := explen,
      mlen := modlen, modulus := List.replicate modlen 0, expire := 0 }

/-- The nibble comparison loop of `emv_pki_decode_key`, `for (i = ...; i < pan2_len; i++)`
with `todo` iterations left: NULL at the first differing nibble. -/
def pan_compare_loop (pan_tlv pan2_tlv : tlv) : (todo i : Nat) → Res Unit
  | 0, _ => .ok ()
  | todo + 1, i => do
    let a ← emv_cn_get pan_tlv i
    let b ← emv_cn_get pan2_tlv i
    reject_if (a ≠ b)
    pan_compare_loop pan_tlv pan2_tlv todo (i + 1)

/-- Embedding of `emv_pki_decode_key`. -/
def emv_pki_decode_key (be : crypto_backend) (enc_pk : Option emv_pk) (msgtype : Nat)
    (pan_tlv cert_tlv exp_tlv rem_tlv add_tlv : Option tlv) : Res emv_pk := do
  let cert_tlv ← or_null cert_tlv
  let exp_tlv ← or_null exp_tlv
  let pan_tlv ← or_null pan_tlv
  let rem_tlv := rem_tlv.getD empty_tlv
  let pan_length ← (if msgtype = 2 then Res.ok 4 else if msgtype = 4 then Res.ok 10
    else Res.null)
  let (data, data_len) ← emv_pki_decode_message be enc_pk msgtype (some cert_tlv)
    [some rem_tlv, some exp_tlv, add_tlv, none]
  reject_if (data_len < 11 + pan_length)
  let pan2_tlv : tlv := { tag := 0x5a, value := (data.drop 2).take pan_length }
  let pan_len := emv_cn_length pan_tlv
  let pan2_len := emv_cn_length pan2_tlv
  reject_if ((msgtype = 2 ∧ (pan2_len < 4 ∨ pan2_len > pan_len)) ∨
    (msgtype = 4 ∧ pan2_len ≠ pan_len))
  pan_compare_loop pan_tlv pan2_tlv pan2_len 0
  let pk_len ← rd data (9 + pan_length)
  reject_if (pk_len > size_sub (size_sub data_len 11) pan_length + rem_tlv.len)
  let e ← rd data (10 + pan_length)
  reject_if (exp_tlv.len ≠ e)
  let pk ← or_fault (emv_pk_new pk_len exp_tlv.len)
  let enc ← or_fault enc_pk
  let hash_algo ← rd data (7 + pan_length)
  let pk_algo ← rd data (8 + pan_length)
  let yy ← rd data (3 + pan_length)
  let mm ← rd data (2 + pan_length)
  let serial ← rdn data (4 + pan_length) 3
  let pan ← rdn data 2 pan_length
  let avail := size_sub data_len (11 + pan_length)
  let head ← rdn data (11 + pan_length) (if pk_len < avail then pk_len else avail)
  let modulus ← memcpy_at pk.modulus 0 head
  let modulus ← memcpy_at modulus avail rem_tlv.value
  let exp ← memcpy_at pk.exp 0 exp_tlv.value
  .ok { pk with
    rid := enc.rid, index := enc.index, hash_algo := hash_algo, pk_algo := pk_algo,
    expire := (yy <<< 16) ||| (mm <<< 8) ||| 0x31, serial := serial,
    pan := pan ++ List.replicate (10 - pan_length) 0xff, modulus := modulus, exp := exp }

/-- Modelled from the spec: the TLV collaborator (`tlv.c` is not among the sources). A
`tlvdb` is the list of its records in insertion order. -/
abbrev tlvdb := List tlv

/-- Modelled from the spec: `fixed(tag, len, value)`, a new db holding one record. -/
def tlvdb_fixed (tag : Nat) (value : List Nat) : tlvdb := [{ tag := tag, value := value }]

/-- Modelled from the spec: `add(parent, child)` attaches a child db. -/
def tlvdb_add (db child : tlvdb) : tlvdb := db ++ child

/-- Modelled from the spec: `get(tag)` yields the first record with that tag or nothing. -/
def tlvdb_get (db : tlvdb) (tag : Nat) : Option tlv := db.find? (fun t => t.tag = tag)

/-- Embedding of `emv_pki_recover_issuer_cert`. -/
def emv_pki_recover_issuer_cert (be : crypto_backend) (pk : Option emv_pk) (db : tlvdb) :
    Res emv_pk :=
  emv_pki_decode_key be pk 2 (tlvdb_get db 0x5a) (tlvdb_get db 0x90) (tlvdb_get db 0x9f32)
    (tlvdb_get db 0x92) none

/-- Embedding of `emv_pki_recover_icc_cert`. -/
def emv_pki_recover_icc_cert (be : crypto_backend) (pk : Option emv_pk) (db : tlvdb)
    (sda_data : List Nat) : Res emv_pk :=
  emv_pki_decode_key be pk 4 (tlvdb_get db 0x5a) (tlvdb_get db 0x9f46) (tlvdb_get db 0x9f47)
    (tlvdb_get db 0x9f48) (some { tag := 0, value := sda_data })

/-- Embedding of `emv_pki_recover_icc_pe_cert`. -/
def emv_pki_recover_icc_pe_cert (be : crypto_backend) (pk : Option emv_pk) (db : tlvdb) :
    Res emv_pk :=
  emv_pki_decode_key be pk 4 (tlvdb_get db 0x5a) (tlvdb_get db 0x9f2d) (tlvdb_get db 0x9f2e)
    (tlvdb_get db 0x9f2f) none

/-- Embedding of `emv_pki_recover_dac`. -/
def emv_pki_recover_dac (be : crypto_backend) (enc_pk : Option emv_pk) (db : tlvdb)
    (sda_data : List Nat) : Res tlvdb := do
  let sda_tlv : tlv := { tag := 0, value := sda_data }
  let (data, data_len) ← emv_pki_decode_message be enc_pk 3 (tlvdb_get db 0x93)
    [some sda_tlv, none]
  reject_if (data_len < 5)
  let dac ← rdn data 3 2
  .ok (tlvdb_fixed 0x9f45 dac)

/-- Embedding of `emv_pki_recover_idn`. In `idn_len > data[3] - 1` the right-hand side is
an `int` converted to `size_t`. -/
def emv_pki_recover_idn (be : crypto_backend) (enc_pk : Option emv_pk) (db : tlvdb)
    (dyn_data : List Nat) : Res tlvdb := do
  let dyn_tlv : tlv := { tag := 0, value := dyn_data }
  let (data, data_len) ← emv_pki_decode_message be enc_pk 5 (tlvdb_get db 0x9f4b)
    [some dyn_tlv, none]
  reject_if (data_len < 3)
  let ldd ← rd data 3
  reject_if (ldd < 2 ∨ ldd > size_sub data_len 3)
  let idn_len ← rd data 4
  reject_if (idn_len > size_sub ldd 1)
  let idn ← rdn data 5 idn_len
  .ok (tlvdb_fixed 0x9f4c idn)

/-- The visitor `tlv_hash`. The functions `tlv_is_constructed` and `tlv_encode` belong to
`tlv.c`, which is not among the sources: they are parameters. -/
def tlv_hash (tlv_is_constructed : tlv → Bool) (tlv_encode : tlv → List Nat)
    (ch : crypto_hash) (t : tlv) : crypto_hash :=
  if tlv_is_constructed t then ch
  else if t.tag = 0x9f4b then ch
  else crypto_hash_write ch (tlv_encode t)

/-- Modelled from the spec: `visit(callback)` traverses the records in order; the callback
`tlv_hash` never stops the traversal. -/
def tlvdb_visit (db : tlvdb) (f : crypto_hash → tlv → crypto_hash) (ch : crypto_hash) :
    crypto_hash :=
  db.foldl f ch

/-- Embedding of `emv_pki_perform_cda`. -/
def emv_pki_perform_cda (be : crypto_backend) (tlv_is_constructed : tlv → Bool)
    (tlv_encode : tlv → List Nat) (enc_pk : Option emv_pk) (db this_db : tlvdb)
    (pdol_data crm1_data crm2_data : List Nat) : Res tlvdb := do
  let un_tlv ← or_null (tlvdb_get db 0x9f37)
  let cid_tlv ← or_null (tlvdb_get this_db 0x9f27)
  let (data, data_len) ← emv_pki_decode_message be enc_pk 5 (tlvdb_get this_db 0x9f4b)
    [some un_tlv, none]
  reject_if (data_len < 3)
  let ldd ← rd data 3
  reject_if (ldd < 30 ∨ ldd > size_sub data_len 4)
  reject_if (cid_tlv.len ≠ 1)
  let cid ← rd cid_tlv.value 0
  let n ← rd data 4
  let c ← rd data (5 + n)
  reject_if (cid ≠ c)
  let pk ← or_fault enc_pk
  let ch ← or_null (crypto_hash_open be pk.hash_algo)
  let ch := crypto_hash_write ch pdol_data
  let ch := crypto_hash_write ch crm1_data
  let ch := crypto_hash_write ch crm2_data
  let ch := tlvdb_visit this_db (tlv_hash tlv_is_constructed tlv_encode) ch
  let stored ← rdn data (5 + n + 1 + 8) 20
  let h ← or_fault (crypto_hash_read ch)
  let computed ← rdn h 0 20
  reject_if (stored ≠ computed)
  let idn_len := n
  reject_if (idn_len > size_sub ldd 1)
  let idn ← rdn data 5 idn_len
  .ok (tlvdb_fixed 0x9f4c idn)

/-! ## `emv_pki_priv.c` -/

/-- The loop over the variadic buffer/length pairs of `emv_pki_sign_message`: each
buffer is written to the hash until the first NULL buffer. -/
def hash_write_bufs (ch : crypto_hash) : List (Option (List Nat)) → crypto_hash
  | [] => ch
  | none :: _ => ch
  | some b :: rest => hash_write_bufs (crypto_hash_write ch b) rest

/-- Embedding of `emv_pki_sign_message`. `HASH_SHA_1` is the enumeration constant of
`openemv/crypto.h`, a header that is not among the sources: it is a parameter. The
buffer from `malloc` starts as zeroes. -/
def emv_pki_sign_message (be : crypto_backend) (HASH_SHA_1 : Nat) (cp : crypto_pk)
    (cert_tag rem_tag : Nat) (msg : List Nat) (adds : List (Option (List Nat))) :
    Res tlvdb := do
  let msg_len := msg.length
  let tmp_len := ((crypto_pk_get_nbits cp + 7) % SIZE_MOD) / 8
  let tmp := List.replicate tmp_len 0
  let ch ← or_null (crypto_hash_open be HASH_SHA_1)
  let tmp ← wr tmp 0 0x6a
  let tmp ← wr tmp (size_sub tmp_len 1) 0xbc
  let hash_len := crypto_hash_get_size ch
  let part_len := size_sub (size_sub tmp_len 2) hash_len
  let (tmp, rem) ← (if part_len < msg_len then do
      let tmp ← memcpy_at tmp 1 (msg.take part_len)
      Res.ok (tmp, some (msg.drop part_len))
    else do
      let tmp ← memcpy_at tmp 1 msg
      let tmp ← memset_at tmp (1 + msg_len) 0xbb (size_sub part_len msg_len)
      Res.ok (tmp, (none : Option (List Nat))))
  let part ← rdn tmp 1 part_len
  let ch := crypto_hash_write ch part
  let ch := crypto_hash_write ch (match rem with
    | some r => r
    | none => [])
  let ch := hash_write_bufs ch adds
  let h ← or_null (crypto_hash_read ch)
  let digest ← rdn h 0 hash_len
  let tmp ← memcpy_at tmp (1 + part_len) digest
  let cert ← or_null (crypto_pk_decrypt cp tmp)
  let db := tlvdb_fixed cert_tag cert
  match rem with
  | some r => .ok (tlvdb_add db (tlvdb_fixed rem_tag r))
  | none => .ok db

/-- Embedding of `emv_pki_sign_key`; `add_data` is `none` for a NULL pointer. -/
def emv_pki_sign_key (be : crypto_backend) (HASH_SHA_1 : Nat) (cp : crypto_pk)
    (ipk : emv_pk) (msgtype pan_len cert_tag exp_tag rem_tag : Nat)
    (add_data : Option (List Nat)) : Res tlvdb := do
  let pan ← rdn ipk.pan 0 pan_len
  let serial ← rdn ipk.serial 0 3
  let modulus ← rdn ipk.modulus 0 ipk.mlen
  let exp ← rdn ipk.exp 0 ipk.elen
  let msg := [msgtype] ++ pan ++
    [(ipk.expire >>> 8) &&& 0xff, (ipk.expire >>> 16) &&& 0xff] ++ serial ++
    [ipk.hash_algo, ipk.pk_algo, ipk.mlen % 256, ipk.elen % 256] ++ modulus
  let db ← emv_pki_sign_message be HASH_SHA_1 cp cert_tag rem_tag msg
    [some exp, add_data, none]
  .ok (tlvdb_add db (tlvdb_fixed exp_tag exp))

/-- Embedding of `emv_pki_sign_issuer_cert`. -/
def emv_pki_sign_issuer_cert (be : crypto_backend) (HASH_SHA_1 : Nat) (cp : crypto_pk)
    (issuer_pk : emv_pk) : Res tlvdb :=
  emv_pki_sign_key be HASH_SHA_1 cp issuer_pk 2 4 0x90 0x9f32 0x92 none

/-- Embedding of `emv_pki_sign_icc_cert`. -/
def emv_pki_sign_icc_cert (be : crypto_backend) (HASH_SHA_1 : Nat) (cp : crypto_pk)
    (icc_pk : emv_pk) (sda_data : Option (List Nat)) : Res tlvdb :=
  emv_pki_sign_key be HASH_SHA_1 cp icc_pk 4 10 0x9f46 0x9f47 0x9f48 sda_data

/-- Embedding of `emv_pki_sign_icc_pe_cert`. -/
def emv_pki_sign_icc_pe_cert (be : crypto_backend) (HASH_SHA_1 : Nat) (cp : crypto_pk)
    (icc_pe_pk : emv_pk) : Res tlvdb :=
  emv_pki_sign_key be HASH_SHA_1 cp icc_pe_pk 4 10 0x9f2d 0x9f2e 0x9f2f none

/-- Embedding of `crypto_pk_get_parameter` (`crypto.c`): the buffer returned, its length
being the value stored in `*plen`. -/
def crypto_pk_get_parameter (cp : crypto_pk) (param : Nat) : Option (List Nat) :=
  match cp.get_parameter with
  | none => none
  | some f => f param

/-- Embedding of `crypto_pk_get_algo` for a non-NULL context. -/
def crypto_pk_get_algo (cp : crypto_pk) : Nat := cp.algo

/-- Embedding of `emv_pki_make_ca`; `rid` is `none` for a NULL pointer. The fields
`pk_algo` and `hash_algo` of the key are of type `unsigned char`. -/
def emv_pki_make_ca (be : crypto_backend) (cp : crypto_pk) (rid : Option (List Nat))
    (index expire hash_algo : Nat) : Res emv_pk := do
  let rid ← or_null rid
  let mod ← or_null (crypto_pk_get_parameter cp 0)
  reject_if (mod.length = 0)
  let exp ← or_null (crypto_pk_get_parameter cp 1)
  reject_if (exp.length = 0)
  let pk ← or_fault (emv_pk_new mod.length exp.length)
  let rid ← rdn rid 0 5
  let rid ← memcpy_at pk.rid 0 rid
  let pk_algo := crypto_pk_get_algo cp % 256
  let hash_algo := hash_algo % 256
  let modulus ← memcpy_at pk.modulus 0 mod
  let e ← memcpy_at pk.exp 0 exp
  let ch ← or_null (crypto_hash_open be hash_algo)
  let ch := crypto_hash_write ch rid
  let ch := crypto_hash_write ch [index]
  let m ← rdn modulus 0 pk.mlen
  let ch := crypto_hash_write ch m
  let x ← rdn e 0 pk.elen
  let ch := crypto_hash_write ch x
  let h ← or_null (crypto_hash_read ch)
  let digest ← rdn h 0 (crypto_hash_get_size ch)
  let hash ← memcpy_at pk.hash 0 digest
  .ok { pk with
    rid := rid, index := index, expire := expire, pk_algo := pk_algo,
    hash_algo := hash_algo, modulus := modulus, exp := e, hash := hash }

/-- Embedding of `emv_pki_sign_dac`; `sda_data` is `none` for a NULL pointer. The bytes of
`msg` are of type `unsigned char`. -/
def emv_pki_sign_dac (be : crypto_backend) (HASH_SHA_1 : Nat) (cp : crypto_pk)
    (dac : List Nat) (sda_data : Option (List Nat)) : Res tlvdb := do
  let d0 ← rd dac 0
  let d1 ← rd dac 1
  let msg := [3, HASH_SHA_1 % 256, d0, d1]
  emv_pki_sign_message be HASH_SHA_1 cp 0x93 0 msg [sda_data, none]

/-- Embedding of `emv_pki_sign_idn`; `idn` holds the `idn_len` bytes, `dyn_data` is `none`
for a NULL pointer. The bytes of `msg` are of type `unsigned char` and `pos` is an
`unsigned` (32 bits). -/
def emv_pki_sign_idn (be : crypto_backend) (HASH_SHA_1 : Nat) (cp : crypto_pk)
    (idn : List Nat) (dyn_data : Option (List Nat)) : Res tlvdb :=
  let idn_len := idn.length
  let msg := [5, HASH_SHA_1 % 256, (idn_len + 1) % 256, idn_len % 256] ++ idn
  let pos := (4 + idn_len) % 2 ^ 32
  emv_pki_sign_message be HASH_SHA_1 cp 0x9f4b 0 (msg.take pos) [dyn_data, none]

/-! ## `emv_pk.c` -/

/-- The macro `BCD(c)`: the value of a decimal digit, `none` for the result `-1`. -/
def BCD (c : Nat) : Option Nat :=
  if 0x30 ≤ c ∧ c ≤ 0x39 then some (c - 0x30) else none

/-- The macro `HEX(c)`: the value of a hexadecimal digit in either case, `none` for the
result `-1`. -/
def HEX (c : Nat) : Option Nat :=
  if 0x30 ≤ c ∧ c ≤ 0x39 then some (c - 0x30)
  else if 0x41 ≤ c ∧ c ≤ 0x46 then some (c - 0x41 + 10)
  else if 0x61 ≤ c ∧ c ≤ 0x66 then some (c - 0x61 + 10)
  else none

/-- The macro `TOHEX(v)`: a lower-case hexadecimal digit. -/
def TOHEX (v : Nat) : Nat := if v < 10 then v + 0x30 else v - 10 + 0x61

/-- The character `p[0]` for `p = buf + i`, where the list `buf` holds the characters of a
C string before its terminating NUL. -/
def chr (buf : List Nat) (i : Nat) : Nat := buf.getD i 0

/-- The loop `while (*p && *p == ' ') p++;` over the characters from position `p` on. -/
def skip_spaces_loop : List Nat → Nat → Nat
  | [], p => p
  | c :: rest, p => if c ≠ 0 ∧ c = 0x20 then skip_spaces_loop rest (p + 1) else p

/-- The position reached by `while (*p && *p == ' ') p++;` from position `p`. -/
def skip_spaces (buf : List Nat) (p : Nat) : Nat := skip_spaces_loop (buf.drop p) p

/-- The `while (left > 0)` loop of `emv_pk_read_bin` with `left` bytes to go, at position
`p`, after the bytes `bin` were stored: an error return value, or the position reached, the
bytes stored and the value stored in `*read` if one was stored. -/
def emv_pk_read_bin_loop (buf : List Nat) (size : Nat) (read : Bool) :
    Nat → Nat → List Nat → Except Int (Nat × List Nat × Option Nat)
  | 0, p, bin => .ok (p, bin, none)
  | left + 1, p, bin =>
    match HEX (chr buf p) with
    | none => .error (-(p : Int))
    | some c1 =>
      match HEX (chr buf (p + 1)) with
      | none => .error (-((p + 1 : Nat) : Int))
      | some c2 =>
        if chr buf (p + 2) = 0x3a then
          emv_pk_read_bin_loop buf size read left (p + 3) (bin ++ [c1 * 16 + c2])
        else if read then .ok (p + 2, bin ++ [c1 * 16 + c2], some (size - left))
        else if left = 0 then .ok (p + 2, bin ++ [c1 * 16 + c2], none)
        else .error (-((p + 2 : Nat) : Int))

/-- Embedding of `emv_pk_read_bin`: the return value, the bytes stored through `bin` and
the value stored in `*read` (`read` tells whether the pointer is non-NULL; `none` when
nothing was stored). -/
def emv_pk_read_bin (buf : List Nat) (size : Nat) (read : Bool) :
    Int × List Nat × Option Nat :=
  match emv_pk_read_bin_loop buf size read size (skip_spaces buf 0) [] with
  | .error l => (l, [], none)
  | .ok (p, bin, n) => ((skip_spaces buf p : Int) - 1, bin, n)

/-- The `for` loop of `emv_pk_read_ymv` with `n` bytes to go. -/
def emv_pk_read_ymv_loop (buf : List Nat) : Nat → Nat → List Nat → Except Int (Nat × List Nat)
  | 0, p, temp => .ok (p, temp)
  | n + 1, p, temp =>
    match BCD (chr buf p) with
    | none => .error (-(p : Int))
    | some c1 =>
      match BCD (chr buf (p + 1)) with
      | none => .error (-((p + 1 : Nat) : Int))
      | some c2 => emv_pk_read_ymv_loop buf n (p + 2) (temp ++ [c1 * 16 + c2])

/-- Embedding of `emv_pk_read_ymv`: the return value and the value of `*ymv`. -/
def emv_pk_read_ymv (buf : List Nat) : Int × Nat :=
  match emv_pk_read_ymv_loop buf 3 (skip_spaces buf 0) [] with
  | .error l => (l, 0)
  | .ok (p, temp) =>
    if temp.getD 1 0 > 0x12 ∨ temp.getD 2 0 > 0x31 then (-((skip_spaces buf p : Int) - 1), 0)
    else ((skip_spaces buf p : Int) - 1,
      temp.getD 0 0 * 0x10000 + temp.getD 1 0 * 0x100 + temp.getD 2 0)

/-- The `while (size > 1)` loop of `emv_pk_read_string` with `n` iterations to go. -/
def emv_pk_read_string_loop (buf : List Nat) : Nat → Nat → List Nat → Except Int (Nat × List Nat)
  | 0, p, str => .ok (p, str)
  | n + 1, p, str =>
    if chr buf p = 0x20 then .ok (p, str)
    else if chr buf p < 0x20 ∨ chr buf p ≥ 0x7f then .error (-(p : Int))
    else emv_pk_read_string_loop buf n (p + 1) (str ++ [chr buf p])

/-- Embedding of `emv_pk_read_string`: the return value and the characters stored before
the terminating NUL. -/
def emv_pk_read_string (buf : List Nat) (size : Nat) : Int × List Nat :=
  match emv_pk_read_string_loop buf (size - 1) (skip_spaces buf 0) [] with
  | .error l => (l, [])
  | .ok (p, str) => ((skip_spaces buf p : Int) - 1, str)

/-- A byte array of `n` zeroed bytes after the bytes `bin` were stored at its start. -/
def stored (n : Nat) (bin : List Nat) : List Nat := bin ++ List.replicate (n - bin.length) 0

/-- The steps `if (l <= 0) goto out; buf += l;` of `emv_pk_parse_pk` after a read that
returned `l`: nothing when the key is dropped, otherwise the text from `buf + l` on. -/
def advance (buf : List Nat) (l : Int) : Option (List Nat) :=
  if l ≤ 0 then none else some (buf.drop l.toNat)

/-- Embedding of `emv_pk_parse_pk`: `none` for NULL. `PK_RSA` and `HASH_SHA_1` are the
enumeration constants of `openemv/crypto.h`, a header that is not among the sources; the
fields they are stored in are of type `unsigned char`. Memory from `malloc` starts as
zeroes. -/
def emv_pk_parse_pk (PK_RSA HASH_SHA_1 : Nat) (buf : List Nat) : Option emv_pk := do
  let rid := emv_pk_read_bin buf 5 false
  let buf ← advance buf rid.1
  let index := emv_pk_read_bin buf 1 false
  let buf ← advance buf index.1
  let expire := emv_pk_read_ymv buf
  let buf ← advance buf expire.1
  let temp := emv_pk_read_string buf 10
  let buf ← advance buf temp.1
  if temp.2 ≠ [0x72, 0x73, 0x61] then none else do
  let exp := emv_pk_read_bin buf 3 true
  let buf ← advance buf exp.1
  let modulus := emv_pk_read_bin buf 256 true
  let buf ← advance buf modulus.1
  let temp := emv_pk_read_string buf 10
  let buf ← advance buf temp.1
  if temp.2 ≠ [0x73, 0x68, 0x61, 0x31] then none else do
  let hash := emv_pk_read_bin buf 20 false
  if hash.1 ≤ 0 then none else
  some
    { rid := stored 5 rid.2.1, index := (stored 1 index.2.1).getD 0 0,
      serial := List.replicate 3 0, pan := List.replicate 10 0,
      hash_algo := HASH_SHA_1 % 256, pk_algo := PK_RSA % 256, hash := stored 20 hash.2.1,
      exp := stored 3 exp.2.1, elen := exp.2.2.getD 0, mlen := modulus.2.2.getD 0,
      modulus := stored 256 modulus.2.1, expire := expire.2 }

/-- The `for (i = 1; i < len; i++)` loop of `emv_pk_write_bin` over the bytes after the
first. -/
def emv_pk_write_bin_loop : List Nat → List Nat
  | [] => []
  | b :: rest => [0x3a, TOHEX (b >>> 4), TOHEX (b &&& 0xf)] ++ emv_pk_write_bin_loop rest

/-- Embedding of `emv_pk_write_bin` for a destination of `outlen` free bytes: the
characters written, whose number is the return value (none for the return value 0). -/
def emv_pk_write_bin (outlen : Nat) (buf : List Nat) (len : Nat) : Res (List Nat) :=
  if len = 0 then .ok []
  else if outlen < (len * 3) % SIZE_MOD then .ok []
  else do
    let bytes ← rdn buf 0 len
    let b0 ← rd bytes 0
    let text := [TOHEX (b0 >>> 4), TOHEX (b0 &&& 0xf)] ++ emv_pk_write_bin_loop (bytes.drop 1)
      ++ [0x20]
    if text.length ≤ outlen then .ok text else .fault

/-- Embedding of `emv_pk_write_str`: the characters written, whose number is the return
value. -/
def emv_pk_write_str (outlen : Nat) (str : List Nat) : List Nat :=
  if str.length = 0 then []
  else if outlen < str.length then []
  else str

/-- Embedding of `emv_pk_dump_pk`: the characters of the string returned, before its
terminating NUL. -/
def emv_pk_dump_pk (PK_RSA HASH_SHA_1 : Nat) (pk : emv_pk) : Res (List Nat) := do
  let outsize := 1024
  let out : List Nat := []
  let rc ← emv_pk_write_bin (size_sub outsize out.length) pk.rid 5
  reject_if (rc.length = 0)
  let out := out ++ rc
  let rc ← emv_pk_write_bin (size_sub outsize out.length) [pk.index] 1
  reject_if (rc.length = 0)
  let out := out ++ rc
  reject_if (out.length + 7 > outsize)
  let out := out ++ [TOHEX ((pk.expire >>> 20) &&& 0xf), TOHEX ((pk.expire >>> 16) &&& 0xf),
    TOHEX ((pk.expire >>> 12) &&& 0xf), TOHEX ((pk.expire >>> 8) &&& 0xf),
    TOHEX ((pk.expire >>> 4) &&& 0xf), TOHEX ((pk.expire >>> 0) &&& 0xf), 0x20]
  let out ← (if pk.pk_algo = PK_RSA then do
      let rc := emv_pk_write_str (size_sub outsize out.length) [0x72, 0x73, 0x61]
      reject_if (rc.length = 0)
      Res.ok (out ++ rc ++ [0x20])
    else do
      reject_if (out.length + 4 > outsize)
      Res.ok (out ++ [0x3f, 0x3f, TOHEX (pk.pk_algo >>> 4), TOHEX (pk.pk_algo &&& 0xf)]))
  let rc ← emv_pk_write_bin (size_sub outsize out.length) pk.exp pk.elen
  reject_if (rc.length = 0)
  let out := out ++ rc
  let rc ← emv_pk_write_bin (size_sub outsize out.length) pk.modulus pk.mlen
  reject_if (rc.length = 0)
  let out := out ++ rc
  let out ← (if pk.hash_algo = HASH_SHA_1 then do
      let rc := emv_pk_write_str (size_sub outsize out.length) [0x73, 0x68, 0x61, 0x31]
      reject_if (rc.length = 0)
      Res.ok (out ++ rc ++ [0x20])
    else do
      reject_if (out.length + 4 > outsize)
      Res.ok (out ++ [0x3f, 0x3f, TOHEX (pk.pk_algo >>> 4), TOHEX (pk.pk_algo &&& 0xf)]))
  let rc ← emv_pk_write_bin (size_sub outsize out.length) pk.hash 20
  reject_if (rc.length = 0)
  let out := out ++ rc
  .ok (out.take (out.length - 1))

/-- Embedding of `emv_pk_verify`. -/
def emv_pk_verify (be : crypto_backend) (pk : emv_pk) : Res Bool :=
  match crypto_hash_open be pk.hash_algo with
  | none => .ok false
  | some ch => do
    let rid ← rdn pk.rid 0 5
    let ch := crypto_hash_write ch rid
    let ch := crypto_hash_write ch [pk.index]
    let m ← rdn pk.modulus 0 pk.mlen
    let ch := crypto_hash_write ch m
    let x ← rdn pk.exp 0 pk.elen
    let ch := crypto_hash_write ch x
    match crypto_hash_read ch with
    | none => .ok false
    | some h =>
      let hsize := crypto_hash_get_size ch
      if hsize = 0 then .ok false
      else do
        let a ← rdn h 0 hsize
        let b ← rdn pk.hash 0 hsize
        .ok (decide (a = b))

/-- The loop of `emv_pk_get_ca_pk` over the buffers that `fgets` delivers. -/
def emv_pk_get_ca_pk_loop (be : crypto_backend) (PK_RSA HASH_SHA_1 : Nat) (rid : List Nat)
    (idx : Nat) : List (List Nat) → Res emv_pk
  | [] => .null
  | buf :: rest =>
    match emv_pk_parse_pk PK_RSA HASH_SHA_1 buf with
    | none => emv_pk_get_ca_pk_loop be PK_RSA HASH_SHA_1 rid idx rest
    | some pk => do
      let a ← rdn pk.rid 0 5
      let b ← rdn rid 0 5
      if a ≠ b ∨ pk.index ≠ idx then emv_pk_get_ca_pk_loop be PK_RSA HASH_SHA_1 rid idx rest
      else do
        let v ← emv_pk_verify be pk
        if v then .ok pk else .null

/-- Embedding of `emv_pk_get_ca_pk`. The configuration and the file system are outside the
sources: `file` is `none` when `fopen` fails and otherwise the buffers that successive
calls of `fgets` deliver. -/
def emv_pk_get_ca_pk (be : crypto_backend) (PK_RSA HASH_SHA_1 : Nat)
    (file : Option (List (List Nat))) (rid : List Nat) (idx : Nat) : Res emv_pk :=
  match file with
  | none => .null
  | some lines => emv_pk_get_ca_pk_loop be PK_RSA HASH_SHA_1 rid idx lines

/-! ## A small backend for concrete evaluations -/

/-- Checksum behind the digest of the test backend. -/
def test_sum (d : List Nat) : Nat :=
  d.foldl (fun acc b => (acc * 31 + b + 7) % 65521) 1

/-- Digest of the test backend: 20 bytes derived from `test_sum`. -/
def test_digest (d : List Nat) : List Nat :=
  (List.range 20).map (fun i => (test_sum d * (i + 3) + i) % 256)

/-- Hash context of the test backend (algorithm byte 1, 20-byte digest). -/
def test_hash : crypto_hash :=
  { algo := 1, written := [], get_size := 20,
    read := fun d => some (test_digest d), get_size_lt := by decide }

/-- Public operation of the test backend: the identity on buffers shorter than
`2 ^ 64`. -/
def test_encrypt (x : List Nat) : Option (List Nat) :=
  if x.length < 2 ^ 64 then some x else none

/-- Key context of the test backend for a modulus of `n` bytes: both operations are the
identity, so the public operation inverts the private one. -/
def test_pk (n : Nat) : crypto_pk :=
  { algo := 1, encrypt := test_encrypt, decrypt := some (fun x => some x),
    get_nbits := some (8 * n), get_parameter := none,
    encrypt_lt := by
      intro x y h
      unfold test_encrypt at h
      split at h
      · cases h; assumption
      · cases h }

/-- The test backend: hash algorithm 1 only, key algorithm 1 only. -/
def test_backend : crypto_backend :=
  { hash_open := fun a => if a = 1 then some test_hash else none,
    pk_open := fun a m _ => if a = 1 then some (test_pk m.length) else none }

/-- A signer key of `n` modulus bytes for the test backend. -/
def test_signer (n : Nat) : emv_pk :=
  { rid := [0xA0, 0, 0, 0, 3], index := 0x92, serial := [0, 0, 0],
    pan := List.replicate 10 0, hash_algo := 1, pk_algo := 1,
    hash := List.replicate 20 0, exp := [3, 0, 0], elen := 1, mlen := n,
    modulus := List.replicate n 0xC5, expire := 0x221231 }

/-! ## A textbook RSA backend for concrete evaluations -/

/-- The number that a byte string denotes, most significant byte first. -/
def be_to_nat (l : List Nat) : Nat := l.foldl (fun a b => a * 256 + b) 0

/-- The `len` bytes of a number, most significant byte first. -/
def nat_to_be (len v : Nat) : List Nat :=
  (List.range len).map (fun i => v / 256 ^ (len - 1 - i) % 256)

/-- Square-and-multiply with `fuel` exponent bits to go: `acc * b ^ e` modulo `m`. -/
def pow_mod_loop (m : Nat) : Nat → Nat → Nat → Nat → Nat
  | 0, _, _, acc => acc
  | fuel + 1, b, e, acc =>
    if e = 0 then acc
    else pow_mod_loop m fuel (b * b % m) (e / 2) (if e % 2 = 1 then acc * b % m else acc)

/-- Modular exponentiation `b ^ e mod m` by square-and-multiply for an exponent of at most
`bits` bits. -/
def pow_mod (bits b e m : Nat) : Nat := pow_mod_loop m bits b e (1 % m)

/-- The textbook RSA operation with modulus `n` and exponent `k` on a buffer of `len` bytes
that denotes a number below `n`, for an exponent below `2 ^ (8 * len)`: the `len` bytes of
`x ^ k mod n`; NULL otherwise. -/
def rsa_op (n k len : Nat) (x : List Nat) : Option (List Nat) :=
  if x.length = len ∧ len < 2 ^ 64 ∧ be_to_nat x < n then
    some (nat_to_be len (pow_mod (8 * len) (be_to_nat x) k n))
  else none

/-- A key context of the RSA backend: public exponent `e`, private exponent `d` if the
private key is present. -/
def rsa_pk (n e : Nat) (d : Option Nat) (len : Nat) : crypto_pk :=
  { algo := 1, encrypt := rsa_op n e len,
    decrypt := d.map (fun k => rsa_op n k len),
    get_nbits := some (8 * len), get_parameter := none,
    encrypt_lt := by
      intro x y h
      unfold rsa_op at h
      split at h
      · rename_i hc
        cases h
        simp only [nat_to_be, List.length_map, List.length_range]
        exact hc.2.1
      · cases h }

/-- The RSA backend: the hash of the test backend and textbook RSA for the key algorithm 1,
the key being opened from its modulus and public exponent. -/
def rsa_backend : crypto_backend :=
  { hash_open := fun a => if a = 1 then some test_hash else none,
    pk_open := fun a m e =>
      if a = 1 then some (rsa_pk (be_to_nat m) (be_to_nat e) none m.length) else none }

/-- The modulus of a 1024-bit RSA key, the product of two primes of 512 bits. -/
def rsa_modulus : List Nat := [
    0xbb, 0xb9, 0x27, 0x2c, 0x26, 0xc3, 0x96, 0x25, 0xfa, 0x49, 0x2c, 0x92, 0xbe, 0x90, 0xef, 0x67,
    0xde, 0xb2, 0x18, 0x5d, 0x5b, 0x9f, 0x9d, 0x56, 0x87, 0xe3, 0xba, 0x1b, 0x65, 0xe2, 0xef, 0x09,
    0x34, 0xdd, 0x6f, 0x2c, 0xca, 0x11, 0x7a, 0xfc, 0x84, 0x7e, 0x30, 0x25, 0xcd, 0x8a, 0x21, 0xf3,
    0xd9, 0xf9, 0xf8, 0x7b, 0x9b, 0x58, 0x43, 0x47, 0xc3, 0x43, 0x42, 0x12, 0xfb, 0x09, 0x92, 0x0e,
    0x71, 0xde, 0xf3, 0xca, 0x1e, 0xb7, 0xac, 0xc0, 0x42, 0x11, 0x07, 0x4a, 0xda, 0x53, 0xca, 0x6c,
    0x23, 0x86, 0x31, 0x8f, 0x36, 0xc0, 0xc6, 0x17, 0x0d, 0x95, 0x09, 0xdb, 0x1c, 0xea, 0x9f, 0x3f,
    0x72, 0x04, 0xb7, 0xf9, 0x91, 0xa6, 0xec, 0xb4, 0xa5, 0xb9, 0xa6, 0xc5, 0x93, 0x68, 0xe4, 0xb1,
    0xf6, 0x59, 0x80, 0x53, 0x33, 0xdd, 0x73, 0x3c, 0xae, 0x70, 0xf6, 0x11, 0x3e, 0xaf, 0x7a, 0x13]

/-- The private exponent of that key for the public exponent 3. -/
def rsa_private_exponent : List Nat := [
    0x1f, 0x49, 0x86, 0x87, 0x5b, 0xcb, 0x43, 0xb0, 0xff, 0x0c, 0x32, 0x18, 0x75, 0x18, 0x27, 0xe6,
    0xa5, 0x1d, 0xae, 0xba, 0x39, 0xef, 0xef, 0x8e, 0x6b, 0xfb, 0x49, 0xaf, 0x3b, 0xa5, 0xd2, 0x81,
    0x88, 0xcf, 0x92, 0x87, 0x77, 0x02, 0xe9, 0xd4, 0xc0, 0xbf, 0xb2, 0xb0, 0xf7, 0x97, 0x05, 0xa8,
    0xa4, 0x54, 0x54, 0x14, 0x99, 0xe4, 0x0b, 0x36, 0xa0, 0x8b, 0x35, 0xad, 0xd4, 0x81, 0x98, 0x57,
    0x74, 0x66, 0x80, 0x64, 0xa5, 0xa0, 0x31, 0x67, 0x02, 0xf8, 0x18, 0x52, 0x81, 0xb5, 0x17, 0xd5,
    0x6e, 0x45, 0x94, 0x0e, 0xef, 0x1e, 0x7f, 0xa6, 0x68, 0xa2, 0x5e, 0x15, 0xab, 0xdb, 0x08, 0x36,
    0x8c, 0x73, 0x4f, 0x4e, 0x6b, 0xc9, 0xd5, 0x5b, 0x58, 0xa5, 0xc8, 0xc6, 0xe1, 0xd0, 0xb0, 0x3d,
    0xa2, 0xf1, 0x10, 0xc7, 0x8b, 0xa0, 0xfc, 0xd8, 0xa5, 0x8a, 0x36, 0xea, 0x66, 0xbe, 0xc3, 0x73]

/-- The private key context of the 1024-bit RSA key. -/
def rsa_signer_cp : crypto_pk :=
  rsa_pk (be_to_nat rsa_modulus) 3 (some (be_to_nat rsa_private_exponent)) 128

/-- The public key of the 1024-bit RSA key as the signer key of the scenarios. -/
def rsa_signer : emv_pk :=
  { rid := [0xA0, 0, 0, 0, 3], index := 0x92, serial := [0, 0, 0],
    pan := List.replicate 10 0, hash_algo := 1, pk_algo := 1,
    hash := List.replicate 20 0, exp := [3, 0, 0], elen := 1, mlen := 128,
    modulus := rsa_modulus, expire := 0x221231 }

/-! ## Notions used in the statements -/

/-- The bytes a variadic TLV list contributes to the hash: the values in the order
given, up to the first NULL. -/
def tlvs_bytes : List (Option tlv) → List Nat
  | [] => []
  | none :: _ => []
  | some t :: rest => t.value ++ tlvs_bytes rest

/-- The bytes a variadic buffer list contributes to the hash in `emv_pki_sign_message`:
the buffers in the order given, up to the first NULL. -/
def bufs_bytes : List (Option (List Nat)) → List Nat
  | [] => []
  | none :: _ => []
  | some b :: rest => b ++ bufs_bytes rest

/-- Length in bytes of the envelope built by `emv_pki_sign_message`, `(nbits + 7) / 8`. -/
def envelope_len (cp : crypto_pk) : Nat := ((crypto_pk_get_nbits cp + 7) % SIZE_MOD) / 8

/-- The part of the envelope between header and digest for a message `msg` and `part_len`
free bytes: the first `part_len` bytes of `msg`, padded with `0xBB`. -/
def envelope_part (msg : List Nat) (part_len : Nat) : List Nat :=
  msg.take part_len ++ List.replicate (part_len - msg.length) 0xbb

/-- The message that `emv_pki_sign_key` assembles for the key `ipk`: message type, PAN,
expiry month and year, serial, hash and key algorithm, the low bytes of the modulus and
exponent lengths, modulus. -/
def sign_key_msg (ipk : emv_pk) (msgtype pan_len : Nat) : List Nat :=
  [msgtype] ++ ipk.pan.take pan_len ++
    [(ipk.expire >>> 8) &&& 0xff, (ipk.expire >>> 16) &&& 0xff] ++ ipk.serial.take 3 ++
    [ipk.hash_algo, ipk.pk_algo, ipk.mlen % 256, ipk.elen % 256] ++ ipk.modulus.take ipk.mlen

/-- The nibble at nibble position `pos` of a byte string: the high nibble `c >> 4` of byte
`pos / 2` when `pos` is even, its low nibble `c & 0xf` when `pos` is odd; nothing past the
end. -/
def nibble_at (value : List Nat) (pos : Nat) : Option Nat :=
  match value[pos / 2]? with
  | some c => some (if pos % 2 = 0 then c >>> 4 else c &&& 0xf)
  | none => none

/-- The characters of a string as character codes. -/
def cstr (s : String) : List Nat := s.data.map Char.toNat

/-- The two hexadecimal digits that `emv_pk_write_bin` writes for the byte `b`. -/
def hexpair (b : Nat) : List Nat := [TOHEX (b >>> 4), TOHEX (b &&& 0xf)]

/-- A field of the registry line: the bytes as pairs of hexadecimal digits separated by
colons. -/
def hexfield : List Nat → List Nat
  | [] => []
  | [b] => hexpair b
  | b :: c :: rest => hexpair b ++ 0x3a :: hexfield (c :: rest)

/-- The six digits that `emv_pk_dump_pk` writes for `expire`. -/
def expire_digits (expire : Nat) : List Nat :=
  [TOHEX ((expire >>> 20) &&& 0xf), TOHEX ((expire >>> 16) &&& 0xf),
    TOHEX ((expire >>> 12) &&& 0xf), TOHEX ((expire >>> 8) &&& 0xf),
    TOHEX ((expire >>> 4) &&& 0xf), TOHEX ((expire >>> 0) &&& 0xf)]

/-- The registry line of a key with recognised algorithms: RID, index, expiry, `rsa`,
exponent, modulus, `sha1`, hash, separated by single spaces. -/
def registry_line (pk : emv_pk) : List Nat :=
  hexfield (pk.rid.take 5) ++ 0x20 :: (hexfield [pk.index] ++ 0x20 :: (expire_digits pk.expire
    ++ 0x20 :: ([0x72, 0x73, 0x61] ++ 0x20 :: (hexfield (pk.exp.take pk.elen)
    ++ 0x20 :: (hexfield (pk.modulus.take pk.mlen) ++ 0x20 :: ([0x73, 0x68, 0x61, 0x31]
    ++ 0x20 :: hexfield (pk.hash.take 20)))))))

/-- A text whose first character exists and is neither a space nor NUL. -/
def starts_token (l : List Nat) : Prop := ∃ c r, l = c :: r ∧ c ≠ 0x20

/-- The envelope that `emv_pki_sign_message` hands to the RSA private operation for the
message `msg` and the extra bytes `extra`: header `6A`, the part of the message that fits
(padded with `BB`), the digest of that part, the rest of the message and the extra bytes,
trailer `BC`; nothing when the hash yields no digest. -/
def signed_envelope (ch : crypto_hash) (cp : crypto_pk) (msg extra : List Nat) :
    Option (List Nat) :=
  (crypto_hash_read (crypto_hash_write ch
    (envelope_part msg (envelope_len cp - 2 - ch.get_size)
      ++ msg.drop (envelope_len cp - 2 - ch.get_size) ++ extra))).map
    (fun h => [0x6a] ++ envelope_part msg (envelope_len cp - 2 - ch.get_size)
      ++ h.take ch.get_size ++ [0xbc])

/-- Check by evaluation that on the buffer `env` (if there is one) the private operation of
`cp` returns a buffer of the same length which the public operation of `kcp` maps back to
`env`. -/
def check_inverts (cp kcp : crypto_pk) (env : Option (List Nat)) : Bool :=
  match env with
  | none => true
  | some x =>
    match crypto_pk_decrypt cp x with
    | none => false
    | some c => decide (c.length = x.length ∧ crypto_pk_encrypt kcp c = some x)

/-- The nibbles of a byte string in order: for each byte its high nibble `c >> 4`, then its
low nibble `c & 0xf`. -/
def nibbles : List Nat → List Nat
  | [] => []
  | c :: rest => (c >>> 4) :: (c &&& 0xf) :: nibbles rest

/-- The length of a BCD number: the number of nibbles before the first nibble `0xF`. -/
def bcd_length (v : List Nat) : Nat := ((nibbles v).takeWhile (fun x => x ≠ 0xf)).length

/-! ## Concrete inputs -/

/-- Concrete certificate for message type 3 under the test backend: header, an 8-byte
body, the digest of the body followed by the extra bytes `1 2 3`, trailer. -/
def c1_cert : tlv :=
  { tag := 0x93,
    value := [0x6a, 3, 1, 0xab, 0xcd, 0xbb, 0xbb, 0xbb, 0xbb] ++
      test_digest [3, 1, 0xab, 0xcd, 0xbb, 0xbb, 0xbb, 0xbb, 1, 2, 3] ++ [0xbc] }

/-- Extra TLVs for `c1_cert`. -/
def c1_extras : List (Option tlv) := [some { tag := 0, value := [1, 2] },
  some { tag := 0, value := [3] }, none]

/-- Issuer key of scenario S2: PAN prefix `41 11 11 11`, 128-byte modulus. -/
def test_issuer : emv_pk :=
  { rid := [0xA0, 0, 0, 0, 3], index := 0x92, serial := [1, 2, 3],
    pan := [0x41, 0x11, 0x11, 0x11, 0xff, 0xff, 0xff, 0xff, 0xff, 0xff], hash_algo := 1,
    pk_algo := 1, hash := List.replicate 20 0, exp := [3, 0, 0], elen := 1, mlen := 128,
    modulus := (List.range 128).map (fun i => (i * 7 + 3) % 256), expire := 0x251217 }

/-- The PAN of scenarios S2 and S3, `41 11 11 11 11 11 11 11 FF FF`. -/
def test_pan : tlv :=
  { tag := 0x5a, value := [0x41, 0x11, 0x11, 0x11, 0x11, 0x11, 0x11, 0x11, 0xff, 0xff] }

/-- The records of scenario S2: the output of `emv_pki_sign_issuer_cert` under a 128-byte
signer of the test backend, followed by the PAN. -/
def s2_db : tlvdb :=
  match emv_pki_sign_issuer_cert test_backend 1 (test_pk 128) test_issuer with
  | .ok db => db ++ [test_pan]
  | _ => []

/-- ICC key of scenario S3: the full PAN, 144-byte modulus. -/
def test_icc : emv_pk :=
  { rid := [0xA0, 0, 0, 0, 3], index := 0x92, serial := [4, 5, 6],
    pan := [0x41, 0x11, 0x11, 0x11, 0x11, 0x11, 0x11, 0x11, 0xff, 0xff], hash_algo := 1,
    pk_algo := 1, hash := List.replicate 20 0, exp := [1, 0, 1], elen := 3, mlen := 144,
    modulus := (List.range 144).map (fun i => (i * 5 + 1) % 256), expire := 0x261130 }

/-- Static data of scenario S3. -/
def s3_sda : List Nat := [0x5f, 0x24, 3, 0x26, 0x11, 0x30]

/-- The certificate records of scenario S3: the output of `emv_pki_sign_icc_cert` under a
128-byte signer of the test backend. -/
def s3_certs : tlvdb :=
  match emv_pki_sign_icc_cert test_backend 1 (test_pk 128) test_icc (some s3_sda) with
  | .ok db => db
  | _ => []

/-- The plaintext of the S3 certificate (the test backend's RSA is the identity). -/
def s3_plain : List Nat :=
  match tlvdb_get s3_certs 0x9f46 with
  | some t => t.value
  | none => []

/-- A PAN that differs from `test_pan` in its last nibble only, after the `F` that ends
the number. -/
def pan_last_nibble : tlv :=
  { tag := 0x5a, value := [0x41, 0x11, 0x11, 0x11, 0x11, 0x11, 0x11, 0x11, 0xff, 0xf0] }

/-- A PAN that differs from `test_pan` in its fourth digit. -/
def pan_fourth_digit : tlv :=
  { tag := 0x5a, value := [0x41, 0x12, 0x11, 0x11, 0x11, 0x11, 0x11, 0x11, 0xff, 0xff] }

/-- The key that recovery returns in scenario S2: the issuer key with the day of
`expire` replaced by `0x31`. -/
def s2_key : emv_pk := { test_issuer with expire := 0x251231 }

/-- The key that recovery returns in scenario S3. -/
def s3_key : emv_pk := { test_icc with expire := 0x261131 }

/-- The plaintext of the S2 certificate (the test backend's RSA is the identity). -/
def s2_plain : List Nat :=
  match tlvdb_get s2_db 0x90 with
  | some t => t.value
  | none => []

/-- The record that `emv_pki_sign_idn` emits for the IDN `07 08` and the dynamic data
`01 02 03` under a 30-byte signer of the test backend. -/
def idn_db : tlvdb :=
  match emv_pki_sign_idn test_backend 1 (test_pk 30) [7, 8] (some [1, 2, 3]) with
  | .ok db => db
  | _ => []

/-- The record that `emv_pki_sign_idn` emits for the empty IDN and the dynamic data
`01 02 03` under a 30-byte signer of the test backend. -/
def empty_idn_db : tlvdb :=
  match emv_pki_sign_idn test_backend 1 (test_pk 30) [] (some [1, 2, 3]) with
  | .ok db => db
  | _ => []

/-- A signed message of type 5 under a 30-byte signer of the test backend whose body of 9
bytes is `6A 05 01 06 05 A1 A2 A3 A4`: inner length 6, IDN length 5. -/
def long_idn_db : tlvdb :=
  match emv_pki_sign_message test_backend 1 (test_pk 30) 0x9f4b 0
    [5, 1, 6, 5, 0xa1, 0xa2, 0xa3, 0xa4] [some [1, 2, 3], none] with
  | .ok db => db
  | _ => []

/-- The plaintext of the certificate in `long_idn_db` (the test backend's RSA is the
identity). -/
def long_idn_plain : List Nat :=
  match tlvdb_get long_idn_db 0x9f4b with
  | some t => t.value
  | none => []

/-- The records of a certificate of type 2 under a 64-byte signer of the test backend whose
body announces a 20-byte modulus and a 4-byte exponent, signed together with the exponent
`01 00 00 01`. -/
def long_exp_db : tlvdb :=
  match emv_pki_sign_message test_backend 1 (test_pk 64) 0x90 0x92
    ([2, 0x41, 0x11, 0x11, 0x11, 0x12, 0x25, 1, 2, 3, 1, 1, 20, 4] ++ List.replicate 20 0xc5)
    [some [1, 0, 0, 1], none] with
  | .ok db => db
  | _ => []

/-- The records of a certificate of type 2 under a 40-byte signer of the test backend whose
body announces a 1-byte modulus and holds 4 modulus bytes, with 3 more bytes in the
remainder record `0x92`, signed together with the exponent `03`. -/
def short_modulus_db : tlvdb :=
  match emv_pki_sign_message test_backend 1 (test_pk 40) 0x90 0x92
    ([2, 0x41, 0x11, 0x11, 0x11, 0x12, 0x25, 1, 2, 3, 1, 1, 1, 1] ++ [0xc1, 0xc2, 0xc3, 0xc4,
      0xc5, 0xc6, 0xc7])
    [some [3], none] with
  | .ok db => db
  | _ => []

/-- An encoding of a TLV for concrete evaluations: two tag bytes, one length byte, the
value. -/
def test_encode (t : tlv) : List Nat := [t.tag / 256 % 256, t.tag % 256, t.len % 256] ++ t.value

/-- The unpredictable number record of scenarios S5 and S6. -/
def s5_db : tlvdb := [{ tag := 0x9f37, value := [0x11, 0x22, 0x33, 0x44] }]

/-- The records other than the certificate in `this_db` of scenario S5 for the CID `cid`. -/
def s5_records (cid : Nat) : tlvdb :=
  [{ tag := 0x9f27, value := [cid] }, { tag := 0x9f36, value := [0, 1] }]

/-- The PDOL, CRM1 and CRM2 data of scenario S5. -/
def s5_pdol : List Nat := [0x83, 0]

/-- The first generate-AC data of scenario S5. -/
def s5_crm1 : List Nat := [1, 2, 3]

/-- The second generate-AC data of scenario S5. -/
def s5_crm2 : List Nat := [4, 5]

/-- The signed dynamic application data of scenario S5 with the IDN length byte `n`:
message type 5, hash algorithm, inner length 32, IDN length, the IDN `07 08`, the CID `80`,
an 8-byte cryptogram and the digest of the transaction data. -/
def s5_msg (n : Nat) : List Nat :=
  [5, 1, 32, n, 7, 8, 0x80] ++ [0xa0, 0xa1, 0xa2, 0xa3, 0xa4, 0xa5, 0xa6, 0xa7] ++
    test_digest (s5_pdol ++ s5_crm1 ++ s5_crm2 ++ test_encode { tag := 0x9f27, value := [0x80] }
      ++ test_encode { tag := 0x9f36, value := [0, 1] })

/-- The database `this_db` of scenarios S5 and S6: the certificate `0x9F4B` signed under a
64-byte signer of the test backend for the IDN length byte `n`, then the records for the
CID `cid`. -/
def s5_this_db (n cid : Nat) : tlvdb :=
  match emv_pki_sign_message test_backend 1 (test_pk 64) 0x9f4b 0 (s5_msg n)
    [some [0x11, 0x22, 0x33, 0x44], none] with
  | .ok db => db ++ s5_records cid
  | _ => []

/-- The plaintext of the certificate of scenarios S5 and S6 (the test backend's RSA is the
identity). -/
def s5_plain : List Nat :=
  match tlvdb_get (s5_this_db 2 0) 0x9f4b with
  | some t => t.value
  | none => []

/-- The modulus of scenario S1: 128 bytes. -/
def s1_modulus : List Nat := (List.range 128).map (fun i => (i * 11 + 0x85) % 256)

/-- The key context of scenario S1 for the test backend: modulus `s1_modulus`, exponent
`03`. -/
def s1_cp : crypto_pk :=
  { algo := 1, encrypt := test_encrypt, decrypt := some (fun x => some x),
    get_nbits := some (8 * 128),
    get_parameter := some (fun p => if p = 0 then some s1_modulus else if p = 1 then some [3]
      else none),
    encrypt_lt := (test_pk 128).encrypt_lt }

/-- The key of scenario S1: RID `A0 00 00 00 03`, index `92`, expiry `22 12 31`, made by
`emv_pki_make_ca` under the test backend. -/
def s1_key : emv_pk :=
  match emv_pki_make_ca test_backend s1_cp (some [0xa0, 0, 0, 0, 3]) 0x92 0x221231 1 with
  | .ok pk => pk
  | _ => test_signer 0

/-- A key with a 16-byte modulus and the hash bytes `00 01 … 13` for the text form. -/
def dump_key : emv_pk :=
  { test_signer 16 with hash := List.range 20 }

/-- The registry line of the key of scenario S1, written by `emv_pk_dump_pk`. -/
def s1_line : List Nat :=
  match emv_pk_dump_pk 1 1 s1_key with
  | .ok t => t
  | _ => []

/-- The key that `emv_pk_parse_pk` reads from `s1_line`. -/
def s1_parsed : emv_pk :=
  match emv_pk_parse_pk 1 1 s1_line with
  | some pk => pk
  | none => test_signer 0

/-- A registry file of three lines: a comment, a line for another RID, and the line of
scenario S1 ended by a newline. -/
def s1_file : List (List Nat) :=
  [cstr "# certification authority keys",
   cstr ("a0:00:00:00:04 92 221231 rsa 03 c5:c5:c5:c5:c5:c5:c5:c5:c5:c5:c5:c5:c5:c5:c5:c5 " ++
     "sha1 00:01:02:03:04:05:06:07:08:09:0a:0b:0c:0d:0e:0f:10:11:12:13 "),
   s1_line ++ [0x0a]]

/-- A backend whose only hash has a digest of 0 bytes. -/
def empty_digest_backend : crypto_backend :=
  { hash_open := fun _ =>
      some { algo := 0, written := [], get_size := 0, read := fun _ => some [],
             get_size_lt := by decide },
    pk_open := fun _ _ _ => none }

/-- The public key context that `crypto_pk_open` of the RSA backend builds from the modulus
and the exponent of `rsa_signer`. -/
def rsa_signer_pub : crypto_pk :=
  match crypto_pk_open rsa_backend rsa_signer.pk_algo (rsa_signer.modulus.take rsa_signer.mlen)
    (rsa_signer.exp.take rsa_signer.elen) with
  | some k => k
  | none => rsa_signer_cp

/-! # Lemmas and theorems -/

/-! ## Basic lemmas -/

@[simp] theorem Res.ok_bind {α β : Type} (a : α) (f : α → Res β) :
    (Res.ok a >>= f) = f a := rfl

@[simp] theorem Res.null_bind {α β : Type} (f : α → Res β) :
    ((Res.null : Res α) >>= f) = .null := rfl

@[simp] theorem Res.fault_bind {α β : Type} (f : α → Res β) :
    ((Res.fault : Res α) >>= f) = .fault := rfl

theorem Res.bind_eq_ok {α β : Type} (r : Res α) (f : α → Res β) (b : β) :
    (r >>= f) = .ok b ↔ ∃ a, r = .ok a ∧ f a = .ok b := by
  cases r <;> simp

theorem or_null_eq_ok {α : Type} (o : Option α) (a : α) :
    or_null o = .ok a ↔ o = some a := by
  cases o <;> simp [or_null]

theorem or_fault_eq_ok {α : Type} (o : Option α) (a : α) :
    or_fault o = .ok a ↔ o = some a := by
  cases o <;> simp [or_fault]

theorem reject_if_eq_ok (c : Prop) [Decidable c] (u : Unit) :
    reject_if c = .ok u ↔ ¬ c := by
  unfold reject_if
  split <;> simp_all

theorem reject_if_pos (c : Prop) [Decidable c] (h : c) : reject_if c = .null := by
  simp [reject_if, h]

theorem reject_if_neg (c : Prop) [Decidable c] (h : ¬ c) : reject_if c = .ok () := by
  simp [reject_if, h]

theorem rd_eq_ok (buf : List Nat) (i b : Nat) : rd buf i = .ok b ↔ buf[i]? = some b := by
  unfold rd
  cases buf[i]? <;> simp

theorem rd_of_lt (buf : List Nat) (i : Nat) (h : i < buf.length) :
    rd buf i = .ok buf[i] := by
  rw [rd_eq_ok]
  exact List.getElem?_eq_getElem h

theorem rdn_eq_ok (buf : List Nat) (off n : Nat) (l : List Nat) :
    rdn buf off n = .ok l ↔ off + n ≤ buf.length ∧ l = (buf.drop off).take n := by
  unfold rdn
  split <;> simp_all [eq_comm]

theorem rdn_of_le (buf : List Nat) (off n : Nat) (h : off + n ≤ buf.length) :
    rdn buf off n = .ok ((buf.drop off).take n) := by
  simp [rdn, h]

theorem size_sub_of_le (a b : Nat) (ha : a < 2 ^ 64) (hb : b ≤ a) :
    size_sub a b = a - b := by
  unfold size_sub SIZE_MOD
  omega

theorem crypto_hash_write_nil (ch : crypto_hash) : crypto_hash_write ch [] = ch := by
  simp [crypto_hash_write]

theorem crypto_hash_write_write (ch : crypto_hash) (a b : List Nat) :
    crypto_hash_write (crypto_hash_write ch a) b = crypto_hash_write ch (a ++ b) := by
  simp [crypto_hash_write]

theorem hash_write_tlvs_eq (l : List (Option tlv)) (ch : crypto_hash) :
    hash_write_tlvs ch l = crypto_hash_write ch (tlvs_bytes l) := by
  induction l generalizing ch with
  | nil => simp [hash_write_tlvs, tlvs_bytes, crypto_hash_write_nil]
  | cons o rest ih =>
    cases o with
    | none => simp [hash_write_tlvs, tlvs_bytes, crypto_hash_write_nil]
    | some t => simp [hash_write_tlvs, tlvs_bytes, ih, crypto_hash_write_write]

/-- Inversion of a successful `emv_pki_decode_message`. -/
theorem decode_message_ok_inv (be : crypto_backend) (enc_pk : Option emv_pk) (msgtype : Nat)
    (cert_tlv : Option tlv) (extras : List (Option tlv)) (data : List Nat) (len : Nat)
    (h : emv_pki_decode_message be enc_pk msgtype cert_tlv extras = .ok (data, len)) :
    ∃ signer cert kcp algo ch h,
      enc_pk = some signer ∧ cert_tlv = some cert ∧
      cert.len = signer.mlen ∧
      crypto_pk_open be signer.pk_algo (signer.modulus.take signer.mlen)
        (signer.exp.take signer.elen) = some kcp ∧
      crypto_pk_encrypt kcp cert.value = some data ∧
      data[emv_pki_hash_psn msgtype]? = some algo ∧
      crypto_hash_open be algo = some ch ∧
      ch.get_size + 2 ≤ data.length ∧ data.length < 2 ^ 64 ∧
      data[0]? = some 0x6a ∧ data[data.length - 1]? = some 0xbc ∧ data[1]? = some msgtype ∧
      emv_pki_hash_psn msgtype ≠ 0 ∧
      crypto_hash_read (hash_write_tlvs (crypto_hash_write ch
        ((data.drop 1).take (data.length - 2 - ch.get_size))) extras) = some h ∧
      ch.get_size ≤ h.length ∧
      (data.drop (data.length - 1 - ch.get_size)).take ch.get_size = h.take ch.get_size ∧
      len = data.length - ch.get_size - 1 := by
  unfold emv_pki_decode_message at h
  obtain ⟨pk, hpk, g1⟩ := (Res.bind_eq_ok _ _ _).mp h
  clear h
  obtain ⟨c, hc, g2⟩ := (Res.bind_eq_ok _ _ _).mp g1
  clear g1
  obtain ⟨_, hlen, g3⟩ := (Res.bind_eq_ok _ _ _).mp g2
  clear g2
  obtain ⟨kcp, hk, g4⟩ := (Res.bind_eq_ok _ _ _).mp g3
  clear g3
  obtain ⟨d, hd, g5⟩ := (Res.bind_eq_ok _ _ _).mp g4
  clear g4
  obtain ⟨last, hlast, g6⟩ := (Res.bind_eq_ok _ _ _).mp g5
  clear g5
  obtain ⟨_, hl, g7⟩ := (Res.bind_eq_ok _ _ _).mp g6
  clear g6
  obtain ⟨first, hfirst, g8⟩ := (Res.bind_eq_ok _ _ _).mp g7
  clear g7
  obtain ⟨_, hf, g9⟩ := (Res.bind_eq_ok _ _ _).mp g8
  clear g8
  obtain ⟨second, hsecond, g10⟩ := (Res.bind_eq_ok _ _ _).mp g9
  clear g9
  obtain ⟨_, hs, g11⟩ := (Res.bind_eq_ok _ _ _).mp g10
  clear g10
  obtain ⟨_, hpos, g12⟩ := (Res.bind_eq_ok _ _ _).mp g11
  clear g11
  obtain ⟨algo, halgo, g13⟩ := (Res.bind_eq_ok _ _ _).mp g12
  clear g12
  obtain ⟨ch, hch, g14⟩ := (Res.bind_eq_ok _ _ _).mp g13
  clear g13
  obtain ⟨body, hb, g15⟩ := (Res.bind_eq_ok _ _ _).mp g14
  clear g14
  obtain ⟨stored, hst, g16⟩ := (Res.bind_eq_ok _ _ _).mp g15
  clear g15
  obtain ⟨hh, hread, g17⟩ := (Res.bind_eq_ok _ _ _).mp g16
  clear g16
  obtain ⟨computed, hcomp, g18⟩ := (Res.bind_eq_ok _ _ _).mp g17
  clear g17
  obtain ⟨_, heq, g19⟩ := (Res.bind_eq_ok _ _ _).mp g18
  clear g18
  rw [or_null_eq_ok] at hpk hc hk hch
  rw [or_fault_eq_ok] at hd hread
  rw [reject_if_eq_ok] at hlen hl hf hs hpos heq
  rw [rd_eq_ok] at hlast hfirst hsecond halgo
  rw [rdn_eq_ok] at hb hst hcomp
  obtain ⟨hb1, hb2⟩ := hb
  obtain ⟨hs1, hs2⟩ := hst
  obtain ⟨hc1, hc2⟩ := hcomp
  have hres := Res.ok.inj g19
  obtain ⟨hd1, hd2⟩ := Prod.mk.inj hres
  subst hd1
  have hdl : d.length < 2 ^ 64 := kcp.encrypt_lt _ _ hd
  have hgl : ch.get_size < 2 ^ 64 := ch.get_size_lt
  have h1 : size_sub d.length 1 < d.length := (List.getElem?_eq_some_iff.mp hlast).1
  have h2 : 1 < d.length := (List.getElem?_eq_some_iff.mp hsecond).1
  have e1 : size_sub d.length 1 = d.length - 1 := size_sub_of_le _ _ hdl (by omega)
  have e2 : size_sub d.length 2 = d.length - 2 := size_sub_of_le _ _ hdl (by omega)
  rw [e2] at hb1 hb2
  rw [e1] at hlast hs1 hs2
  unfold crypto_hash_get_size at hb1 hb2 hs1 hs2 hc1 hc2 hd2
  have hsz : ch.get_size + 2 ≤ d.length := by
    unfold size_sub SIZE_MOD at hb1 hs1
    omega
  have e3 : size_sub (d.length - 2) ch.get_size = d.length - 2 - ch.get_size :=
    size_sub_of_le _ _ (by omega) (by omega)
  have e4 : size_sub (d.length - 1) ch.get_size = d.length - 1 - ch.get_size :=
    size_sub_of_le _ _ (by omega) (by omega)
  have e5 : size_sub d.length ch.get_size = d.length - ch.get_size :=
    size_sub_of_le _ _ hdl (by omega)
  have e6 : size_sub (d.length - ch.get_size) 1 = d.length - ch.get_size - 1 :=
    size_sub_of_le _ _ (by omega) (by omega)
  rw [e3] at hb2
  rw [e4] at hs2
  rw [e5, e6] at hd2
  have hl' : last = 0xbc := by simpa using hl
  have hf' : first = 0x6a := by simpa using hf
  have hs' : second = msgtype := by simpa using hs
  have heq' : stored = computed := by simpa using heq
  subst hl' hf' hs'
  refine ⟨pk, c, kcp, algo, ch, hh, hpk, hc, by simpa using hlen, hk, hd, halgo, hch, hsz, hdl,
    hfirst, hlast, hsecond, ?_, ?_, ?_, ?_, hd2.symm⟩
  · omega
  · rw [← hb2]; exact hread
  · omega
  · rw [← hs2, heq', hc2]
    simp

/-! ## Claims about `emv_pki_decode_message` -/

/-- C1: postcondition of `emv_pki_decode_message`. If the call returns a buffer `data`
with reported length `len`, then `data` is the RSA public operation of the signer applied
to the certificate value, and with `N` its length and `hlen` the digest size of the hash
algorithm named by `data[hash_pos(msgtype)]`: `data[0] = 0x6A`, `data[N-1] = 0xBC`,
`data[1] = msgtype`, the `hlen` bytes at `N-1-hlen` equal the digest of
`data[1 .. N-1-hlen]` followed by the extra TLV values in order, and
`len = N - hlen - 1`. -/
theorem decode_message_postcondition (be : crypto_backend) (signer : emv_pk) (msgtype : Nat)
    (cert : tlv) (extras : List (Option tlv)) (data : List Nat) (len : Nat)
    (h : emv_pki_decode_message be (some signer) msgtype (some cert) extras
      = .ok (data, len)) :
    ∃ kcp algo ch digest,
      crypto_pk_open be signer.pk_algo (signer.modulus.take signer.mlen)
        (signer.exp.take signer.elen) = some kcp ∧
      crypto_pk_encrypt kcp cert.value = some data ∧
      data[emv_pki_hash_psn msgtype]? = some algo ∧
      crypto_hash_open be algo = some ch ∧
      crypto_hash_get_size ch + 2 ≤ data.length ∧
      data[0]? = some 0x6a ∧
      data[data.length - 1]? = some 0xbc ∧
      data[1]? = some msgtype ∧
      crypto_hash_read (crypto_hash_write ch
        ((data.drop 1).take (data.length - 2 - crypto_hash_get_size ch) ++ tlvs_bytes extras))
        = some digest ∧
      (data.drop (data.length - 1 - crypto_hash_get_size ch)).take (crypto_hash_get_size ch)
        = digest.take (crypto_hash_get_size ch) ∧
      crypto_hash_get_size ch ≤ digest.length ∧
      len = data.length - crypto_hash_get_size ch - 1 := by
  obtain ⟨s, c, kcp, algo, ch, hh, hs, hc, _, hk, hd, halgo, hch, hsz, _, h0, hl, h1, _, hread,
    hle, heq, hlen⟩ := decode_message_ok_inv be _ msgtype _ extras data len h
  cases hs
  cases hc
  refine ⟨kcp, algo, ch, hh, hk, hd, halgo, hch, hsz, h0, hl, h1, ?_, heq, hle, hlen⟩
  rw [← crypto_hash_write_write, ← hash_write_tlvs_eq]
  exact hread

/-- C1 at a concrete input: the call on `c1_cert` returns the plaintext with length 9 and
the postcondition holds for it. -/
theorem decode_message_postcondition_witness :
    emv_pki_decode_message test_backend (some (test_signer 30)) 3 (some c1_cert) c1_extras
      = .ok (c1_cert.value, 9) ∧
    ∃ kcp algo ch digest,
      crypto_pk_open test_backend (test_signer 30).pk_algo
        ((test_signer 30).modulus.take (test_signer 30).mlen)
        ((test_signer 30).exp.take (test_signer 30).elen) = some kcp ∧
      crypto_pk_encrypt kcp c1_cert.value = some c1_cert.value ∧
      c1_cert.value[emv_pki_hash_psn 3]? = some algo ∧
      crypto_hash_open test_backend algo = some ch ∧
      crypto_hash_get_size ch + 2 ≤ c1_cert.value.length ∧
      c1_cert.value[0]? = some 0x6a ∧
      c1_cert.value[c1_cert.value.length - 1]? = some 0xbc ∧
      c1_cert.value[1]? = some 3 ∧
      crypto_hash_read (crypto_hash_write ch
        ((c1_cert.value.drop 1).take (c1_cert.value.length - 2 - crypto_hash_get_size ch)
          ++ tlvs_bytes c1_extras)) = some digest ∧
      (c1_cert.value.drop (c1_cert.value.length - 1 - crypto_hash_get_size ch)).take
        (crypto_hash_get_size ch) = digest.take (crypto_hash_get_size ch) ∧
      crypto_hash_get_size ch ≤ digest.length ∧
      9 = c1_cert.value.length - crypto_hash_get_size ch - 1 :=
  ⟨by decide,
    decode_message_postcondition test_backend (test_signer 30) 3 c1_cert c1_extras
      c1_cert.value 9 (by decide)⟩

/-- C4: `emv_pki_decode_message` returns NULL whenever the certificate length differs from
the signer modulus length, for every message type and every list of extras; the result
is the same for every backend, so no RSA or hash operation takes part in it. -/
theorem decode_message_length_mismatch (be : crypto_backend) (signer : emv_pk)
    (msgtype : Nat) (cert : tlv) (extras : List (Option tlv))
    (h : cert.len ≠ signer.mlen) :
    emv_pki_decode_message be (some signer) msgtype (some cert) extras = .null := by
  simp [emv_pki_decode_message, or_null, reject_if_pos _ h]

/-- C4 at concrete inputs: a valid certificate truncated by one byte and extended by one
byte. -/
theorem decode_message_length_mismatch_witness :
    (c1_cert.value.dropLast.length ≠ (test_signer 30).mlen ∧
      emv_pki_decode_message test_backend (some (test_signer 30)) 3
        (some { tag := 0x93, value := c1_cert.value.dropLast }) c1_extras = .null) ∧
    ((c1_cert.value ++ [0]).length ≠ (test_signer 30).mlen ∧
      emv_pki_decode_message test_backend (some (test_signer 30)) 3
        (some { tag := 0x93, value := c1_cert.value ++ [0] }) c1_extras = .null) :=
  ⟨⟨by decide, decode_message_length_mismatch test_backend (test_signer 30) 3
      { tag := 0x93, value := c1_cert.value.dropLast } c1_extras (by decide)⟩,
    ⟨by decide, decode_message_length_mismatch test_backend (test_signer 30) 3
      { tag := 0x93, value := c1_cert.value ++ [0] } c1_extras (by decide)⟩⟩

/-- C5 (code defect): three inputs with `hash_pos ≥ N - 1 - hlen` that
`emv_pki_decode_message` does not reject. With `N = 4`, message type 3, the body length
`N - 2 - hlen` wraps and the hash is fed from outside the buffer; with `N = 11`, message
type 2, `data[hash_pos]` is read at index `N`; with `N = 23`, message type 3, the
algorithm byte lies inside the embedded digest and the call returns the buffer. -/

theorem decode_message_hash_pos_unchecked :
    emv_pki_decode_message test_backend (some (test_signer 4)) 3
      (some { tag := 0x93, value := [0x6a, 3, 1, 0xbc] }) [none] = .fault ∧
    emv_pki_decode_message test_backend (some (test_signer 11)) 2
      (some { tag := 0x90, value := [0x6a, 2, 0, 0, 0, 0, 0, 0, 0, 0, 0xbc] }) [none]
      = .fault ∧
    emv_pki_decode_message test_backend (some (test_signer 23)) 3
      (some { tag := 0x93, value := [0x6a, 3] ++ test_digest [3, 173] ++ [0xbc] })
      [some { tag := 0, value := [173] }, none]
      = .ok ([0x6a, 3] ++ test_digest [3, 173] ++ [0xbc], 2) := by
  refine ⟨by decide, by decide, by decide⟩

theorem emv_pki_hash_psn_eq_zero (m : Nat) (hm : m ≠ 2 ∧ m ≠ 3 ∧ m ≠ 4 ∧ m ≠ 5) :
    emv_pki_hash_psn m = 0 := by
  obtain ⟨h2, h3, h4, h5⟩ := hm
  unfold emv_pki_hash_psn
  match m with
  | 0 => rfl
  | 1 => rfl
  | 2 => exact absurd rfl h2
  | 3 => exact absurd rfl h3
  | 4 => exact absurd rfl h4
  | 5 => exact absurd rfl h5
  | n + 6 => rfl

/-- What holds of `emv_pki_decode_message` for a message type outside `{2,3,4,5}`: the
hash-algorithm offset is 0, the call never returns a buffer, and it returns NULL whenever
the RSA public operation, if reached, yields a non-empty plaintext. -/
theorem decode_message_unsupported_null (be : crypto_backend) (enc_pk : Option emv_pk)
    (msgtype : Nat) (cert_tlv : Option tlv) (extras : List (Option tlv))
    (hm : msgtype ≠ 2 ∧ msgtype ≠ 3 ∧ msgtype ≠ 4 ∧ msgtype ≠ 5) :
    emv_pki_hash_psn 2 = 11 ∧ emv_pki_hash_psn 3 = 2 ∧ emv_pki_hash_psn 4 = 17 ∧
    emv_pki_hash_psn 5 = 2 ∧ emv_pki_hash_psn msgtype = 0 ∧
    (∀ r, emv_pki_decode_message be enc_pk msgtype cert_tlv extras ≠ .ok r) ∧
    ((∀ signer cert kcp, enc_pk = some signer → cert_tlv = some cert →
        crypto_pk_open be signer.pk_algo (signer.modulus.take signer.mlen)
          (signer.exp.take signer.elen) = some kcp →
        ∃ d, crypto_pk_encrypt kcp cert.value = some d ∧ d ≠ []) →
      emv_pki_decode_message be enc_pk msgtype cert_tlv extras = .null) := by
  have hz := emv_pki_hash_psn_eq_zero msgtype hm
  refine ⟨rfl, rfl, rfl, rfl, hz, ?_, ?_⟩
  · rintro ⟨data, len⟩ h
    obtain ⟨_, _, _, _, _, _, _, _, _, _, _, _, _, _, _, _, _, _, hne, _⟩ :=
      decode_message_ok_inv be enc_pk msgtype cert_tlv extras data len h
    exact hne hz
  · intro hrsa
    cases enc_pk with
    | none => simp [emv_pki_decode_message, or_null]
    | some signer =>
    cases cert_tlv with
    | none => simp [emv_pki_decode_message, or_null]
    | some cert =>
    by_cases hlen : cert.len ≠ signer.mlen
    · simp [emv_pki_decode_message, or_null, reject_if_pos _ hlen]
    · cases hk : crypto_pk_open be signer.pk_algo (signer.modulus.take signer.mlen)
        (signer.exp.take signer.elen) with
      | none => simp [emv_pki_decode_message, or_null, reject_if_neg _ hlen, hk]
      | some kcp =>
        obtain ⟨d, hd, hne⟩ := hrsa signer cert kcp rfl rfl hk
        have hdl : d.length < 2 ^ 64 := kcp.encrypt_lt _ _ hd
        have hpos : 0 < d.length := List.length_pos.mpr hne
        have e1 : size_sub d.length 1 = d.length - 1 := size_sub_of_le _ _ hdl hpos
        have hlen2 : cert.len = signer.mlen := by simpa using hlen
        obtain ⟨l, rl⟩ : ∃ l, d[d.length - 1]? = some l :=
          ⟨_, List.getElem?_eq_getElem (by omega)⟩
        obtain ⟨f, r0⟩ : ∃ f, d[0]? = some f := ⟨_, List.getElem?_eq_getElem hpos⟩
        by_cases hl : l = 0xbc
        swap
        · simp [emv_pki_decode_message, or_null, or_fault, reject_if, hlen2, hk, hd, e1, rd, rl,
            hl]
        by_cases hf : f = 0x6a
        swap
        · simp [emv_pki_decode_message, or_null, or_fault, reject_if, hlen2, hk, hd, e1, rd, rl,
            hl, r0, hf]
        have h2 : 1 < d.length := by
          by_contra hcon
          have h1 : d.length = 1 := by omega
          simp only [h1] at rl
          simp only [Nat.sub_self, r0] at rl
          cases rl
          omega
        obtain ⟨s, r1⟩ : ∃ s, d[1]? = some s := ⟨_, List.getElem?_eq_getElem h2⟩
        by_cases hs : s = msgtype
        swap
        · simp [emv_pki_decode_message, or_null, or_fault, reject_if, hlen2, hk, hd, e1, rd, rl,
            hl, r0, hf, r1, hs]
        simp [emv_pki_decode_message, or_null, or_fault, reject_if, hlen2, hk, hd, e1, rd, rl,
            hl, r0, hf, r1, hs, hz]

/-- Message type 7 on a certificate that decodes for type 3 gives NULL. -/
theorem decode_message_unsupported_null_at_seven :
    emv_pki_hash_psn 7 = 0 ∧
    emv_pki_decode_message test_backend (some (test_signer 30)) 7 (some c1_cert) c1_extras
      = .null :=
  have h := decode_message_unsupported_null test_backend (some (test_signer 30)) 7
    (some c1_cert) c1_extras (by decide)
  ⟨h.2.2.2.2.1, by decide⟩

theorem memcpy_at_zero (dst src : List Nat) (r : List Nat) (hle : src.length ≤ dst.length)
    (h : memcpy_at dst 0 src = .ok r) : r = src ++ dst.drop src.length := by
  unfold memcpy_at at h
  split at h
  · rename_i h0
    cases h
    have : src = [] := List.length_eq_zero.mp h0
    subst this
    simp
  · rw [if_pos (by omega)] at h
    cases h
    simp

theorem modulus_assemble (data : List Nat) (off avail M : Nat) (rem m2 : List Nat)
    (hoff : off + avail ≤ data.length) (hM : M ≤ avail + rem.length)
    (h : (do
      let head ← rdn data off (if M < avail then M else avail)
      let m1 ← memcpy_at (List.replicate M 0) 0 head
      memcpy_at m1 avail rem) = Res.ok m2) :
    m2 = ((data.drop off).take avail ++ rem).take M ∧ m2.length = M ∧
      (rem ≠ [] → avail + rem.length = M) := by
  simp only [Res.bind_eq_ok, rdn_eq_ok] at h
  obtain ⟨head, ⟨hh1, hh2⟩, m1, hm1, hm2⟩ := h
  have hdl : (data.drop off).length = data.length - off := List.length_drop _ _
  have hhl : head.length = (if M < avail then M else avail) := by
    rw [hh2, List.length_take, hdl]
    split <;> omega
  have hle : head.length ≤ (List.replicate M 0).length := by
    rw [hhl, List.length_replicate]
    split <;> omega
  have e1 := memcpy_at_zero _ _ _ hle hm1
  have hm1l : m1.length = M := by
    rw [e1, List.length_append, List.length_drop, List.length_replicate, hhl]
    split <;> omega
  unfold memcpy_at at hm2
  split at hm2
  · rename_i h0
    cases hm2
    have hr : rem = [] := List.length_eq_zero.mp h0
    subst hr
    simp only [List.length_nil, Nat.add_zero] at hM
    have hMa : (if M < avail then M else avail) = M := by split <;> omega
    rw [hMa] at hhl hh2
    refine ⟨?_, hm1l, fun hne => absurd rfl hne⟩
    rw [e1, hhl, hh2, List.append_nil, List.take_take]
    simp [Nat.min_eq_left hM]
  · rename_i h0
    split at hm2
    swap
    · cases hm2
    rename_i h1
    cases hm2
    rw [hm1l] at h1
    have hMe : avail + rem.length = M := by omega
    have hav : (if M < avail then M else avail) = avail := by split <;> omega
    rw [hav] at hhl hh2
    have hta : List.take avail m1 = head := by
      rw [e1, List.take_append_of_le_length (by omega), List.take_of_length_le (by omega)]
    have hdr : List.drop (avail + rem.length) m1 = [] := by
      apply List.drop_of_length_le
      omega
    rw [hta, hdr, List.append_nil, hh2]
    refine ⟨?_, ?_, fun _ => hMe⟩
    · symm
      apply List.take_of_length_le
      rw [List.length_append, List.length_take, hdl]
      omega
    · rw [List.length_append, List.length_take, hdl]
      omega

theorem emv_pk_new_eq_some (modlen explen : Nat) (pk : emv_pk)
    (h : emv_pk_new modlen explen = some pk) :
    explen ≤ 3 ∧ pk =
      { rid := List.replicate 5 0, index := 0, serial := List.replicate 3 0,
        pan := List.replicate 10 0, hash_algo := 0, pk_algo := 0,
        hash := List.replicate 20 0, exp := List.replicate 3 0, elen := explen,
        mlen := modlen, modulus := List.replicate modlen 0, expire := 0 } := by
  unfold emv_pk_new at h
  split at h
  · cases h
  · cases h
    exact ⟨by omega, rfl⟩

theorem pan_length_eq_ok (msgtype P : Nat)
    (h : (if msgtype = 2 then Res.ok 4 else if msgtype = 4 then Res.ok 10 else Res.null)
      = Res.ok P) : msgtype = 2 ∧ P = 4 ∨ msgtype = 4 ∧ P = 10 := by
  split at h
  · cases h; left; exact ⟨by assumption, rfl⟩
  · split at h
    · cases h; right; exact ⟨by assumption, rfl⟩
    · cases h

/-- Inversion of a successful `emv_pki_decode_key`. -/
theorem decode_key_ok_inv (be : crypto_backend) (enc_pk : Option emv_pk) (msgtype : Nat)
    (pan_tlv cert_tlv exp_tlv rem_tlv add_tlv : Option tlv) (pk : emv_pk)
    (h : emv_pki_decode_key be enc_pk msgtype pan_tlv cert_tlv exp_tlv rem_tlv add_tlv
      = .ok pk) :
    ∃ cert exp pan signer data len P M ha pa yy mm,
      cert_tlv = some cert ∧ exp_tlv = some exp ∧ pan_tlv = some pan ∧
      enc_pk = some signer ∧
      (msgtype = 2 ∧ P = 4 ∨ msgtype = 4 ∧ P = 10) ∧
      emv_pki_decode_message be enc_pk msgtype (some cert)
        [some (rem_tlv.getD empty_tlv), some exp, add_tlv, none] = .ok (data, len) ∧
      11 + P ≤ len ∧ len < data.length ∧
      ¬ ((msgtype = 2 ∧ (emv_cn_length { tag := 0x5a, value := (data.drop 2).take P } < 4 ∨
            emv_cn_length { tag := 0x5a, value := (data.drop 2).take P } > emv_cn_length pan)) ∨
          (msgtype = 4 ∧
            emv_cn_length { tag := 0x5a, value := (data.drop 2).take P } ≠ emv_cn_length pan)) ∧
      pan_compare_loop pan { tag := 0x5a, value := (data.drop 2).take P }
        (emv_cn_length { tag := 0x5a, value := (data.drop 2).take P }) 0 = .ok () ∧
      data[9 + P]? = some M ∧ M ≤ len - 11 - P + (rem_tlv.getD empty_tlv).len ∧
      data[10 + P]? = some exp.len ∧ exp.len ≤ 3 ∧
      data[7 + P]? = some ha ∧ data[8 + P]? = some pa ∧
      data[3 + P]? = some yy ∧ data[2 + P]? = some mm ∧
      ((rem_tlv.getD empty_tlv).value ≠ [] → len - 11 - P + (rem_tlv.getD empty_tlv).len = M) ∧
      pk =
        { rid := signer.rid, index := signer.index,
          serial := (data.drop (4 + P)).take 3,
          pan := (data.drop 2).take P ++ List.replicate (10 - P) 0xff,
          hash_algo := ha, pk_algo := pa, hash := List.replicate 20 0,
          exp := exp.value ++ List.replicate (3 - exp.len) 0, elen := exp.len, mlen := M,
          modulus := ((data.drop (11 + P)).take (len - 11 - P)
            ++ (rem_tlv.getD empty_tlv).value).take M,
          expire := (yy <<< 16) ||| (mm <<< 8) ||| 0x31 } := by
  simp only [emv_pki_decode_key, Res.bind_eq_ok, or_null_eq_ok, or_fault_eq_ok,
    reject_if_eq_ok, rd_eq_ok, rdn_eq_ok] at h
  obtain ⟨cert, hcert, exp, hexp, pan, hpan, P, hP, ⟨data, len⟩, hdec, _, hlen, _, hpl, _, hloop,
    M, hM, _, hMle, e, he, _, hee, pk0, hnew, signer, hsig, ha, hha, pa, hpa, yy, hyy, mm, hmm,
    serial, ⟨_, hser⟩, pn, ⟨_, hpn⟩, head, hhead, m1, hm1, m2, hm2, ex, hex, hres⟩ := h
  have hPc := pan_length_eq_ok msgtype P hP
  have hP10 : P ≤ 10 := by rcases hPc with ⟨_, h⟩ | ⟨_, h⟩ <;> omega
  obtain ⟨_, _, _, _, ch, _, _, _, _, _, _, _, _, hsz, hdl, _, _, _, _, _, _, _, hlen'⟩ :=
    decode_message_ok_inv be enc_pk msgtype _ _ data len hdec
  simp only [] at hlen hM hMle he hha hpa hyy hmm hser hpn hhead hres hpl hloop
  have hlt : len < 2 ^ 64 := by omega
  have hge : 11 + P ≤ len := by omega
  have es1 : size_sub len 11 = len - 11 := size_sub_of_le _ _ hlt (by omega)
  have es2 : size_sub (len - 11) P = len - 11 - P := size_sub_of_le _ _ (by omega) (by omega)
  have es3 : size_sub len (11 + P) = len - 11 - P := by
    rw [size_sub_of_le _ _ hlt hge]; omega
  rw [es1, es2] at hMle
  rw [es3] at hhead hm2
  obtain ⟨he3, hpk0⟩ := emv_pk_new_eq_some _ _ _ hnew
  subst hpk0
  simp only [] at hm1 hm2 hex hres
  have hee' : exp.len = e := by simpa using hee
  subst hee'
  have hmod := modulus_assemble data (11 + P) (len - 11 - P) M
    (rem_tlv.getD empty_tlv).value m2 (by omega) (by simpa [tlv.len] using hMle)
    (by
      simp only [Res.bind_eq_ok]
      exact ⟨head, (rdn_eq_ok _ _ _ _).mpr hhead, m1, hm1, hm2⟩)
  have hexv := memcpy_at_zero _ _ _ (by simpa [tlv.len] using he3) hex
  rw [List.drop_replicate] at hexv
  refine ⟨cert, exp, pan, signer, data, len, P, M, ha, pa, yy, mm, hcert, hexp, hpan, hsig, hPc,
    hdec, hge, by omega, hpl, hloop, hM, by omega, he, he3, hha, hpa, hyy, hmm, ?_, ?_⟩
  · intro hne
    exact hmod.2.2 hne
  · have hres' := Res.ok.inj hres
    rw [← hres', hmod.1, hexv, hser, hpn]
    simp [tlv.len]

theorem emv_cn_length_loop_bounds (l : List Nat) (i : Nat) :
    2 * i ≤ emv_cn_length_loop l i ∧ emv_cn_length_loop l i ≤ 2 * (i + l.length) := by
  induction l generalizing i with
  | nil => simp [emv_cn_length_loop]
  | cons c rest ih =>
    unfold emv_cn_length_loop
    have := ih (i + 1)
    simp only [List.length_cons]
    split
    · omega
    · split <;> omega

theorem emv_cn_length_le (t : tlv) : emv_cn_length t ≤ 2 * t.len := by
  have := (emv_cn_length_loop_bounds t.value 0).2
  simpa [emv_cn_length, tlv.len] using this

theorem emv_cn_get_ok (t : tlv) (pos : Nat) (h : pos < 2 * t.len) :
    ∃ v, emv_cn_get t pos = .ok v := by
  unfold emv_cn_get
  rw [if_neg (by omega)]
  have hlt : pos / 2 < t.value.length := by
    unfold tlv.len at h
    omega
  rw [rd_of_lt _ _ hlt]
  simp only [Res.ok_bind]
  split <;> exact ⟨_, rfl⟩

theorem pan_compare_loop_ok (pan pan2 : tlv) (n i : Nat)
    (h : pan_compare_loop pan pan2 n i = .ok ()) :
    ∀ j, i ≤ j → j < i + n → emv_cn_get pan j = emv_cn_get pan2 j := by
  induction n generalizing i with
  | zero => intro j h1 h2; omega
  | succ n ih =>
    simp only [pan_compare_loop, Res.bind_eq_ok, reject_if_eq_ok] at h
    obtain ⟨a, ha, b, hb, _, hab, hrest⟩ := h
    intro j h1 h2
    by_cases hj : j = i
    · subst hj
      rw [ha, hb]
      simp only [ne_eq, Decidable.not_not] at hab
      rw [hab]
    · exact ih (i + 1) hrest j (by omega) (by omega)

theorem pan_compare_loop_null (pan pan2 : tlv) (n i : Nat)
    (hin : ∀ j, i ≤ j → j < i + n → j < 2 * pan.len ∧ j < 2 * pan2.len)
    (hdiff : ∃ j, i ≤ j ∧ j < i + n ∧ emv_cn_get pan j ≠ emv_cn_get pan2 j) :
    pan_compare_loop pan pan2 n i = .null := by
  induction n generalizing i with
  | zero => obtain ⟨j, h1, h2, _⟩ := hdiff; omega
  | succ n ih =>
    obtain ⟨a, ha⟩ := emv_cn_get_ok pan i (hin i (by omega) (by omega)).1
    obtain ⟨b, hb⟩ := emv_cn_get_ok pan2 i (hin i (by omega) (by omega)).2
    simp only [pan_compare_loop, ha, hb, Res.ok_bind]
    by_cases hab : a = b
    · subst hab
      simp only [reject_if, ne_eq, not_true_eq_false, if_false, Res.ok_bind]
      apply ih
      · intro j h1 h2
        exact hin j (by omega) (by omega)
      · obtain ⟨j, h1, h2, h3⟩ := hdiff
        refine ⟨j, ?_, by omega, h3⟩
        by_contra hcon
        have : j = i := by omega
        subst this
        rw [ha, hb] at h3
        exact h3 rfl
    · simp [reject_if, hab]

theorem pan_compare_loop_ok_or_null (pan pan2 : tlv) (n i : Nat)
    (hin : ∀ j, i ≤ j → j < i + n → j < 2 * pan.len ∧ j < 2 * pan2.len) :
    pan_compare_loop pan pan2 n i = .ok () ∨ pan_compare_loop pan pan2 n i = .null := by
  by_cases hdiff : ∃ j, i ≤ j ∧ j < i + n ∧ emv_cn_get pan j ≠ emv_cn_get pan2 j
  · right; exact pan_compare_loop_null pan pan2 n i hin hdiff
  · left
    induction n generalizing i with
    | zero => rfl
    | succ n ih =>
      obtain ⟨a, ha⟩ := emv_cn_get_ok pan i (hin i (by omega) (by omega)).1
      obtain ⟨b, hb⟩ := emv_cn_get_ok pan2 i (hin i (by omega) (by omega)).2
      have hab : a = b := by
        by_contra hne
        apply hdiff
        refine ⟨i, by omega, by omega, ?_⟩
        rw [ha, hb]
        intro h
        exact hne (Res.ok.inj h)
      subst hab
      simp only [pan_compare_loop, ha, hb, Res.ok_bind, reject_if, ne_eq, not_true_eq_false,
        if_false]
      apply ih
      · intro j h1 h2
        exact hin j (by omega) (by omega)
      · rintro ⟨j, h1, h2, h3⟩
        exact hdiff ⟨j, by omega, by omega, h3⟩

theorem pan_length_ok (msgtype P : Nat) (hP : msgtype = 2 ∧ P = 4 ∨ msgtype = 4 ∧ P = 10) :
    (if msgtype = 2 then Res.ok 4 else if msgtype = 4 then Res.ok 10 else Res.null)
      = Res.ok P := by
  rcases hP with ⟨h1, h2⟩ | ⟨h1, h2⟩ <;> subst h1 <;> subst h2 <;> simp

/-- The PAN checks of `emv_pki_decode_key` reject with NULL. -/
theorem decode_key_null_of_pan (be : crypto_backend) (enc_pk : Option emv_pk)
    (msgtype P : Nat) (pan cert exp : tlv) (rem_tlv add_tlv : Option tlv)
    (data : List Nat) (len : Nat)
    (hP : msgtype = 2 ∧ P = 4 ∨ msgtype = 4 ∧ P = 10)
    (hdec : emv_pki_decode_message be enc_pk msgtype (some cert)
      [some (rem_tlv.getD empty_tlv), some exp, add_tlv, none] = .ok (data, len))
    (hbad : len < 11 + P ∨
      ((msgtype = 2 ∧ (emv_cn_length { tag := 0x5a, value := (data.drop 2).take P } < 4 ∨
          emv_cn_length { tag := 0x5a, value := (data.drop 2).take P } > emv_cn_length pan)) ∨
        (msgtype = 4 ∧
          emv_cn_length { tag := 0x5a, value := (data.drop 2).take P } ≠ emv_cn_length pan)) ∨
      pan_compare_loop pan { tag := 0x5a, value := (data.drop 2).take P }
        (emv_cn_length { tag := 0x5a, value := (data.drop 2).take P }) 0 = .null) :
    emv_pki_decode_key be enc_pk msgtype (some pan) (some cert) (some exp) rem_tlv add_tlv
      = .null := by
  simp only [emv_pki_decode_key, or_null, Res.ok_bind, pan_length_ok msgtype P hP, hdec]
  by_cases h1 : len < 11 + P
  · simp [reject_if_pos _ h1]
  rw [reject_if_neg _ h1]
  simp only [Res.ok_bind]
  by_cases h2 : ((msgtype = 2 ∧ (emv_cn_length { tag := 0x5a, value := (data.drop 2).take P } < 4 ∨
          emv_cn_length { tag := 0x5a, value := (data.drop 2).take P } > emv_cn_length pan)) ∨
        (msgtype = 4 ∧
          emv_cn_length { tag := 0x5a, value := (data.drop 2).take P } ≠ emv_cn_length pan))
  · simp [reject_if_pos _ h2]
  rw [reject_if_neg _ h2]
  simp only [Res.ok_bind]
  rcases hbad with h | h | h
  · exact absurd h h1
  · exact absurd h h2
  · rw [h]
    rfl

theorem pan_indices_in_range (msgtype P : Nat) (pan pan2 : tlv)
    (hP : msgtype = 2 ∧ P = 4 ∨ msgtype = 4 ∧ P = 10)
    (h2 : ¬ ((msgtype = 2 ∧ (emv_cn_length pan2 < 4 ∨ emv_cn_length pan2 > emv_cn_length pan)) ∨
        (msgtype = 4 ∧ emv_cn_length pan2 ≠ emv_cn_length pan))) :
    ∀ j, 0 ≤ j → j < 0 + emv_cn_length pan2 → j < 2 * pan.len ∧ j < 2 * pan2.len := by
  intro j _ hj
  have l1 := emv_cn_length_le pan
  have l2 := emv_cn_length_le pan2
  have hle : emv_cn_length pan2 ≤ emv_cn_length pan := by
    rcases hP with ⟨hm, _⟩ | ⟨hm, _⟩
    · by_contra hcon
      exact h2 (Or.inl ⟨hm, Or.inr (by omega)⟩)
    · by_contra hcon
      exact h2 (Or.inr ⟨hm, by omega⟩)
  omega

/-- The modulus length check of `emv_pki_decode_key` rejects with NULL. -/
theorem decode_key_null_of_mlen (be : crypto_backend) (enc_pk : Option emv_pk)
    (msgtype P : Nat) (pan cert exp : tlv) (rem_tlv add_tlv : Option tlv)
    (data : List Nat) (len M : Nat)
    (hP : msgtype = 2 ∧ P = 4 ∨ msgtype = 4 ∧ P = 10)
    (hdec : emv_pki_decode_message be enc_pk msgtype (some cert)
      [some (rem_tlv.getD empty_tlv), some exp, add_tlv, none] = .ok (data, len))
    (hM : data[9 + P]? = some M)
    (hgt : M > len - 11 - P + (rem_tlv.getD empty_tlv).len) :
    emv_pki_decode_key be enc_pk msgtype (some pan) (some cert) (some exp) rem_tlv add_tlv
      = .null := by
  by_cases h1 : len < 11 + P
  · exact decode_key_null_of_pan be enc_pk msgtype P pan cert exp rem_tlv add_tlv data len hP
      hdec (Or.inl h1)
  by_cases h2 : ((msgtype = 2 ∧ (emv_cn_length { tag := 0x5a, value := (data.drop 2).take P } < 4 ∨
          emv_cn_length { tag := 0x5a, value := (data.drop 2).take P } > emv_cn_length pan)) ∨
        (msgtype = 4 ∧
          emv_cn_length { tag := 0x5a, value := (data.drop 2).take P } ≠ emv_cn_length pan))
  · exact decode_key_null_of_pan be enc_pk msgtype P pan cert exp rem_tlv add_tlv data len hP
      hdec (Or.inr (Or.inl h2))
  rcases pan_compare_loop_ok_or_null pan { tag := 0x5a, value := (data.drop 2).take P }
    (emv_cn_length { tag := 0x5a, value := (data.drop 2).take P }) 0
    (pan_indices_in_range msgtype P pan _ hP h2) with h3 | h3
  swap
  · exact decode_key_null_of_pan be enc_pk msgtype P pan cert exp rem_tlv add_tlv data len hP
      hdec (Or.inr (Or.inr h3))
  obtain ⟨_, _, _, _, ch, _, _, _, _, _, _, _, _, hsz, hdl, _, _, _, _, _, _, _, hlen'⟩ :=
    decode_message_ok_inv be enc_pk msgtype _ _ data len hdec
  have hP10 : P ≤ 10 := by rcases hP with ⟨_, h⟩ | ⟨_, h⟩ <;> omega
  have hlt : len < 2 ^ 64 := by omega
  have es1 : size_sub len 11 = len - 11 := size_sub_of_le _ _ hlt (by omega)
  have es2 : size_sub (len - 11) P = len - 11 - P := size_sub_of_le _ _ (by omega) (by omega)
  simp only [emv_pki_decode_key, or_null, Res.ok_bind, pan_length_ok msgtype P hP, hdec,
    reject_if_neg _ h1, reject_if_neg _ h2, h3, rd, hM, es1, es2, reject_if_pos _ hgt,
    Res.null_bind]

/-! ## Claims about `emv_pki_decode_key` -/

/-- C7: whenever `emv_pki_decode_key` succeeds (`P = 4` for message type 2, `P = 10` for
message type 4), the returned key has `rid` and `index` of the signer key,
`hash_algo = data[7+P]`, `pk_algo = data[8+P]`, `serial = data[4+P .. 6+P]`,
`pan = data[2 .. 2+P)` padded to 10 bytes with `0xFF`,
`expire = (data[3+P] << 16) | (data[2+P] << 8) | 0x31`, and `exp`, `elen` are the value
and length of `exp_tlv`, where `data` is the plaintext returned by
`emv_pki_decode_message`. -/
theorem decode_key_fields (be : crypto_backend) (enc_pk : Option emv_pk) (msgtype : Nat)
    (pan_tlv cert_tlv exp_tlv rem_tlv add_tlv : Option tlv) (pk : emv_pk)
    (h : emv_pki_decode_key be enc_pk msgtype pan_tlv cert_tlv exp_tlv rem_tlv add_tlv
      = .ok pk) :
    ∃ signer cert exp data len P yy mm,
      enc_pk = some signer ∧ cert_tlv = some cert ∧ exp_tlv = some exp ∧
      (msgtype = 2 ∧ P = 4 ∨ msgtype = 4 ∧ P = 10) ∧
      emv_pki_decode_message be enc_pk msgtype (some cert)
        [some (rem_tlv.getD empty_tlv), some exp, add_tlv, none] = .ok (data, len) ∧
      pk.rid = signer.rid ∧ pk.index = signer.index ∧
      data[7 + P]? = some pk.hash_algo ∧ data[8 + P]? = some pk.pk_algo ∧
      pk.serial = (data.drop (4 + P)).take 3 ∧ pk.serial.length = 3 ∧
      pk.pan = (data.drop 2).take P ++ List.replicate (10 - P) 0xff ∧ pk.pan.length = 10 ∧
      data[3 + P]? = some yy ∧ data[2 + P]? = some mm ∧
      pk.expire = (yy <<< 16) ||| (mm <<< 8) ||| 0x31 ∧
      pk.elen = exp.len ∧ pk.exp.take pk.elen = exp.value ∧ pk.exp.length = 3 := by
  obtain ⟨cert, exp, pan, signer, data, len, P, M, ha, pa, yy, mm, hcert, hexp, hpan, hsig, hP,
    hdec, hge, hlt, _, _, _, _, _, he3, hha, hpa, hyy, hmm, _, hpk⟩ :=
    decode_key_ok_inv be enc_pk msgtype pan_tlv cert_tlv exp_tlv rem_tlv add_tlv pk h
  have hP10 : P ≤ 10 := by rcases hP with ⟨_, h⟩ | ⟨_, h⟩ <;> omega
  subst hpk
  refine ⟨signer, cert, exp, data, len, P, yy, mm, hsig, hcert, hexp, hP, hdec, rfl, rfl, hha,
    hpa, rfl, ?_, rfl, ?_, hyy, hmm, rfl, rfl, ?_, ?_⟩
  · simp only [List.length_take, List.length_drop]
    omega
  · simp only [List.length_append, List.length_take, List.length_drop, List.length_replicate]
    omega
  · simp [tlv.len]
  · simp only [List.length_append, List.length_replicate]
    unfold tlv.len at he3 ⊢
    omega

set_option maxRecDepth 100000 in
/-- C7 at the records of scenario S2: recovery succeeds with `s2_key` and the field
equations hold. -/
theorem decode_key_fields_witness :
    emv_pki_decode_key test_backend (some (test_signer 128)) 2 (tlvdb_get s2_db 0x5a)
      (tlvdb_get s2_db 0x90) (tlvdb_get s2_db 0x9f32) (tlvdb_get s2_db 0x92) none
      = .ok s2_key ∧
    ∃ signer cert exp data len P yy mm,
      some (test_signer 128) = some signer ∧ tlvdb_get s2_db 0x90 = some cert ∧
      tlvdb_get s2_db 0x9f32 = some exp ∧
      ((2 : Nat) = 2 ∧ P = 4 ∨ (2 : Nat) = 4 ∧ P = 10) ∧
      emv_pki_decode_message test_backend (some (test_signer 128)) 2 (some cert)
        [some ((tlvdb_get s2_db 0x92).getD empty_tlv), some exp, none, none]
        = .ok (data, len) ∧
      s2_key.rid = signer.rid ∧ s2_key.index = signer.index ∧
      data[7 + P]? = some s2_key.hash_algo ∧ data[8 + P]? = some s2_key.pk_algo ∧
      s2_key.serial = (data.drop (4 + P)).take 3 ∧ s2_key.serial.length = 3 ∧
      s2_key.pan = (data.drop 2).take P ++ List.replicate (10 - P) 0xff ∧
      s2_key.pan.length = 10 ∧
      data[3 + P]? = some yy ∧ data[2 + P]? = some mm ∧
      s2_key.expire = (yy <<< 16) ||| (mm <<< 8) ||| 0x31 ∧
      s2_key.elen = exp.len ∧ s2_key.exp.take s2_key.elen = exp.value ∧
      s2_key.exp.length = 3 :=
  have h : emv_pki_decode_key test_backend (some (test_signer 128)) 2 (tlvdb_get s2_db 0x5a)
      (tlvdb_get s2_db 0x90) (tlvdb_get s2_db 0x9f32) (tlvdb_get s2_db 0x92) none
      = .ok s2_key := by decide!
  ⟨h, decode_key_fields test_backend (some (test_signer 128)) 2 (tlvdb_get s2_db 0x5a)
      (tlvdb_get s2_db 0x90) (tlvdb_get s2_db 0x9f32) (tlvdb_get s2_db 0x92) none s2_key h⟩

/-- C8: when `emv_pki_decode_message` has returned `data` with reported length `len` and
`M = data[9+P]`, every key returned by `emv_pki_decode_key` has `mlen = M` and a modulus
of exactly `M` bytes, the first `M` bytes of the certificate body bytes
`data[11+P .. len)` followed by the remainder value (all of them when a remainder is
present); and the call returns NULL whenever `M` exceeds the number of body bytes plus
the remainder length. -/
theorem decode_key_modulus (be : crypto_backend) (enc_pk : Option emv_pk) (msgtype P : Nat)
    (pan cert exp : tlv) (rem_tlv add_tlv : Option tlv) (data : List Nat) (len M : Nat)
    (hP : msgtype = 2 ∧ P = 4 ∨ msgtype = 4 ∧ P = 10)
    (hdec : emv_pki_decode_message be enc_pk msgtype (some cert)
      [some (rem_tlv.getD empty_tlv), some exp, add_tlv, none] = .ok (data, len))
    (hM : data[9 + P]? = some M) :
    (∀ pk, emv_pki_decode_key be enc_pk msgtype (some pan) (some cert) (some exp) rem_tlv
        add_tlv = .ok pk →
      pk.mlen = M ∧ pk.modulus.length = M ∧
      pk.modulus = ((data.drop (11 + P)).take (len - 11 - P)
        ++ (rem_tlv.getD empty_tlv).value).take M ∧
      ((rem_tlv.getD empty_tlv).value ≠ [] →
        pk.modulus = (data.drop (11 + P)).take (len - 11 - P)
          ++ (rem_tlv.getD empty_tlv).value)) ∧
    (M > len - 11 - P + (rem_tlv.getD empty_tlv).len →
      emv_pki_decode_key be enc_pk msgtype (some pan) (some cert) (some exp) rem_tlv add_tlv
        = .null) := by
  constructor
  · intro pk h
    obtain ⟨cert', exp', pan', signer, data', len', P', M', ha, pa, yy, mm, hcert, hexp, hpan,
      hsig, hP', hdec', hge, hlt, _, _, hM', hMle, _, _, _, _, _, _, hrem, hpk⟩ :=
      decode_key_ok_inv be enc_pk msgtype _ _ _ rem_tlv add_tlv pk h
    cases hcert
    cases hexp
    have hPP : P' = P := by
      rcases hP with ⟨a, b⟩ | ⟨a, b⟩ <;> rcases hP' with ⟨c, d⟩ | ⟨c, d⟩ <;> omega
    subst hPP
    rw [hdec] at hdec'
    obtain ⟨hd1, hd2⟩ := Prod.mk.inj (Res.ok.inj hdec')
    subst hd1
    subst hd2
    rw [hM] at hM'
    cases hM'
    have hbl : ((data.drop (11 + P')).take (len - 11 - P')).length = len - 11 - P' := by
      rw [List.length_take, List.length_drop]
      omega
    have hmodl : (((data.drop (11 + P')).take (len - 11 - P')
        ++ (rem_tlv.getD empty_tlv).value).take M).length = M := by
      rw [List.length_take, List.length_append, hbl]
      unfold tlv.len at hMle
      omega
    subst hpk
    refine ⟨rfl, hmodl, rfl, ?_⟩
    intro hne
    have := hrem hne
    apply List.take_of_length_le
    rw [List.length_append, hbl]
    unfold tlv.len at this
    omega
  · intro hgt
    exact decode_key_null_of_mlen be enc_pk msgtype P pan cert exp rem_tlv add_tlv data len M hP
      hdec hM hgt

set_option maxRecDepth 100000 in
/-- C8 at scenario S3: the 144-byte ICC modulus, split into 86 bytes in the certificate
body and 58 bytes in the remainder, is reassembled exactly. -/
theorem decode_key_modulus_witness :
    emv_pki_recover_icc_cert test_backend (some (test_signer 128)) (s3_certs ++ [test_pan])
      s3_sda = .ok s3_key ∧
    s3_key.modulus = test_icc.modulus ∧ s3_key.modulus.length = 144 ∧
    emv_pki_decode_message test_backend (some (test_signer 128)) 4
      (some { tag := 0x9f46, value := s3_plain })
      [some ((tlvdb_get s3_certs 0x9f48).getD empty_tlv), some { tag := 0x9f47, value := [1, 0, 1] },
        some { tag := 0, value := s3_sda }, none] = .ok (s3_plain, 107) ∧
    s3_plain[9 + 10]? = some 144 ∧
    (∀ pk, emv_pki_decode_key test_backend (some (test_signer 128)) 4 (some test_pan)
        (some { tag := 0x9f46, value := s3_plain })
        (some { tag := 0x9f47, value := [1, 0, 1] }) (tlvdb_get s3_certs 0x9f48)
        (some { tag := 0, value := s3_sda }) = .ok pk →
      pk.mlen = 144 ∧ pk.modulus.length = 144 ∧
      pk.modulus = ((s3_plain.drop (11 + 10)).take (107 - 11 - 10)
        ++ ((tlvdb_get s3_certs 0x9f48).getD empty_tlv).value).take 144 ∧
      (((tlvdb_get s3_certs 0x9f48).getD empty_tlv).value ≠ [] →
        pk.modulus = (s3_plain.drop (11 + 10)).take (107 - 11 - 10)
          ++ ((tlvdb_get s3_certs 0x9f48).getD empty_tlv).value)) ∧
    (144 > 107 - 11 - 10 + ((tlvdb_get s3_certs 0x9f48).getD empty_tlv).len →
      emv_pki_decode_key test_backend (some (test_signer 128)) 4 (some test_pan)
        (some { tag := 0x9f46, value := s3_plain })
        (some { tag := 0x9f47, value := [1, 0, 1] }) (tlvdb_get s3_certs 0x9f48)
        (some { tag := 0, value := s3_sda }) = .null) :=
  ⟨by decide!, by decide!, by decide!, by decide!, by decide!,
    decode_key_modulus test_backend (some (test_signer 128)) 4 10 test_pan
      { tag := 0x9f46, value := s3_plain } { tag := 0x9f47, value := [1, 0, 1] }
      (tlvdb_get s3_certs 0x9f48) (some { tag := 0, value := s3_sda }) s3_plain 107 144
      (Or.inr ⟨rfl, rfl⟩) (by decide!) (by decide!)⟩

/-- The loop of `emv_cn_length` counts the nibbles before the first `0xF`. -/
theorem emv_cn_length_loop_eq (l : List Nat) :
    ∀ i, emv_cn_length_loop l i = 2 * i + bcd_length l := by
  induction l with
  | nil =>
    intro i
    rfl
  | cons c rest ih =>
    intro i
    unfold emv_cn_length_loop bcd_length nibbles
    by_cases h1 : c >>> 4 = 0xf
    · rw [if_pos h1, List.takeWhile_cons_of_neg (by simpa using h1)]
      rfl
    · rw [if_neg h1, List.takeWhile_cons_of_pos (by simpa using h1)]
      by_cases h2 : c &&& 0xf = 0xf
      · rw [if_pos h2, List.takeWhile_cons_of_neg (by simpa using h2)]
        rfl
      · rw [if_neg h2, List.takeWhile_cons_of_pos (by simpa using h2), ih (i + 1)]
        unfold bcd_length
        simp only [List.length_cons]
        omega

/-- The result of `emv_cn_length` is the BCD length of the value. -/
theorem emv_cn_length_eq (t : tlv) : emv_cn_length t = bcd_length t.value := by
  unfold emv_cn_length
  rw [emv_cn_length_loop_eq]
  omega

theorem nibbles_length (v : List Nat) : (nibbles v).length = 2 * v.length := by
  induction v with
  | nil => rfl
  | cons c rest ih =>
    unfold nibbles
    simp only [List.length_cons, ih]
    omega

theorem bcd_length_le (v : List Nat) : bcd_length v ≤ 2 * v.length := by
  unfold bcd_length
  rw [← nibbles_length]
  exact (List.takeWhile_sublist _).length_le

/-- Inside the value `emv_cn_get` returns the nibble at the position asked for. -/
theorem emv_cn_get_eq (t : tlv) (pos : Nat) (h : pos < 2 * t.value.length) :
    ∃ x, nibble_at t.value pos = some x ∧ emv_cn_get t pos = .ok x := by
  have hlt : pos / 2 < t.value.length := by omega
  unfold nibble_at emv_cn_get rd tlv.len
  rw [if_neg (by omega), List.getElem?_eq_getElem hlt]
  by_cases hp : pos % 2 = 0
  · exact ⟨t.value[pos / 2] >>> 4, by simp [hp], by simp [hp, Bind.bind, Res.bind]⟩
  · exact ⟨t.value[pos / 2] &&& 0xf, by simp [hp], by simp [hp, Bind.bind, Res.bind]⟩

/-- Inside both values the results of `emv_cn_get` agree exactly when the nibbles do. -/
theorem emv_cn_get_eq_iff (a b : tlv) (pos : Nat) (ha : pos < 2 * a.value.length)
    (hb : pos < 2 * b.value.length) :
    emv_cn_get a pos = emv_cn_get b pos ↔ nibble_at a.value pos = nibble_at b.value pos := by
  obtain ⟨x, hx1, hx2⟩ := emv_cn_get_eq a pos ha
  obtain ⟨y, hy1, hy2⟩ := emv_cn_get_eq b pos hb
  rw [hx1, hx2, hy1, hy2]
  constructor
  · intro h
    rw [Res.ok.inj h]
  · intro h
    rw [Option.some.inj h]

/-- The PAN rule of message type 2 in terms of the code's accessors is the rule in terms
of the nibbles of the two values. -/
theorem pan_prefix_rule_iff (pan pan2 : tlv) :
    (4 ≤ emv_cn_length pan2 ∧ emv_cn_length pan2 ≤ emv_cn_length pan ∧
      ∀ i, i < emv_cn_length pan2 → emv_cn_get pan i = emv_cn_get pan2 i) ↔
    (4 ≤ bcd_length pan2.value ∧ bcd_length pan2.value ≤ bcd_length pan.value ∧
      ∀ i, i < bcd_length pan2.value → nibble_at pan.value i = nibble_at pan2.value i) := by
  rw [emv_cn_length_eq, emv_cn_length_eq]
  have h1 := bcd_length_le pan.value
  have h2 := bcd_length_le pan2.value
  constructor
  · rintro ⟨a, b, c⟩
    exact ⟨a, b, fun i hi => (emv_cn_get_eq_iff pan pan2 i (by omega) (by omega)).mp (c i hi)⟩
  · rintro ⟨a, b, c⟩
    exact ⟨a, b, fun i hi => (emv_cn_get_eq_iff pan pan2 i (by omega) (by omega)).mpr (c i hi)⟩

/-- C9 as stated fails: in scenario S3 the RSA recovery and the hash check succeed, the
PAN `pan_last_nibble` differs from the embedded PAN in nibble 19 (`0` against `F`), and
`emv_pki_recover_icc_cert` still returns the key. -/
theorem icc_pan_nibble_after_end_accepted :
    emv_pki_decode_message test_backend (some (test_signer 128)) 4
      (tlvdb_get s3_certs 0x9f46)
      [some ((tlvdb_get s3_certs 0x9f48).getD empty_tlv), tlvdb_get s3_certs 0x9f47,
        some { tag := 0, value := s3_sda }, none] = .ok (s3_plain, 107) ∧
    (s3_plain.drop 2).take 10 = [0x41, 0x11, 0x11, 0x11, 0x11, 0x11, 0x11, 0x11, 0xff, 0xff] ∧
    pan_last_nibble.value = [0x41, 0x11, 0x11, 0x11, 0x11, 0x11, 0x11, 0x11, 0xff, 0xf0] ∧
    nibble_at pan_last_nibble.value 19 = some 0 ∧
    nibble_at ((s3_plain.drop 2).take 10) 19 = some 0xf ∧
    emv_cn_get pan_last_nibble 19 = .ok 0 ∧
    emv_cn_get { tag := 0x5a, value := (s3_plain.drop 2).take 10 } 19 = .ok 0xf ∧
    emv_pki_recover_icc_cert test_backend (some (test_signer 128))
      (s3_certs ++ [pan_last_nibble]) s3_sda = .ok s3_key := by
  refine ⟨by decide!, by decide!, by decide!, by decide!, by decide!, by decide!, by decide!,
    by decide!⟩

/-- The PAN rule of message type 4 in terms of `emv_cn_length` and `emv_cn_get`: NULL when
the lengths differ or the accessor results differ below the length. -/
theorem decode_key_null_of_icc_pan (be : crypto_backend) (enc_pk : Option emv_pk)
    (pan cert exp : tlv) (rem_tlv add_tlv : Option tlv) (data : List Nat) (len : Nat)
    (hdec : emv_pki_decode_message be enc_pk 4 (some cert)
      [some (rem_tlv.getD empty_tlv), some exp, add_tlv, none] = .ok (data, len))
    (hdiff : emv_cn_length { tag := 0x5a, value := (data.drop 2).take 10 } ≠ emv_cn_length pan ∨
      ∃ i, i < emv_cn_length { tag := 0x5a, value := (data.drop 2).take 10 } ∧
        emv_cn_get pan i ≠ emv_cn_get { tag := 0x5a, value := (data.drop 2).take 10 } i) :
    emv_pki_decode_key be enc_pk 4 (some pan) (some cert) (some exp) rem_tlv add_tlv
      = .null := by
  have hP : (4 : Nat) = 2 ∧ (10 : Nat) = 4 ∨ (4 : Nat) = 4 ∧ (10 : Nat) = 10 := Or.inr ⟨rfl, rfl⟩
  by_cases h2 : (((4 : Nat) = 2 ∧
        (emv_cn_length { tag := 0x5a, value := (data.drop 2).take 10 } < 4 ∨
          emv_cn_length { tag := 0x5a, value := (data.drop 2).take 10 } > emv_cn_length pan)) ∨
      ((4 : Nat) = 4 ∧
        emv_cn_length { tag := 0x5a, value := (data.drop 2).take 10 } ≠ emv_cn_length pan))
  · exact decode_key_null_of_pan be enc_pk 4 10 pan cert exp rem_tlv add_tlv data len hP hdec
      (Or.inr (Or.inl h2))
  · rcases hdiff with hne | ⟨i, hi, hne⟩
    · exact absurd (Or.inr ⟨rfl, hne⟩) h2
    · apply decode_key_null_of_pan be enc_pk 4 10 pan cert exp rem_tlv add_tlv data len hP hdec
      right
      right
      apply pan_compare_loop_null
      · exact pan_indices_in_range 4 10 pan _ hP h2
      · exact ⟨i, by omega, by omega, hne⟩

/-- C9, amended: for message type 4, when the RSA recovery and the hash check succeed,
`emv_pki_decode_key` returns NULL for every PAN TLV whose BCD length (the number of nibbles
before the first `0xF`) differs from that of the embedded PAN `data[2 .. 12)`, or whose
nibble at a position below that length differs from the nibble of the embedded PAN at the
same position. -/
theorem decode_key_icc_pan_rule (be : crypto_backend) (enc_pk : Option emv_pk)
    (pan cert exp : tlv) (rem_tlv add_tlv : Option tlv) (data : List Nat) (len : Nat)
    (hdec : emv_pki_decode_message be enc_pk 4 (some cert)
      [some (rem_tlv.getD empty_tlv), some exp, add_tlv, none] = .ok (data, len))
    (hdiff : bcd_length ((data.drop 2).take 10) ≠ bcd_length pan.value ∨
      ∃ i, i < bcd_length ((data.drop 2).take 10) ∧
        nibble_at pan.value i ≠ nibble_at ((data.drop 2).take 10) i) :
    emv_pki_decode_key be enc_pk 4 (some pan) (some cert) (some exp) rem_tlv add_tlv
      = .null := by
  apply decode_key_null_of_icc_pan be enc_pk pan cert exp rem_tlv add_tlv data len hdec
  have hl1 := emv_cn_length_eq pan
  have hl2 := emv_cn_length_eq { tag := 0x5a, value := (data.drop 2).take 10 }
  have hb1 := bcd_length_le pan.value
  have hb2 := bcd_length_le ((data.drop 2).take 10)
  rw [hl1, hl2]
  by_cases hl : bcd_length ((data.drop 2).take 10) = bcd_length pan.value
  · rcases hdiff with h | ⟨i, hi, hne⟩
    · exact absurd hl h
    · exact Or.inr ⟨i, hi, fun heq => hne ((emv_cn_get_eq_iff pan
        { tag := 0x5a, value := (data.drop 2).take 10 } i (by omega)
        (by show i < 2 * ((data.drop 2).take 10).length; omega)).mp heq)⟩
  · exact Or.inl hl

set_option maxRecDepth 100000 in
/-- C9, amended, at scenario S3 with a PAN whose fourth digit differs: nibble 3 is `2` in
the PAN TLV and `1` in the certificate. -/
theorem decode_key_icc_pan_rule_witness :
    emv_pki_decode_message test_backend (some (test_signer 128)) 4
      (some { tag := 0x9f46, value := s3_plain })
      [some ((tlvdb_get s3_certs 0x9f48).getD empty_tlv),
        some { tag := 0x9f47, value := [1, 0, 1] }, some { tag := 0, value := s3_sda }, none]
      = .ok (s3_plain, 107) ∧
    3 < bcd_length ((s3_plain.drop 2).take 10) ∧
    nibble_at pan_fourth_digit.value 3 = some 2 ∧
    nibble_at ((s3_plain.drop 2).take 10) 3 = some 1 ∧
    emv_pki_decode_key test_backend (some (test_signer 128)) 4 (some pan_fourth_digit)
      (some { tag := 0x9f46, value := s3_plain }) (some { tag := 0x9f47, value := [1, 0, 1] })
      (tlvdb_get s3_certs 0x9f48) (some { tag := 0, value := s3_sda }) = .null :=
  ⟨by decide!, by decide!, by decide!, by decide!,
    decode_key_icc_pan_rule test_backend (some (test_signer 128)) pan_fourth_digit
      { tag := 0x9f46, value := s3_plain } { tag := 0x9f47, value := [1, 0, 1] }
      (tlvdb_get s3_certs 0x9f48) (some { tag := 0, value := s3_sda }) s3_plain 107
      (by decide!) (Or.inr ⟨3, by decide!, by decide!⟩)⟩

/-- The PAN rule of message type 2 in terms of `emv_cn_length` and `emv_cn_get`. -/
theorem decode_key_issuer_pan_cn (be : crypto_backend) (enc_pk : Option emv_pk)
    (pan cert exp : tlv) (rem_tlv add_tlv : Option tlv) (data : List Nat) (len : Nat)
    (hdec : emv_pki_decode_message be enc_pk 2 (some cert)
      [some (rem_tlv.getD empty_tlv), some exp, add_tlv, none] = .ok (data, len)) :
    ((∃ pk, emv_pki_decode_key be enc_pk 2 (some pan) (some cert) (some exp) rem_tlv add_tlv
        = .ok pk) →
      4 ≤ emv_cn_length { tag := 0x5a, value := (data.drop 2).take 4 } ∧
      emv_cn_length { tag := 0x5a, value := (data.drop 2).take 4 } ≤ emv_cn_length pan ∧
      ∀ i, i < emv_cn_length { tag := 0x5a, value := (data.drop 2).take 4 } →
        emv_cn_get pan i = emv_cn_get { tag := 0x5a, value := (data.drop 2).take 4 } i) ∧
    (¬ (4 ≤ emv_cn_length { tag := 0x5a, value := (data.drop 2).take 4 } ∧
        emv_cn_length { tag := 0x5a, value := (data.drop 2).take 4 } ≤ emv_cn_length pan ∧
        ∀ i, i < emv_cn_length { tag := 0x5a, value := (data.drop 2).take 4 } →
          emv_cn_get pan i = emv_cn_get { tag := 0x5a, value := (data.drop 2).take 4 } i) →
      emv_pki_decode_key be enc_pk 2 (some pan) (some cert) (some exp) rem_tlv add_tlv
        = .null) := by
  have hP : (2 : Nat) = 2 ∧ (4 : Nat) = 4 ∨ (2 : Nat) = 4 ∧ (4 : Nat) = 10 := Or.inl ⟨rfl, rfl⟩
  constructor
  · rintro ⟨pk, h⟩
    obtain ⟨cert', exp', pan', signer, data', len', P', M', ha, pa, yy, mm, hcert, hexp, hpan,
      hsig, hP', hdec', hge, hlt, hlc, hloop, _⟩ :=
      decode_key_ok_inv be enc_pk 2 _ _ _ rem_tlv add_tlv pk h
    cases hcert
    cases hexp
    cases hpan
    have hPP : P' = 4 := by
      rcases hP' with ⟨_, d⟩ | ⟨c, _⟩
      · exact d
      · omega
    subst hPP
    rw [hdec] at hdec'
    obtain ⟨hd1, hd2⟩ := Prod.mk.inj (Res.ok.inj hdec')
    subst hd1
    subst hd2
    have hloop' := pan_compare_loop_ok _ _ _ _ hloop
    refine ⟨?_, ?_, ?_⟩
    · by_contra hcon
      exact hlc (Or.inl ⟨rfl, Or.inl (by omega)⟩)
    · by_contra hcon
      exact hlc (Or.inl ⟨rfl, Or.inr (by omega)⟩)
    · intro i hi
      exact hloop' i (by omega) (by omega)
  · intro hbad
    by_cases h2 : (((2 : Nat) = 2 ∧
          (emv_cn_length { tag := 0x5a, value := (data.drop 2).take 4 } < 4 ∨
            emv_cn_length { tag := 0x5a, value := (data.drop 2).take 4 } > emv_cn_length pan)) ∨
        ((2 : Nat) = 4 ∧
          emv_cn_length { tag := 0x5a, value := (data.drop 2).take 4 } ≠ emv_cn_length pan))
    · exact decode_key_null_of_pan be enc_pk 2 4 pan cert exp rem_tlv add_tlv data len hP hdec
        (Or.inr (Or.inl h2))
    · apply decode_key_null_of_pan be enc_pk 2 4 pan cert exp rem_tlv add_tlv data len hP hdec
      right
      right
      apply pan_compare_loop_null
      · exact pan_indices_in_range 2 4 pan _ hP h2
      · by_contra hcon
        apply hbad
        refine ⟨?_, ?_, ?_⟩
        · by_contra hc
          exact h2 (Or.inl ⟨rfl, Or.inl (by omega)⟩)
        · by_contra hc
          exact h2 (Or.inl ⟨rfl, Or.inr (by omega)⟩)
        · intro i hi
          by_contra hne
          exact hcon ⟨i, by omega, by omega, hne⟩

/-- C10: for message type 2, when `emv_pki_decode_message` has returned `data`,
`emv_pki_decode_key` returns a key only if the PAN prefix embedded in `data[2 .. 6)` is
between 4 and `len(pan)` nibbles long (lengths being the number of nibbles before the first
`0xF`, which is what `emv_cn_length` computes) and each of its nibbles equals the nibble of
the PAN TLV at the same position; when either condition is violated it returns NULL. -/
theorem decode_key_issuer_pan_rule (be : crypto_backend) (enc_pk : Option emv_pk)
    (pan cert exp : tlv) (rem_tlv add_tlv : Option tlv) (data : List Nat) (len : Nat)
    (hdec : emv_pki_decode_message be enc_pk 2 (some cert)
      [some (rem_tlv.getD empty_tlv), some exp, add_tlv, none] = .ok (data, len)) :
    ((∃ pk, emv_pki_decode_key be enc_pk 2 (some pan) (some cert) (some exp) rem_tlv add_tlv
        = .ok pk) →
      4 ≤ bcd_length ((data.drop 2).take 4) ∧
      bcd_length ((data.drop 2).take 4) ≤ bcd_length pan.value ∧
      emv_cn_length { tag := 0x5a, value := (data.drop 2).take 4 }
        = bcd_length ((data.drop 2).take 4) ∧
      emv_cn_length pan = bcd_length pan.value ∧
      ∀ i, i < bcd_length ((data.drop 2).take 4) →
        nibble_at pan.value i = nibble_at ((data.drop 2).take 4) i) ∧
    (¬ (4 ≤ bcd_length ((data.drop 2).take 4) ∧
        bcd_length ((data.drop 2).take 4) ≤ bcd_length pan.value ∧
        ∀ i, i < bcd_length ((data.drop 2).take 4) →
          nibble_at pan.value i = nibble_at ((data.drop 2).take 4) i) →
      emv_pki_decode_key be enc_pk 2 (some pan) (some cert) (some exp) rem_tlv add_tlv
        = .null) := by
  have h := decode_key_issuer_pan_cn be enc_pk pan cert exp rem_tlv add_tlv data len hdec
  have e := pan_prefix_rule_iff pan { tag := 0x5a, value := (data.drop 2).take 4 }
  refine ⟨fun hok => ?_, fun hbad => h.2 (fun hc => hbad (e.mp hc))⟩
  obtain ⟨a, b, c⟩ := e.mp (h.1 hok)
  exact ⟨a, b, emv_cn_length_eq _, emv_cn_length_eq _, c⟩

set_option maxRecDepth 100000 in
/-- C10 at scenario S2: with the PAN `41 11 11 11 11 11 11 11 FF FF` the key is returned
and the embedded prefix `41 11 11 11` satisfies both conditions; with the PAN
`41 12 11 11 11 11 11 11 FF FF`, whose nibble 3 is `2` against `1`, the result is NULL. -/
theorem decode_key_issuer_pan_rule_witness :
    emv_pki_decode_message test_backend (some (test_signer 128)) 2
      (some { tag := 0x90, value := s2_plain })
      [some ((tlvdb_get s2_db 0x92).getD empty_tlv), some { tag := 0x9f32, value := [3] },
        none, none] = .ok (s2_plain, 107) ∧
    (s2_plain.drop 2).take 4 = [0x41, 0x11, 0x11, 0x11] ∧
    emv_pki_decode_key test_backend (some (test_signer 128)) 2 (some test_pan)
      (some { tag := 0x90, value := s2_plain }) (some { tag := 0x9f32, value := [3] })
      (tlvdb_get s2_db 0x92) none = .ok s2_key ∧
    (4 ≤ bcd_length ((s2_plain.drop 2).take 4) ∧
      bcd_length ((s2_plain.drop 2).take 4) ≤ bcd_length test_pan.value ∧
      emv_cn_length { tag := 0x5a, value := (s2_plain.drop 2).take 4 }
        = bcd_length ((s2_plain.drop 2).take 4) ∧
      emv_cn_length test_pan = bcd_length test_pan.value ∧
      ∀ i, i < bcd_length ((s2_plain.drop 2).take 4) →
        nibble_at test_pan.value i = nibble_at ((s2_plain.drop 2).take 4) i) ∧
    nibble_at pan_fourth_digit.value 3 = some 2 ∧
    nibble_at ((s2_plain.drop 2).take 4) 3 = some 1 ∧
    emv_pki_decode_key test_backend (some (test_signer 128)) 2 (some pan_fourth_digit)
      (some { tag := 0x90, value := s2_plain }) (some { tag := 0x9f32, value := [3] })
      (tlvdb_get s2_db 0x92) none = .null :=
  have hdec : emv_pki_decode_message test_backend (some (test_signer 128)) 2
      (some { tag := 0x90, value := s2_plain })
      [some ((tlvdb_get s2_db 0x92).getD empty_tlv), some { tag := 0x9f32, value := [3] },
        none, none] = .ok (s2_plain, 107) := by decide!
  have hok : emv_pki_decode_key test_backend (some (test_signer 128)) 2 (some test_pan)
      (some { tag := 0x90, value := s2_plain }) (some { tag := 0x9f32, value := [3] })
      (tlvdb_get s2_db 0x92) none = .ok s2_key := by decide!
  have hn1 : nibble_at pan_fourth_digit.value 3 = some 2 := by decide!
  have hn2 : nibble_at ((s2_plain.drop 2).take 4) 3 = some 1 := by decide!
  ⟨hdec, by decide!, hok,
    (decode_key_issuer_pan_rule test_backend (some (test_signer 128)) test_pan
      { tag := 0x90, value := s2_plain } { tag := 0x9f32, value := [3] }
      (tlvdb_get s2_db 0x92) none s2_plain 107 hdec).1 ⟨s2_key, hok⟩,
    hn1, hn2,
    (decode_key_issuer_pan_rule test_backend (some (test_signer 128)) pan_fourth_digit
      { tag := 0x90, value := s2_plain } { tag := 0x9f32, value := [3] }
      (tlvdb_get s2_db 0x92) none s2_plain 107 hdec).2
      (fun hc => absurd (hn1.symm.trans ((hc.2.2 3 (by decide!)).trans hn2)) (by decide))⟩

theorem memcpy_at_mid (a b c src : List Nat) (off : Nat) (hoff : off = a.length)
    (hlen : src.length = b.length) :
    memcpy_at (a ++ b ++ c) off src = .ok (a ++ src ++ c) := by
  subst hoff
  unfold memcpy_at
  split
  · rename_i h0
    have hs : src = [] := List.length_eq_zero.mp h0
    have hb : b = [] := List.length_eq_zero.mp (by omega)
    subst hs hb
    rfl
  · have hle : a.length + src.length ≤ (a ++ b ++ c).length := by
      simp only [List.length_append]
      omega
    rw [if_pos hle]
    congr 1
    have h1 : List.take a.length (a ++ b ++ c) = a := by
      rw [List.append_assoc, List.take_left']
      rfl
    have h2 : List.drop (a.length + src.length) (a ++ b ++ c) = c := by
      rw [hlen, ← List.length_append, List.drop_left']
      rfl
    rw [h1, h2]

theorem memset_at_mid (a b c : List Nat) (off x n : Nat) (hoff : off = a.length)
    (hlen : n = b.length) :
    memset_at (a ++ b ++ c) off x n = .ok (a ++ List.replicate n x ++ c) := by
  subst hoff
  unfold memset_at
  split
  · rename_i h0
    have hb : b = [] := List.length_eq_zero.mp (by omega)
    subst hb h0
    rfl
  · have hle : a.length + n ≤ (a ++ b ++ c).length := by
      simp only [List.length_append]
      omega
    rw [if_pos hle]
    congr 1
    have h1 : List.take a.length (a ++ b ++ c) = a := by
      rw [List.append_assoc, List.take_left']
      rfl
    have h2 : List.drop (a.length + n) (a ++ b ++ c) = c := by
      rw [hlen, ← List.length_append, List.drop_left']
      rfl
    rw [h1, h2]

theorem replicate_set_last (n x b : Nat) :
    (List.replicate (n + 1) x).set n b = List.replicate n x ++ [b] := by
  induction n with
  | zero => rfl
  | succ n ih =>
    rw [List.replicate_succ, List.set_cons_succ, ih]
    rfl

theorem wr_header_trailer (N a b : Nat) (hN : 2 ≤ N) :
    (do
      let t ← wr (List.replicate N 0) 0 a
      wr t (N - 1) b) = Res.ok ([a] ++ List.replicate (N - 2) 0 ++ [b]) := by
  obtain ⟨n, rfl⟩ : ∃ n, N = n + 2 := ⟨N - 2, by omega⟩
  simp only [wr, List.length_replicate, Nat.zero_lt_succ, if_true, Res.ok_bind, List.length_set,
    Nat.add_sub_cancel]
  rw [if_pos (by omega)]
  congr 1
  rw [List.replicate_succ, List.set_cons_zero]
  have : n + 2 - 1 = n + 1 := by omega
  rw [this, List.set_cons_succ, replicate_set_last]
  simp

theorem rdn_mid (a b c : List Nat) (off n : Nat) (hoff : off = a.length) (hn : n = b.length) :
    rdn (a ++ b ++ c) off n = .ok b := by
  subst hoff hn
  unfold rdn
  rw [if_pos (by simp only [List.length_append]; omega)]
  congr 1
  rw [List.append_assoc, List.drop_left', List.take_left']
  · rfl
  · rfl

theorem hash_write_bufs_eq (l : List (Option (List Nat))) (ch : crypto_hash) :
    hash_write_bufs ch l = crypto_hash_write ch (bufs_bytes l) := by
  induction l generalizing ch with
  | nil => simp [hash_write_bufs, bufs_bytes, crypto_hash_write_nil]
  | cons o rest ih =>
    cases o with
    | none => simp [hash_write_bufs, bufs_bytes, crypto_hash_write_nil]
    | some t => simp [hash_write_bufs, bufs_bytes, ih, crypto_hash_write_write]

theorem envelope_part_length (msg : List Nat) (pl : Nat) :
    (envelope_part msg pl).length = pl := by
  unfold envelope_part
  rw [List.length_append, List.length_take, List.length_replicate]
  omega

/-- What `emv_pki_sign_message` computes when the hash opens and the envelope has room
for header, digest and trailer. -/
theorem sign_message_eq (be : crypto_backend) (sha1 : Nat) (cp : crypto_pk)
    (cert_tag rem_tag : Nat) (msg : List Nat) (adds : List (Option (List Nat)))
    (ch : crypto_hash) (h : List Nat)
    (hch : crypto_hash_open be sha1 = some ch)
    (hN : ch.get_size + 2 ≤ envelope_len cp)
    (hread : crypto_hash_read (crypto_hash_write ch
      (envelope_part msg (envelope_len cp - 2 - ch.get_size)
        ++ msg.drop (envelope_len cp - 2 - ch.get_size) ++ bufs_bytes adds)) = some h)
    (hh : ch.get_size ≤ h.length) :
    emv_pki_sign_message be sha1 cp cert_tag rem_tag msg adds =
      (or_null (crypto_pk_decrypt cp ([0x6a]
        ++ envelope_part msg (envelope_len cp - 2 - ch.get_size)
        ++ h.take ch.get_size ++ [0xbc]))) >>= fun cert =>
        Res.ok (tlvdb_fixed cert_tag cert ++
          (if envelope_len cp - 2 - ch.get_size < msg.length then
            tlvdb_fixed rem_tag (msg.drop (envelope_len cp - 2 - ch.get_size)) else [])) := by
  have hNlt : envelope_len cp < 2 ^ 64 := by
    unfold envelope_len SIZE_MOD
    omega
  have hgl := ch.get_size_lt
  generalize hNdef : envelope_len cp = N at *
  generalize hpldef : N - 2 - ch.get_size = pl at *
  have e1 : size_sub N 1 = N - 1 := size_sub_of_le _ _ hNlt (by omega)
  have e2 : size_sub N 2 = N - 2 := size_sub_of_le _ _ hNlt (by omega)
  have e3 : size_sub (N - 2) ch.get_size = pl := by
    rw [size_sub_of_le _ _ (by omega) (by omega)]
    exact hpldef
  have hdl : (List.take ch.get_size h).length = ch.get_size := by
    rw [List.length_take]
    omega
  have hwr := wr_header_trailer N 0x6a 0xbc (by omega)
  rw [Res.bind_eq_ok] at hwr
  obtain ⟨t1, ht1, ht2⟩ := hwr
  unfold emv_pki_sign_message
  simp only [hch, or_null, Res.ok_bind, crypto_hash_get_size]
  unfold envelope_len at hNdef
  simp only [hNdef, ht1, Res.ok_bind, e1, ht2, e2, e3]
  have hplN : N - 2 = pl + ch.get_size := by omega
  have hpartl := envelope_part_length msg pl
  -- the buffer after the message bytes and the padding are in place
  have hbuild : (if pl < msg.length then do
        let tmp ← memcpy_at ([0x6a] ++ List.replicate (N - 2) 0 ++ [0xbc]) 1 (List.take pl msg)
        Res.ok (tmp, some (List.drop pl msg))
      else do
        let tmp ← memcpy_at ([0x6a] ++ List.replicate (N - 2) 0 ++ [0xbc]) 1 msg
        let tmp ← memset_at tmp (1 + msg.length) 0xbb (size_sub pl msg.length)
        Res.ok (tmp, none)) =
      Res.ok ([0x6a] ++ envelope_part msg pl ++ (List.replicate ch.get_size 0 ++ [0xbc]),
        if pl < msg.length then some (List.drop pl msg) else none) := by
    by_cases hcase : pl < msg.length
    · rw [if_pos hcase, if_pos hcase]
      have hform : [0x6a] ++ List.replicate (N - 2) 0 ++ [0xbc] =
          [0x6a] ++ List.replicate pl 0 ++ (List.replicate ch.get_size 0 ++ [0xbc]) := by
        rw [hplN, ← List.append_replicate_replicate]
        simp only [List.append_assoc]
      have hm1 := memcpy_at_mid [0x6a] (List.replicate pl 0)
        (List.replicate ch.get_size 0 ++ [0xbc]) (List.take pl msg) 1 rfl
        (by rw [List.length_take, List.length_replicate]; omega)
      have hpart : envelope_part msg pl = List.take pl msg := by
        unfold envelope_part
        have h0 : pl - msg.length = 0 := by omega
        rw [h0, List.replicate_zero, List.append_nil]
      rw [hform, hm1, hpart]
      rfl
    · rw [if_neg hcase, if_neg hcase]
      have hk : msg.length ≤ pl := by omega
      have hform : [0x6a] ++ List.replicate (N - 2) 0 ++ [0xbc] =
          [0x6a] ++ List.replicate msg.length 0 ++
            (List.replicate (pl - msg.length) 0 ++ (List.replicate ch.get_size 0 ++ [0xbc])) := by
        have h3 : N - 2 = msg.length + ((pl - msg.length) + ch.get_size) := by omega
        rw [h3, ← List.append_replicate_replicate, ← List.append_replicate_replicate]
        simp only [List.append_assoc]
      have hm1 := memcpy_at_mid [0x6a] (List.replicate msg.length 0)
        (List.replicate (pl - msg.length) 0 ++ (List.replicate ch.get_size 0 ++ [0xbc]))
        msg 1 rfl (by rw [List.length_replicate])
      have es : size_sub pl msg.length = pl - msg.length :=
        size_sub_of_le _ _ (by omega) hk
      have hm2 := memset_at_mid ([0x6a] ++ msg) (List.replicate (pl - msg.length) 0)
        (List.replicate ch.get_size 0 ++ [0xbc]) (1 + msg.length) 0xbb (pl - msg.length)
        (by rw [List.length_append]; rfl) (by rw [List.length_replicate])
      have hform2 : [0x6a] ++ msg ++
            (List.replicate (pl - msg.length) 0 ++ (List.replicate ch.get_size 0 ++ [0xbc])) =
          ([0x6a] ++ msg) ++ List.replicate (pl - msg.length) 0
            ++ (List.replicate ch.get_size 0 ++ [0xbc]) := by
        simp only [List.append_assoc]
      have hpart : envelope_part msg pl = msg ++ List.replicate (pl - msg.length) 0xbb := by
        unfold envelope_part
        rw [List.take_of_length_le hk]
      rw [hform, hm1]
      simp only [Res.ok_bind]
      rw [es, hform2, hm2, hpart]
      simp only [Res.ok_bind, List.append_assoc]
  have hrem : (match (if pl < msg.length then some (List.drop pl msg) else none) with
      | some r => r
      | none => []) = List.drop pl msg := by
    by_cases hcase : pl < msg.length
    · rw [if_pos hcase]
    · rw [if_neg hcase]
      exact (List.drop_of_length_le (by omega)).symm
  have hr := rdn_mid [0x6a] (envelope_part msg pl) (List.replicate ch.get_size 0 ++ [0xbc]) 1 pl
    rfl hpartl.symm
  have hdig : rdn h 0 ch.get_size = .ok (List.take ch.get_size h) := by
    rw [rdn_of_le _ _ _ (by omega)]
    rfl
  have hfinal : memcpy_at ([0x6a] ++ envelope_part msg pl ++ (List.replicate ch.get_size 0 ++ [0xbc]))
      (1 + pl) (List.take ch.get_size h) =
      .ok ([0x6a] ++ envelope_part msg pl ++ List.take ch.get_size h ++ [0xbc]) := by
    have := memcpy_at_mid ([0x6a] ++ envelope_part msg pl) (List.replicate ch.get_size 0) [0xbc]
      (List.take ch.get_size h) (1 + pl)
      (by rw [List.length_append, hpartl]; rfl)
      (by rw [hdl, List.length_replicate])
    rw [List.append_assoc ([0x6a] ++ envelope_part msg pl)] at this
    exact this
  rw [hbuild]
  simp only [Res.ok_bind, hr, hrem, crypto_hash_write_write, hash_write_bufs_eq]
  simp only [hread, Res.ok_bind, hdig, hfinal]
  cases crypto_pk_decrypt cp
    ([0x6a] ++ envelope_part msg pl ++ List.take ch.get_size h ++ [0xbc]) with
  | none => rfl
  | some cert =>
    simp only [Res.ok_bind]
    by_cases hcase : pl < msg.length
    · simp only [if_pos hcase]
      rfl
    · simp only [if_neg hcase, List.append_nil]

theorem envelope_cons (part digest : List Nat) :
    [0x6a] ++ part ++ digest ++ [0xbc] = 0x6a :: (part ++ (digest ++ [0xbc])) := by
  simp

theorem envelope_shape (part digest : List Nat) :
    ([0x6a] ++ part ++ digest ++ [0xbc]).length = part.length + digest.length + 2 ∧
    ([0x6a] ++ part ++ digest ++ [0xbc])[0]? = some 0x6a ∧
    (∀ i, i < part.length → ([0x6a] ++ part ++ digest ++ [0xbc])[i + 1]? = part[i]?) ∧
    ([0x6a] ++ part ++ digest ++ [0xbc])[part.length + digest.length + 1]? = some 0xbc := by
  rw [envelope_cons]
  refine ⟨?_, ?_, ?_, ?_⟩
  · simp
    omega
  · simp
  · intro i hi
    rw [List.getElem?_cons_succ]
    exact List.getElem?_append_left hi
  · rw [List.getElem?_cons_succ, List.getElem?_append_right (by omega)]
    have h1 : part.length + digest.length - part.length = digest.length := by omega
    rw [h1, List.getElem?_append_right (Nat.le_refl _), Nat.sub_self]
    simp

/-- What `emv_pki_decode_message` returns on a certificate whose plaintext is a
well-formed envelope. -/
theorem decode_message_of_envelope (be : crypto_backend) (signer : emv_pk) (msgtype : Nat)
    (cert : tlv) (extras : List (Option tlv)) (kcp : crypto_pk) (ch : crypto_hash)
    (algo : Nat) (part digest h : List Nat)
    (hlen : cert.len = signer.mlen)
    (hk : crypto_pk_open be signer.pk_algo (signer.modulus.take signer.mlen)
      (signer.exp.take signer.elen) = some kcp)
    (henc : crypto_pk_encrypt kcp cert.value = some ([0x6a] ++ part ++ digest ++ [0xbc]))
    (hm0 : part[0]? = some msgtype)
    (hpos : emv_pki_hash_psn msgtype ≠ 0)
    (halgo : part[emv_pki_hash_psn msgtype - 1]? = some algo)
    (hch : crypto_hash_open be algo = some ch)
    (hdl : digest.length = ch.get_size)
    (hread : crypto_hash_read (crypto_hash_write ch (part ++ tlvs_bytes extras)) = some h)
    (hdig : h.take ch.get_size = digest) :
    emv_pki_decode_message be (some signer) msgtype (some cert) extras
      = .ok ([0x6a] ++ part ++ digest ++ [0xbc], 1 + part.length) := by
  have hNlt := kcp.encrypt_lt _ _ henc
  have hgl := ch.get_size_lt
  have hhl : ch.get_size ≤ h.length := by
    have := congrArg List.length hdig
    rw [List.length_take, hdl] at this
    omega
  have hpl : 0 < part.length := (List.getElem?_eq_some_iff.mp hm0).1
  have hal : emv_pki_hash_psn msgtype - 1 < part.length := (List.getElem?_eq_some_iff.mp halgo).1
  obtain ⟨hN, hg0, hgs, hgl'⟩ := envelope_shape part digest
  rw [hdl] at hN hgl'
  have hr1 := rdn_mid [0x6a] part (digest ++ [0xbc]) 1 part.length rfl rfl
  rw [← List.append_assoc] at hr1
  have hr2 := rdn_mid ([0x6a] ++ part) digest [0xbc] (1 + part.length) ch.get_size
    (by rw [List.length_append]; rfl) hdl.symm
  have hg1 : ([0x6a] ++ part ++ digest ++ [0xbc])[1]? = some msgtype := by
    rw [hgs 0 hpl, hm0]
  have hga : ([0x6a] ++ part ++ digest ++ [0xbc])[emv_pki_hash_psn msgtype]? = some algo := by
    have : emv_pki_hash_psn msgtype = emv_pki_hash_psn msgtype - 1 + 1 := by omega
    rw [this, hgs _ hal, halgo]
  generalize hp : [0x6a] ++ part ++ digest ++ [0xbc] = plain at *
  have e1 : size_sub plain.length 1 = part.length + ch.get_size + 1 := by
    rw [size_sub_of_le _ _ hNlt (by omega)]; omega
  have e2 : size_sub plain.length 2 = part.length + ch.get_size := by
    rw [size_sub_of_le _ _ hNlt (by omega)]; omega
  have e3 : size_sub (part.length + ch.get_size) ch.get_size = part.length := by
    rw [size_sub_of_le _ _ (by omega) (by omega)]; omega
  have e4 : size_sub (part.length + ch.get_size + 1) ch.get_size = 1 + part.length := by
    rw [size_sub_of_le _ _ (by omega) (by omega)]; omega
  have e5 : size_sub plain.length ch.get_size = part.length + 2 := by
    rw [size_sub_of_le _ _ hNlt (by omega)]; omega
  have e6 : size_sub (part.length + 2) 1 = 1 + part.length := by
    rw [size_sub_of_le _ _ (by omega) (by omega)]; omega
  have hcomp : rdn h 0 ch.get_size = .ok digest := by
    rw [rdn_of_le _ _ _ (by omega), ← hdig]
    rfl
  have hposle : ¬ (emv_pki_hash_psn msgtype = 0 ∨ emv_pki_hash_psn msgtype > plain.length) := by
    omega
  have hlen' : ¬ (cert.len ≠ signer.mlen) := fun hc => hc hlen
  have rl : rd plain (part.length + ch.get_size + 1) = .ok 0xbc := (rd_eq_ok _ _ _).mpr hgl'
  have r0 : rd plain 0 = .ok 0x6a := (rd_eq_ok _ _ _).mpr hg0
  have r1 : rd plain 1 = .ok msgtype := (rd_eq_ok _ _ _).mpr hg1
  have ra : rd plain (emv_pki_hash_psn msgtype) = .ok algo := (rd_eq_ok _ _ _).mpr hga
  have hbc : ¬ ((0xbc : Nat) ≠ 0xbc) := fun hc => hc rfl
  have h6a : ¬ ((0x6a : Nat) ≠ 0x6a) := fun hc => hc rfl
  have hmt : ¬ (msgtype ≠ msgtype) := fun hc => hc rfl
  have hdd : ¬ (digest ≠ digest) := fun hc => hc rfl
  unfold emv_pki_decode_message
  simp only [or_null, Res.ok_bind, reject_if_neg _ hlen', hk]
  rw [henc, show or_fault (some plain) = Res.ok plain from rfl, Res.ok_bind]
  rw [e1, rl, Res.ok_bind, reject_if_neg _ hbc, Res.ok_bind]
  rw [r0, Res.ok_bind, reject_if_neg _ h6a, Res.ok_bind]
  rw [r1, Res.ok_bind, reject_if_neg _ hmt, Res.ok_bind]
  rw [reject_if_neg _ hposle, Res.ok_bind, ra, Res.ok_bind, hch]
  simp only [Res.ok_bind, crypto_hash_get_size]
  rw [e2, e3, hr1, Res.ok_bind, e4, hr2, Res.ok_bind]
  rw [hash_write_tlvs_eq, crypto_hash_write_write, hread,
    show or_fault (some h) = Res.ok h from rfl, Res.ok_bind, hcomp, Res.ok_bind,
    reject_if_neg _ hdd, Res.ok_bind, e5, e6]

theorem memcpy_at_zero_ok (dst src : List Nat) (hle : src.length ≤ dst.length) :
    memcpy_at dst 0 src = .ok (src ++ dst.drop src.length) := by
  unfold memcpy_at
  split
  · rename_i h0
    have : src = [] := List.length_eq_zero.mp h0
    subst this
    rfl
  · rw [if_pos (by omega)]
    simp

theorem memcpy_at_exists (dst src : List Nat) (off : Nat)
    (h : src ≠ [] → off + src.length ≤ dst.length) :
    ∃ r, memcpy_at dst off src = .ok r := by
  unfold memcpy_at
  split
  · exact ⟨_, rfl⟩
  · rename_i h0
    have hne : src ≠ [] := fun hc => h0 (by rw [hc]; rfl)
    rw [if_pos (h hne)]
    exact ⟨_, rfl⟩

/-- `emv_pki_decode_key` returns a key once every check passes. -/
theorem decode_key_ok_of (be : crypto_backend) (enc_pk : Option emv_pk) (signer : emv_pk)
    (msgtype P : Nat) (pan cert exp : tlv) (rem_tlv add_tlv : Option tlv)
    (data : List Nat) (len M : Nat)
    (hsig : enc_pk = some signer)
    (hP : msgtype = 2 ∧ P = 4 ∨ msgtype = 4 ∧ P = 10)
    (hdec : emv_pki_decode_message be enc_pk msgtype (some cert)
      [some (rem_tlv.getD empty_tlv), some exp, add_tlv, none] = .ok (data, len))
    (hlen : 11 + P ≤ len)
    (hlc : ¬ ((msgtype = 2 ∧ (emv_cn_length { tag := 0x5a, value := (data.drop 2).take P } < 4 ∨
          emv_cn_length { tag := 0x5a, value := (data.drop 2).take P } > emv_cn_length pan)) ∨
        (msgtype = 4 ∧
          emv_cn_length { tag := 0x5a, value := (data.drop 2).take P } ≠ emv_cn_length pan)))
    (hloop : pan_compare_loop pan { tag := 0x5a, value := (data.drop 2).take P }
        (emv_cn_length { tag := 0x5a, value := (data.drop 2).take P }) 0 = .ok ())
    (hM : data[9 + P]? = some M)
    (hMle : M ≤ len - 11 - P + (rem_tlv.getD empty_tlv).len)
    (he : data[10 + P]? = some exp.len) (he3 : exp.len ≤ 3)
    (hfit : (rem_tlv.getD empty_tlv).value ≠ [] →
      len - 11 - P + (rem_tlv.getD empty_tlv).len ≤ M) :
    ∃ pk, emv_pki_decode_key be enc_pk msgtype (some pan) (some cert) (some exp) rem_tlv
      add_tlv = .ok pk := by
  obtain ⟨_, _, _, _, ch, _, _, _, _, _, _, _, _, hsz, hdl, _, _, _, _, _, _, _, hlen'⟩ :=
    decode_message_ok_inv be enc_pk msgtype _ _ data len hdec
  have hP10 : P ≤ 10 := by rcases hP with ⟨_, h⟩ | ⟨_, h⟩ <;> omega
  have hlt : len < 2 ^ 64 := by omega
  have hld : len < data.length := by omega
  have es1 : size_sub len 11 = len - 11 := size_sub_of_le _ _ hlt (by omega)
  have es2 : size_sub (len - 11) P = len - 11 - P := size_sub_of_le _ _ (by omega) (by omega)
  have es3 : size_sub len (11 + P) = len - 11 - P := by
    rw [size_sub_of_le _ _ hlt hlen]; omega
  obtain ⟨ha, hha⟩ : ∃ v, data[7 + P]? = some v := ⟨_, List.getElem?_eq_getElem (by omega)⟩
  obtain ⟨pa, hpa⟩ : ∃ v, data[8 + P]? = some v := ⟨_, List.getElem?_eq_getElem (by omega)⟩
  obtain ⟨yy, hyy⟩ : ∃ v, data[3 + P]? = some v := ⟨_, List.getElem?_eq_getElem (by omega)⟩
  obtain ⟨mm, hmm⟩ : ∃ v, data[2 + P]? = some v := ⟨_, List.getElem?_eq_getElem (by omega)⟩
  have rM := (rd_eq_ok _ _ _).mpr hM
  have re := (rd_eq_ok _ _ _).mpr he
  have rha := (rd_eq_ok _ _ _).mpr hha
  have rpa := (rd_eq_ok _ _ _).mpr hpa
  have ryy := (rd_eq_ok _ _ _).mpr hyy
  have rmm := (rd_eq_ok _ _ _).mpr hmm
  have hnew : emv_pk_new M exp.len = some
      { rid := List.replicate 5 0, index := 0, serial := List.replicate 3 0,
        pan := List.replicate 10 0, hash_algo := 0, pk_algo := 0,
        hash := List.replicate 20 0, exp := List.replicate 3 0, elen := exp.len,
        mlen := M, modulus := List.replicate M 0, expire := 0 } := by
    unfold emv_pk_new
    rw [if_neg (by omega)]
  have hr1 := rdn_of_le data (4 + P) 3 (by omega)
  have hr2 := rdn_of_le data 2 P (by omega)
  have hr3 := rdn_of_le data (11 + P) (if M < len - 11 - P then M else len - 11 - P)
    (by split <;> omega)
  have hheadl : ((data.drop (11 + P)).take (if M < len - 11 - P then M else len - 11 - P)).length
      = (if M < len - 11 - P then M else len - 11 - P) := by
    rw [List.length_take, List.length_drop]
    split <;> omega
  have hm1 := memcpy_at_zero_ok (List.replicate M 0)
    ((data.drop (11 + P)).take (if M < len - 11 - P then M else len - 11 - P))
    (by rw [hheadl, List.length_replicate]; split <;> omega)
  obtain ⟨m2, hm2⟩ := memcpy_at_exists
    ((data.drop (11 + P)).take (if M < len - 11 - P then M else len - 11 - P)
      ++ (List.replicate M 0).drop
        ((data.drop (11 + P)).take (if M < len - 11 - P then M else len - 11 - P)).length)
    (rem_tlv.getD empty_tlv).value (len - 11 - P)
    (by
      intro hne
      have := hfit hne
      rw [List.length_append, List.length_drop, List.length_replicate, hheadl]
      unfold tlv.len at this
      split <;> omega)
  have hm3 := memcpy_at_zero_ok (List.replicate 3 0) exp.value
    (by rw [List.length_replicate]; exact he3)
  have hMle' : ¬ (M > len - 11 - P + (rem_tlv.getD empty_tlv).len) := by omega
  have hnl : ¬ (len < 11 + P) := by omega
  have hee : ¬ (exp.len ≠ exp.len) := fun h => h rfl
  unfold emv_pki_decode_key
  rw [show or_null (some cert) = Res.ok cert from rfl, Res.ok_bind,
    show or_null (some exp) = Res.ok exp from rfl, Res.ok_bind,
    show or_null (some pan) = Res.ok pan from rfl, Res.ok_bind,
    pan_length_ok msgtype P hP, Res.ok_bind, hdec, Res.ok_bind]
  simp only []
  rw [reject_if_neg _ hnl, Res.ok_bind, reject_if_neg _ hlc, Res.ok_bind, hloop, Res.ok_bind,
    rM, Res.ok_bind, es1, es2, reject_if_neg _ hMle', Res.ok_bind, re, Res.ok_bind,
    reject_if_neg _ hee, Res.ok_bind, hnew, show ∀ x : emv_pk, or_fault (some x) = Res.ok x
      from fun _ => rfl, Res.ok_bind, hsig, show or_fault (some signer) = Res.ok signer from rfl,
    Res.ok_bind, rha, Res.ok_bind, rpa, Res.ok_bind, ryy, Res.ok_bind, rmm, Res.ok_bind, hr1,
    Res.ok_bind, hr2, Res.ok_bind, es3, hr3, Res.ok_bind]
  simp only []
  rw [hm1, Res.ok_bind, hm2, Res.ok_bind, hm3, Res.ok_bind]
  exact ⟨_, rfl⟩

theorem bufs_bytes_map_value (extras : List (Option tlv)) :
    bufs_bytes (extras.map (Option.map tlv.value)) = tlvs_bytes extras := by
  induction extras with
  | nil => rfl
  | cons o rest ih =>
    cases o with
    | none => rfl
    | some t => simp [bufs_bytes, tlvs_bytes, ih]

theorem emv_pki_hash_psn_ne_zero (m : Nat) (hm : m = 2 ∨ m = 3 ∨ m = 4 ∨ m = 5) :
    emv_pki_hash_psn m ≠ 0 := by
  rcases hm with h | h | h | h <;> subst h <;> decide

theorem envelope_message (m pad tail : List Nat) :
    (([0x6a] ++ (m ++ pad) ++ tail ++ [0xbc]).drop 1).take m.length = m := by
  have h1 : [0x6a] ++ (m ++ pad) ++ tail ++ [0xbc] = 0x6a :: (m ++ (pad ++ (tail ++ [0xbc]))) := by
    simp
  rw [h1, List.drop_succ_cons, List.drop_zero]
  exact List.take_left' rfl

/-! ## Claims about signing followed by decoding -/

/-- C2 as stated fails: for the message `03 01 AB CD` (which fits the 30-byte envelope)
signing succeeds and decoding with the same extras succeeds, but the buffer returned is
the envelope `6A 03 01 AB CD BB BB BB BB ...` with reported length 9, not the message. -/
theorem sign_decode_returns_envelope :
    emv_pki_sign_message test_backend 1 (test_pk 30) 0x93 0 [3, 1, 0xab, 0xcd]
      [some [1, 2], some [3], none] = .ok [c1_cert] ∧
    emv_pki_decode_message test_backend (some (test_signer 30)) 3 (some c1_cert) c1_extras
      = .ok (c1_cert.value, 9) ∧
    c1_cert.value ≠ [3, 1, 0xab, 0xcd] ∧
    c1_cert.value.take 9 = [0x6a, 3, 1, 0xab, 0xcd, 0xbb, 0xbb, 0xbb, 0xbb] := by
  refine ⟨by decide!, by decide!, by decide!, by decide!⟩

/-- Signing a message that fits the envelope and decoding the certificate with the same
extras returns the envelope built around the message. -/
theorem sign_then_decode (be : crypto_backend) (sha1 : Nat) (cp : crypto_pk)
    (signer : emv_pk) (kcp : crypto_pk) (ch : crypto_hash) (msgtype : Nat) (m : List Nat)
    (extras : List (Option tlv)) (cert_tag rem_tag : Nat)
    (hch : crypto_hash_open be sha1 = some ch)
    (hdigest : ∀ w, ∃ h, ch.read w = some h ∧ h.length = ch.get_size)
    (hfit : m.length + 2 + ch.get_size ≤ envelope_len cp)
    (hmsgtype : msgtype = 2 ∨ msgtype = 3 ∨ msgtype = 4 ∨ msgtype = 5)
    (hm0 : m[0]? = some msgtype)
    (halgo : m[emv_pki_hash_psn msgtype - 1]? = some sha1)
    (hmlen : signer.mlen = envelope_len cp)
    (hk : crypto_pk_open be signer.pk_algo (signer.modulus.take signer.mlen)
      (signer.exp.take signer.elen) = some kcp)
    (hinv : ∀ x, signed_envelope ch cp m (tlvs_bytes extras) = some x →
      ∃ c, crypto_pk_decrypt cp x = some c ∧ c.length = x.length ∧
        crypto_pk_encrypt kcp c = some x) :
    ∃ cert plain digest,
      emv_pki_sign_message be sha1 cp cert_tag rem_tag m (extras.map (Option.map tlv.value))
        = .ok [{ tag := cert_tag, value := cert }] ∧
      emv_pki_decode_message be (some signer) msgtype (some { tag := cert_tag, value := cert })
        extras = .ok (plain, envelope_len cp - ch.get_size - 1) ∧
      plain = [0x6a] ++ m
        ++ List.replicate (envelope_len cp - 2 - ch.get_size - m.length) 0xbb
        ++ digest ++ [0xbc] ∧
      digest.length = ch.get_size ∧
      (plain.drop 1).take m.length = m := by
  have hk2 : m.length ≤ envelope_len cp - 2 - ch.get_size := by omega
  have hpart : envelope_part m (envelope_len cp - 2 - ch.get_size)
      = m ++ List.replicate (envelope_len cp - 2 - ch.get_size - m.length) 0xbb := by
    unfold envelope_part
    rw [List.take_of_length_le hk2]
  have hdrop : List.drop (envelope_len cp - 2 - ch.get_size) m = [] :=
    List.drop_of_length_le hk2
  obtain ⟨h, hread, hhl⟩ := hdigest (ch.written
    ++ (envelope_part m (envelope_len cp - 2 - ch.get_size)
      ++ List.drop (envelope_len cp - 2 - ch.get_size) m
      ++ bufs_bytes (extras.map (Option.map tlv.value))))
  have hsign := sign_message_eq be sha1 cp cert_tag rem_tag m (extras.map (Option.map tlv.value))
    ch h hch (by omega) hread (by omega)
  have htake : List.take ch.get_size h = h := List.take_of_length_le (by omega)
  have hpl := envelope_part_length m (envelope_len cp - 2 - ch.get_size)
  have hxl : ([0x6a] ++ envelope_part m (envelope_len cp - 2 - ch.get_size)
      ++ List.take ch.get_size h ++ [0xbc]).length = envelope_len cp := by
    simp only [List.length_append, List.length_singleton, hpl, htake, hhl]
    omega
  have henv : signed_envelope ch cp m (tlvs_bytes extras) = some ([0x6a]
      ++ envelope_part m (envelope_len cp - 2 - ch.get_size)
      ++ List.take ch.get_size h ++ [0xbc]) := by
    unfold signed_envelope
    rw [← bufs_bytes_map_value,
      show crypto_hash_read (crypto_hash_write ch
        (envelope_part m (envelope_len cp - 2 - ch.get_size)
          ++ List.drop (envelope_len cp - 2 - ch.get_size) m
          ++ bufs_bytes (extras.map (Option.map tlv.value)))) = some h from hread]
    rfl
  obtain ⟨cert, hdecr, hcl, hencr⟩ := hinv _ henv
  rw [hdecr, if_neg (by omega)] at hsign
  have hm0' : (envelope_part m (envelope_len cp - 2 - ch.get_size))[0]? = some msgtype := by
    have h0 := (List.getElem?_eq_some_iff.mp hm0).1
    rw [hpart, List.getElem?_append_left h0]
    exact hm0
  have halgo' : (envelope_part m (envelope_len cp - 2 - ch.get_size))[
      emv_pki_hash_psn msgtype - 1]? = some sha1 := by
    have h0 := (List.getElem?_eq_some_iff.mp halgo).1
    rw [hpart, List.getElem?_append_left h0]
    exact halgo
  have hread' : crypto_hash_read (crypto_hash_write ch
      (envelope_part m (envelope_len cp - 2 - ch.get_size) ++ tlvs_bytes extras)) = some h := by
    rw [hdrop, List.append_nil, bufs_bytes_map_value] at hread
    exact hread
  have hdec := decode_message_of_envelope be signer msgtype { tag := cert_tag, value := cert }
    extras kcp ch sha1 (envelope_part m (envelope_len cp - 2 - ch.get_size))
    (List.take ch.get_size h) h
    (by
      show cert.length = signer.mlen
      rw [hcl, hxl, hmlen])
    hk hencr hm0' (emv_pki_hash_psn_ne_zero msgtype hmsgtype) halgo' hch
    (by rw [htake, hhl]) hread' rfl
  refine ⟨cert, [0x6a] ++ envelope_part m (envelope_len cp - 2 - ch.get_size)
    ++ List.take ch.get_size h ++ [0xbc], List.take ch.get_size h, ?_, ?_, ?_, ?_, ?_⟩
  · rw [hsign]
    rfl
  · rw [hdec, hpl]
    congr 2
    omega
  · rw [hpart]
    simp only [List.append_assoc]
  · rw [htake, hhl]
  · rw [hpart]
    exact envelope_message m _ _

/-- C2, amended: for a key pair on which the RSA public operation inverts the private
one on the envelope that is signed, a message type in `{2,3,4,5}`, a message `m` that fits
the envelope, starts with the message type and carries the SHA-1 identifier at offset
`hash_pos(msgtype) - 1`, and any list of extras, `emv_pki_sign_message` emits exactly one
TLV and `emv_pki_decode_message` on it with the same extras returns the envelope
`6A ‖ m ‖ BB… ‖ digest ‖ BC` with reported length `N - hlen - 1`; `m` is the bytes
`[1, 1 + |m|)` of the returned buffer.
The hypothesis on the key pair holds for every textbook RSA key pair on messages and
digests of bytes (`rsa_inverts_signed_envelope`). -/
theorem sign_decode_roundtrip (be : crypto_backend) (sha1 : Nat) (cp : crypto_pk)
    (signer : emv_pk) (kcp : crypto_pk) (ch : crypto_hash) (msgtype : Nat) (m : List Nat)
    (extras : List (Option tlv)) (cert_tag rem_tag : Nat)
    (hch : crypto_hash_open be sha1 = some ch)
    (hdigest : ∀ w, ∃ h, ch.read w = some h ∧ h.length = ch.get_size)
    (hfit : m.length + 2 + ch.get_size ≤ envelope_len cp)
    (hmsgtype : msgtype = 2 ∨ msgtype = 3 ∨ msgtype = 4 ∨ msgtype = 5)
    (hm0 : m[0]? = some msgtype)
    (halgo : m[emv_pki_hash_psn msgtype - 1]? = some sha1)
    (hmlen : signer.mlen = envelope_len cp)
    (hk : crypto_pk_open be signer.pk_algo (signer.modulus.take signer.mlen)
      (signer.exp.take signer.elen) = some kcp)
    (hinv : ∀ x, signed_envelope ch cp m (tlvs_bytes extras) = some x →
      ∃ c, crypto_pk_decrypt cp x = some c ∧ c.length = x.length ∧
        crypto_pk_encrypt kcp c = some x) :
    ∃ cert plain digest,
      emv_pki_sign_message be sha1 cp cert_tag rem_tag m (extras.map (Option.map tlv.value))
        = .ok [{ tag := cert_tag, value := cert }] ∧
      emv_pki_decode_message be (some signer) msgtype (some { tag := cert_tag, value := cert })
        extras = .ok (plain, envelope_len cp - ch.get_size - 1) ∧
      plain = [0x6a] ++ m
        ++ List.replicate (envelope_len cp - 2 - ch.get_size - m.length) 0xbb
        ++ digest ++ [0xbc] ∧
      digest.length = ch.get_size ∧
      (plain.drop 1).take m.length = m :=
  sign_then_decode be sha1 cp signer kcp ch msgtype m extras cert_tag rem_tag hch hdigest hfit
    hmsgtype hm0 halgo hmlen hk hinv

theorem test_digest_length (w : List Nat) : (test_digest w).length = 20 := by
  simp [test_digest]

/-- A successful check by evaluation gives the inversion property on the buffer. -/
theorem inverts_of_check (cp kcp : crypto_pk) (env : Option (List Nat))
    (h : check_inverts cp kcp env = true) :
    ∀ x, env = some x →
      ∃ c, crypto_pk_decrypt cp x = some c ∧ c.length = x.length ∧
        crypto_pk_encrypt kcp c = some x := by
  intro x hx
  subst hx
  unfold check_inverts at h
  simp only [] at h
  cases hd : crypto_pk_decrypt cp x with
  | none =>
    rw [hd] at h
    cases h
  | some c =>
    rw [hd] at h
    simp only [decide_eq_true_eq] at h
    exact ⟨c, rfl, h.1, h.2⟩

/-- `pow_mod_loop` computes `acc * b ^ e mod m`. -/
theorem pow_mod_loop_eq (m : Nat) (hm : 0 < m) :
    ∀ (fuel b e acc : Nat), e < 2 ^ fuel → acc < m →
      pow_mod_loop m fuel b e acc = acc * b ^ e % m := by
  intro fuel
  induction fuel with
  | zero =>
    intro b e acc he hacc
    have h0 : e = 0 := by simpa using he
    subst h0
    rw [pow_mod_loop, pow_zero, Nat.mul_one, Nat.mod_eq_of_lt hacc]
  | succ f ih =>
    intro b e acc he hacc
    rw [pow_mod_loop]
    by_cases h0 : e = 0
    · subst h0
      rw [if_pos rfl, pow_zero, Nat.mul_one, Nat.mod_eq_of_lt hacc]
    · rw [if_neg h0]
      have he2 : e / 2 < 2 ^ f := by
        rw [Nat.pow_succ] at he
        omega
      have hsq : (b * b % m) ^ (e / 2) % m = (b * b) ^ (e / 2) % m := by
        rw [Nat.pow_mod, Nat.mod_mod, ← Nat.pow_mod]
      by_cases h1 : e % 2 = 1
      · rw [if_pos h1, ih _ _ _ he2 (Nat.mod_lt _ hm)]
        have hb : b ^ e = b * (b * b) ^ (e / 2) := by
          conv_lhs => rw [← Nat.div_add_mod e 2, h1]
          rw [Nat.pow_succ, Nat.pow_mul, Nat.mul_comm, Nat.pow_two]
        rw [hb, Nat.mul_mod, Nat.mod_mod, hsq, ← Nat.mul_mod, Nat.mul_assoc]
      · rw [if_neg h1, ih _ _ _ he2 hacc]
        have h2 : e % 2 = 0 := by omega
        have hb : b ^ e = (b * b) ^ (e / 2) := by
          conv_lhs => rw [← Nat.div_add_mod e 2, h2]
          rw [Nat.add_zero, Nat.pow_mul, Nat.pow_two]
        rw [hb, Nat.mul_mod, hsq, ← Nat.mul_mod]

/-- The operation of the RSA backend is modular exponentiation: `pow_mod` computes
`b ^ e mod m`. -/
theorem pow_mod_eq (bits b e m : Nat) (hm : 1 < m) (he : e < 2 ^ bits) :
    pow_mod bits b e m = b ^ e % m := by
  unfold pow_mod
  rw [pow_mod_loop_eq m (by omega) bits b e (1 % m) he (Nat.mod_lt _ (by omega)),
    Nat.mod_eq_of_lt hm, Nat.one_mul]

theorem be_to_nat_snoc (l : List Nat) (b : Nat) : be_to_nat (l ++ [b]) = be_to_nat l * 256 + b := by
  unfold be_to_nat
  rw [List.foldl_append]
  rfl

theorem nat_to_be_succ (len v : Nat) :
    nat_to_be (len + 1) v = nat_to_be len (v / 256) ++ [v % 256] := by
  unfold nat_to_be
  rw [List.range_succ, List.map_append]
  congr 1
  · apply List.map_congr_left
    intro i hi
    have hlt : i < len := List.mem_range.mp hi
    have e : len + 1 - 1 - i = (len - 1 - i) + 1 := by omega
    rw [e, Nat.pow_succ, Nat.div_div_eq_div_mul, Nat.mul_comm 256]
  · simp

theorem nat_to_be_length (len v : Nat) : (nat_to_be len v).length = len := by
  unfold nat_to_be
  rw [List.length_map, List.length_range]

/-- The bytes of a number below `256 ^ len` denote that number. -/
theorem be_to_nat_nat_to_be : ∀ (len v : Nat), v < 256 ^ len → be_to_nat (nat_to_be len v) = v := by
  intro len
  induction len with
  | zero =>
    intro v hv
    have : v = 0 := by simpa using hv
    subst this
    rfl
  | succ len ih =>
    intro v hv
    rw [nat_to_be_succ, be_to_nat_snoc, ih (v / 256) (by
      rw [Nat.div_lt_iff_lt_mul (by decide)]
      rw [Nat.pow_succ] at hv
      exact hv)]
    omega

/-- A string of bytes is the bytes of the number it denotes. -/
theorem nat_to_be_be_to_nat (l : List Nat) (hb : ∀ b ∈ l, b < 256) :
    nat_to_be l.length (be_to_nat l) = l := by
  induction l using List.reverseRecOn with
  | nil => rfl
  | append_singleton l b ih =>
    have hb1 : b < 256 := hb b (by simp)
    rw [List.length_append, List.length_singleton, nat_to_be_succ, be_to_nat_snoc]
    have e1 : (be_to_nat l * 256 + b) / 256 = be_to_nat l := by omega
    have e2 : (be_to_nat l * 256 + b) % 256 = b := by omega
    rw [e1, e2, ih (fun x hx => hb x (by simp [hx]))]

theorem be_to_nat_lt (l : List Nat) (hb : ∀ b ∈ l, b < 256) : be_to_nat l < 256 ^ l.length := by
  induction l using List.reverseRecOn with
  | nil => decide
  | append_singleton l b ih =>
    have hb1 : b < 256 := hb b (by simp)
    have h := ih (fun x hx => hb x (by simp [hx]))
    rw [be_to_nat_snoc, List.length_append, List.length_singleton, Nat.pow_succ]
    omega

theorem be_to_nat_cons (a : Nat) (l : List Nat) :
    be_to_nat (a :: l) = a * 256 ^ l.length + be_to_nat l := by
  induction l using List.reverseRecOn with
  | nil => simp [be_to_nat]
  | append_singleton l b ih =>
    rw [← List.cons_append, be_to_nat_snoc, ih, be_to_nat_snoc, List.length_append,
      List.length_singleton, Nat.pow_succ]
    ring

/-- On a string of `len` bytes that denotes a number `x` below the modulus with
`(x ^ d mod n) ^ e mod n = x`, the RSA operation with exponent `e` inverts the one with
exponent `d`. -/
theorem rsa_op_inverts (n e d len : Nat) (hn1 : 1 < n) (hn : n ≤ 256 ^ len) (hlen : len < 2 ^ 64)
    (he : e < 2 ^ (8 * len)) (hd : d < 2 ^ (8 * len))
    (x : List Nat) (hx : x.length = len) (hb : ∀ b ∈ x, b < 256) (hxn : be_to_nat x < n)
    (hrsa : (be_to_nat x ^ d % n) ^ e % n = be_to_nat x) :
    ∃ c, rsa_op n d len x = some c ∧ c.length = x.length ∧ rsa_op n e len c = some x := by
  refine ⟨nat_to_be len (pow_mod (8 * len) (be_to_nat x) d n), ?_, ?_, ?_⟩
  · unfold rsa_op
    rw [if_pos ⟨hx, hlen, hxn⟩]
  · rw [nat_to_be_length, hx]
  · have hlt : be_to_nat x ^ d % n < n := Nat.mod_lt _ (by omega)
    unfold rsa_op
    rw [pow_mod_eq _ _ _ _ hn1 hd, be_to_nat_nat_to_be len _ (by omega),
      if_pos ⟨nat_to_be_length _ _, hlen, hlt⟩, pow_mod_eq _ _ _ _ hn1 he, hrsa, ← hx,
      nat_to_be_be_to_nat x hb]

theorem envelope_len_rsa_pk (n e : Nat) (d : Option Nat) (len : Nat) (h8 : 8 * len + 7 < 2 ^ 64) :
    envelope_len (rsa_pk n e d len) = len := by
  unfold envelope_len crypto_pk_get_nbits rsa_pk SIZE_MOD
  simp only []
  rw [Nat.mod_eq_of_lt h8]
  omega

/-- Every textbook RSA key pair satisfies the hypothesis of the round-trip theorems: if the
modulus `n` of `len` bytes is at least `6B 00 … 00`, the exponents invert each other below
`n`, and message and digest consist of bytes, then on the envelope that
`emv_pki_sign_message` signs the public operation inverts the private one. -/
theorem rsa_inverts_signed_envelope (ch : crypto_hash) (n e d len : Nat) (kcp : crypto_pk)
    (msg extra : List Nat)
    (hkcp : kcp.encrypt = rsa_op n e len)
    (hn0 : 0x6b * 256 ^ (len - 1) ≤ n) (hn : n ≤ 256 ^ len) (h8 : 8 * len + 7 < 2 ^ 64)
    (he : e < 2 ^ (8 * len)) (hd : d < 2 ^ (8 * len))
    (hrsa : ∀ x, x < n → (x ^ d % n) ^ e % n = x)
    (hroom : 2 + ch.get_size ≤ len)
    (hmsg : ∀ b ∈ msg, b < 256)
    (hdigest : ∀ w h, ch.read w = some h → ch.get_size ≤ h.length ∧ ∀ b ∈ h, b < 256) :
    ∀ x, signed_envelope ch (rsa_pk n e (some d) len) msg extra = some x →
      ∃ c, crypto_pk_decrypt (rsa_pk n e (some d) len) x = some c ∧ c.length = x.length ∧
        crypto_pk_encrypt kcp c = some x := by
  intro x hx
  unfold signed_envelope at hx
  rw [envelope_len_rsa_pk n e (some d) len h8] at hx
  cases hr : crypto_hash_read (crypto_hash_write ch
      (envelope_part msg (len - 2 - ch.get_size) ++ List.drop (len - 2 - ch.get_size) msg
        ++ extra)) with
  | none =>
    rw [hr] at hx
    cases hx
  | some h =>
    rw [hr] at hx
    obtain ⟨hhl, hhb⟩ := hdigest _ h hr
    have hx' := (Option.some.inj hx).symm
    have hpl := envelope_part_length msg (len - 2 - ch.get_size)
    have hrestl : (envelope_part msg (len - 2 - ch.get_size) ++ List.take ch.get_size h
        ++ [0xbc]).length = len - 1 := by
      simp only [List.length_append, List.length_singleton, hpl, List.length_take]
      omega
    have hrestb : ∀ b ∈ envelope_part msg (len - 2 - ch.get_size) ++ List.take ch.get_size h
        ++ [0xbc], b < 256 := by
      intro b hbm
      simp only [List.mem_append, List.mem_singleton, envelope_part] at hbm
      rcases hbm with ((hb1 | hb2) | hb3) | hb4
      · exact hmsg b (List.mem_of_mem_take hb1)
      · rw [List.eq_of_mem_replicate hb2]
        decide
      · exact hhb b (List.mem_of_mem_take hb3)
      · rw [hb4]
        decide
    have hxe : x = 0x6a :: (envelope_part msg (len - 2 - ch.get_size)
        ++ List.take ch.get_size h ++ [0xbc]) := by
      rw [hx']
      simp
    have hxl : x.length = len := by
      rw [hxe, List.length_cons, hrestl]
      omega
    have hxb : ∀ b ∈ x, b < 256 := by
      intro b hbm
      rw [hxe, List.mem_cons] at hbm
      rcases hbm with h1 | h2
      · rw [h1]
        decide
      · exact hrestb b h2
    have hxn : be_to_nat x < n := by
      have hlt := be_to_nat_lt _ hrestb
      rw [hrestl] at hlt
      rw [hxe, be_to_nat_cons, hrestl]
      omega
    have hpos : 0 < 256 ^ (len - 1) := Nat.pow_pos (by decide)
    obtain ⟨c, h1, h2, h3⟩ := rsa_op_inverts n e d len (by omega) hn (by omega) he hd x hxl hxb
      hxn (hrsa _ hxn)
    refine ⟨c, ?_, h2, ?_⟩
    · exact h1
    · unfold crypto_pk_encrypt
      rw [hkcp]
      exact h3

/-- The round trip of `emv_pki_sign_message` and `emv_pki_decode_message` for every
textbook RSA key pair: modulus of `len` bytes not below `6B 00 … 00`, exponents that invert
each other below the modulus, a message of bytes that fits the envelope, a digest of
bytes. -/
theorem rsa_sign_then_decode (be : crypto_backend) (sha1 n e d len : Nat)
    (signer : emv_pk) (kcp : crypto_pk) (ch : crypto_hash) (msgtype : Nat) (m : List Nat)
    (extras : List (Option tlv)) (cert_tag rem_tag : Nat)
    (hch : crypto_hash_open be sha1 = some ch)
    (hdigest : ∀ w, ∃ h, ch.read w = some h ∧ h.length = ch.get_size ∧ ∀ b ∈ h, b < 256)
    (hfit : m.length + 2 + ch.get_size ≤ len)
    (hmsgtype : msgtype = 2 ∨ msgtype = 3 ∨ msgtype = 4 ∨ msgtype = 5)
    (hm0 : m[0]? = some msgtype)
    (halgo : m[emv_pki_hash_psn msgtype - 1]? = some sha1)
    (hmlen : signer.mlen = len)
    (hk : crypto_pk_open be signer.pk_algo (signer.modulus.take signer.mlen)
      (signer.exp.take signer.elen) = some kcp)
    (hkcp : kcp.encrypt = rsa_op n e len)
    (hn0 : 0x6b * 256 ^ (len - 1) ≤ n) (hn : n ≤ 256 ^ len) (h8 : 8 * len + 7 < 2 ^ 64)
    (he : e < 2 ^ (8 * len)) (hd : d < 2 ^ (8 * len))
    (hrsa : ∀ x, x < n → (x ^ d % n) ^ e % n = x)
    (hmsg : ∀ b ∈ m, b < 256) :
    ∃ cert plain digest,
      emv_pki_sign_message be sha1 (rsa_pk n e (some d) len) cert_tag rem_tag m
        (extras.map (Option.map tlv.value)) = .ok [{ tag := cert_tag, value := cert }] ∧
      emv_pki_decode_message be (some signer) msgtype (some { tag := cert_tag, value := cert })
        extras = .ok (plain, len - ch.get_size - 1) ∧
      plain = [0x6a] ++ m ++ List.replicate (len - 2 - ch.get_size - m.length) 0xbb
        ++ digest ++ [0xbc] ∧
      digest.length = ch.get_size ∧
      (plain.drop 1).take m.length = m := by
  have hel := envelope_len_rsa_pk n e (some d) len h8
  have h := sign_then_decode be sha1 (rsa_pk n e (some d) len) signer kcp ch msgtype m extras
    cert_tag rem_tag hch
    (fun w => by
      obtain ⟨h, h1, h2, _⟩ := hdigest w
      exact ⟨h, h1, h2⟩)
    (by rw [hel]; exact hfit) hmsgtype hm0 halgo (by rw [hel]; exact hmlen) hk
    (rsa_inverts_signed_envelope ch n e d len kcp m (tlvs_bytes extras) hkcp hn0 hn h8 he hd
      hrsa (by omega) hmsg
      (fun w h hw => by
        obtain ⟨h', h1, h2, h3⟩ := hdigest w
        rw [hw] at h1
        cases h1
        exact ⟨by omega, h3⟩))
  rw [hel] at h
  exact h

set_option maxRecDepth 1000000 in
/-- C2, amended, at a concrete input: the message `03 01 AB CD` with two extras under the
1024-bit key of the RSA backend. -/
theorem sign_decode_roundtrip_witness :
    ∃ cert plain digest,
      emv_pki_sign_message rsa_backend 1 rsa_signer_cp 0x93 0 [3, 1, 0xab, 0xcd]
        (c1_extras.map (Option.map tlv.value)) = .ok [{ tag := 0x93, value := cert }] ∧
      emv_pki_decode_message rsa_backend (some rsa_signer) 3
        (some { tag := 0x93, value := cert }) c1_extras
        = .ok (plain, envelope_len rsa_signer_cp - test_hash.get_size - 1) ∧
      plain = [0x6a] ++ [3, 1, 0xab, 0xcd]
        ++ List.replicate
          (envelope_len rsa_signer_cp - 2 - test_hash.get_size - [3, 1, 0xab, 0xcd].length) 0xbb
        ++ digest ++ [0xbc] ∧
      digest.length = test_hash.get_size ∧
      (plain.drop 1).take [3, 1, 0xab, 0xcd].length = [3, 1, 0xab, 0xcd] :=
  sign_decode_roundtrip rsa_backend 1 rsa_signer_cp rsa_signer rsa_signer_pub
    { test_hash with algo := 1 } 3 [3, 1, 0xab, 0xcd] c1_extras
    0x93 0 rfl (fun w => ⟨test_digest w, rfl, test_digest_length w⟩) (by decide)
    (Or.inr (Or.inl rfl)) rfl rfl rfl rfl
    (inverts_of_check _ _ _ (by decide!))

theorem expire_day_replaced (e : Nat) (he : e < 2 ^ 24) :
    ((((e >>> 16) &&& 0xff) <<< 16) ||| (((e >>> 8) &&& 0xff) <<< 8) ||| 0x31)
      = e / 256 * 256 + 0x31 := by
  have h1 : (e >>> 16) &&& 0xff = e / 65536 % 256 := by
    rw [Nat.shiftRight_eq_div_pow]
    exact Nat.and_pow_two_sub_one_eq_mod _ 8
  have h2 : (e >>> 8) &&& 0xff = e / 256 % 256 := by
    rw [Nat.shiftRight_eq_div_pow]
    exact Nat.and_pow_two_sub_one_eq_mod _ 8
  rw [h1, h2, Nat.shiftLeft_eq, Nat.shiftLeft_eq]
  have hB : e / 256 % 256 * 2 ^ 8 < 2 ^ 16 := by omega
  have h3 : e / 65536 % 256 * 2 ^ 16 ||| e / 256 % 256 * 2 ^ 8
      = 2 ^ 8 * (e / 65536 % 256 * 2 ^ 8 + e / 256 % 256) := by
    rw [Nat.mul_comm (e / 65536 % 256) (2 ^ 16), ← Nat.mul_add_lt_is_or hB]
    omega
  rw [h3, ← Nat.mul_add_lt_is_or (by decide)]
  omega

theorem key_envelope_shape (hdr mod digest : List Nat) (pl : Nat) (hpl : hdr.length ≤ pl) :
    ∃ rest, [0x6a] ++ envelope_part (hdr ++ mod) pl ++ digest ++ [0xbc] = 0x6a :: (hdr ++ rest) ∧
      ((rest.take (pl - hdr.length)) ++ (hdr ++ mod).drop pl).take mod.length = mod := by
  have htake : (hdr ++ mod).take pl = hdr ++ mod.take (pl - hdr.length) := by
    rw [List.take_append_eq_append_take, List.take_of_length_le hpl]
  have hdrop : (hdr ++ mod).drop pl = mod.drop (pl - hdr.length) := by
    rw [List.drop_append_eq_append_drop, List.drop_of_length_le hpl, List.nil_append]
  refine ⟨mod.take (pl - hdr.length)
    ++ List.replicate (pl - (hdr ++ mod).length) 0xbb ++ digest ++ [0xbc], ?_, ?_⟩
  · unfold envelope_part
    rw [htake]
    simp
  · rw [hdrop]
    have hl : (mod.take (pl - hdr.length)
        ++ List.replicate (pl - (hdr ++ mod).length) 0xbb).length = pl - hdr.length := by
      rw [List.length_append, List.length_take, List.length_replicate, List.length_append]
      omega
    have ht : (mod.take (pl - hdr.length)
        ++ List.replicate (pl - (hdr ++ mod).length) 0xbb ++ digest ++ [0xbc]).take
        (pl - hdr.length)
        = mod.take (pl - hdr.length) ++ List.replicate (pl - (hdr ++ mod).length) 0xbb := by
      rw [List.append_assoc _ digest]
      exact List.take_left' hl
    rw [ht]
    by_cases hc : mod.length ≤ pl - hdr.length
    · rw [List.take_of_length_le hc, List.drop_of_length_le hc, List.append_nil]
      exact List.take_left' rfl
    · have h0 : pl - (hdr ++ mod).length = 0 := by
        rw [List.length_append]
        omega
      rw [h0, List.replicate_zero, List.append_nil, List.take_append_drop]
      exact List.take_of_length_le (Nat.le_refl _)

theorem rdn_zero (buf : List Nat) (n : Nat) (h : n ≤ buf.length) :
    rdn buf 0 n = .ok (buf.take n) := by
  rw [rdn_of_le _ _ _ (by omega)]
  rfl

/-- `emv_pki_sign_key` signs `sign_key_msg` with the exponent and the additional data as
extra buffers and appends the exponent record. -/
theorem sign_key_eq (be : crypto_backend) (sha1 : Nat) (cp : crypto_pk) (ipk : emv_pk)
    (msgtype pan_len cert_tag exp_tag rem_tag : Nat) (add_data : Option (List Nat))
    (hpan : pan_len ≤ ipk.pan.length) (hser : 3 ≤ ipk.serial.length)
    (hmod : ipk.mlen ≤ ipk.modulus.length) (hexp : ipk.elen ≤ ipk.exp.length) :
    emv_pki_sign_key be sha1 cp ipk msgtype pan_len cert_tag exp_tag rem_tag add_data =
      emv_pki_sign_message be sha1 cp cert_tag rem_tag (sign_key_msg ipk msgtype pan_len)
        [some (ipk.exp.take ipk.elen), add_data, none] >>= fun db =>
        Res.ok (tlvdb_add db (tlvdb_fixed exp_tag (ipk.exp.take ipk.elen))) := by
  unfold emv_pki_sign_key
  rw [rdn_zero _ _ hpan, Res.ok_bind, rdn_zero _ _ hser, Res.ok_bind, rdn_zero _ _ hmod,
    Res.ok_bind, rdn_zero _ _ hexp, Res.ok_bind]
  rfl

theorem pan_compare_loop_ok_of (pan pan2 : tlv) (n i : Nat)
    (hin : ∀ j, i ≤ j → j < i + n → j < 2 * pan.len ∧ j < 2 * pan2.len)
    (hsame : ∀ j, i ≤ j → j < i + n → emv_cn_get pan j = emv_cn_get pan2 j) :
    pan_compare_loop pan pan2 n i = .ok () := by
  rcases pan_compare_loop_ok_or_null pan pan2 n i hin with h | h
  · exact h
  · exfalso
    induction n generalizing i with
    | zero => cases h
    | succ n ih =>
      obtain ⟨a, ha⟩ := emv_cn_get_ok pan i (hin i (by omega) (by omega)).1
      have hb : emv_cn_get pan2 i = .ok a := by rw [← hsame i (by omega) (by omega), ha]
      simp only [pan_compare_loop, ha, hb, Res.ok_bind, reject_if, ne_eq, not_true_eq_false,
        if_false] at h
      exact ih (i + 1) (fun j h1 h2 => hin j (by omega) (by omega))
        (fun j h1 h2 => hsame j (by omega) (by omega)) h

theorem issuer_db_get (cert exp remv : List Nat) (pan : tlv) (hasrem : Prop) [Decidable hasrem]
    (hpantag : pan.tag = 0x5a) :
    tlvdb_get (tlvdb_add (tlvdb_add (tlvdb_fixed 0x90 cert ++
        (if hasrem then tlvdb_fixed 0x92 remv else [])) (tlvdb_fixed 0x9f32 exp)) [pan]) 0x5a
      = some pan ∧
    tlvdb_get (tlvdb_add (tlvdb_add (tlvdb_fixed 0x90 cert ++
        (if hasrem then tlvdb_fixed 0x92 remv else [])) (tlvdb_fixed 0x9f32 exp)) [pan]) 0x90
      = some { tag := 0x90, value := cert } ∧
    tlvdb_get (tlvdb_add (tlvdb_add (tlvdb_fixed 0x90 cert ++
        (if hasrem then tlvdb_fixed 0x92 remv else [])) (tlvdb_fixed 0x9f32 exp)) [pan]) 0x9f32
      = some { tag := 0x9f32, value := exp } ∧
    tlvdb_get (tlvdb_add (tlvdb_add (tlvdb_fixed 0x90 cert ++
        (if hasrem then tlvdb_fixed 0x92 remv else [])) (tlvdb_fixed 0x9f32 exp)) [pan]) 0x92
      = (if hasrem then some { tag := 0x92, value := remv } else none) := by
  by_cases h : hasrem <;> simp [tlvdb_get, tlvdb_add, tlvdb_fixed, List.find?, hpantag, h]

theorem list_length_four (l : List Nat) (h : l.length = 4) : ∃ a b c d, l = [a, b, c, d] := by
  match l, h with
  | [a, b, c, d], _ => exact ⟨a, b, c, d, rfl⟩

theorem list_length_three (l : List Nat) (h : l.length = 3) : ∃ a b c, l = [a, b, c] := by
  match l, h with
  | [a, b, c], _ => exact ⟨a, b, c, rfl⟩

/-- C3, amended: for a CA key pair on which the RSA public operation inverts the private
one on the envelope that is signed (an envelope of at least `16 + hlen` bytes) and an issuer
key with `hash_algo` SHA-1, a modulus shorter than 256 bytes and an exponent of at most 3
bytes, `emv_pki_sign_issuer_cert` followed by `emv_pki_recover_issuer_cert` on the
emitted records plus a PAN record that the issuer PAN prefix agrees with returns a key
equal to the issuer key in modulus, `mlen`, exponent, `elen`, serial, PAN prefix,
`hash_algo`, `pk_algo`, and in `expire` with the day byte replaced by `0x31`.
The hypothesis on the key pair holds for every textbook RSA key pair on messages and
digests of bytes (`rsa_inverts_signed_envelope`). -/
theorem issuer_cert_roundtrip (be : crypto_backend) (sha1 : Nat) (cp : crypto_pk)
    (ca : emv_pk) (kcp : crypto_pk) (ch : crypto_hash) (issuer : emv_pk) (pan : tlv)
    (hch : crypto_hash_open be sha1 = some ch)
    (hdigest : ∀ w, ∃ h, ch.read w = some h ∧ h.length = ch.get_size)
    (hroom : 16 + ch.get_size ≤ envelope_len cp)
    (hmlen : ca.mlen = envelope_len cp)
    (hk : crypto_pk_open be ca.pk_algo (ca.modulus.take ca.mlen) (ca.exp.take ca.elen)
      = some kcp)
    (hinv : ∀ x, signed_envelope ch cp (sign_key_msg issuer 2 4)
        (issuer.exp.take issuer.elen) = some x →
      ∃ c, crypto_pk_decrypt cp x = some c ∧ c.length = x.length ∧
        crypto_pk_encrypt kcp c = some x)
    (hhash : issuer.hash_algo = sha1)
    (hpanl : issuer.pan.length = 10) (hserl : issuer.serial.length = 3)
    (hmodl : issuer.mlen ≤ issuer.modulus.length) (hm256 : issuer.mlen < 256)
    (hexpl : issuer.exp.length = 3) (hel : issuer.elen ≤ 3)
    (hpantag : pan.tag = 0x5a)
    (hnib : 4 ≤ bcd_length (issuer.pan.take 4) ∧
      bcd_length (issuer.pan.take 4) ≤ bcd_length pan.value ∧
      ∀ i, i < bcd_length (issuer.pan.take 4) →
        nibble_at pan.value i = nibble_at (issuer.pan.take 4) i) :
    ∃ db pk, emv_pki_sign_issuer_cert be sha1 cp issuer = .ok db ∧
      emv_pki_recover_issuer_cert be (some ca) (tlvdb_add db [pan]) = .ok pk ∧
      pk.modulus = issuer.modulus.take issuer.mlen ∧ pk.mlen = issuer.mlen ∧
      pk.exp.take pk.elen = issuer.exp.take issuer.elen ∧ pk.elen = issuer.elen ∧
      pk.serial = issuer.serial ∧ pk.pan = issuer.pan.take 4 ++ List.replicate 6 0xff ∧
      pk.hash_algo = issuer.hash_algo ∧ pk.pk_algo = issuer.pk_algo ∧
      pk.expire = ((((issuer.expire >>> 16) &&& 0xff) <<< 16) |||
        (((issuer.expire >>> 8) &&& 0xff) <<< 8) ||| 0x31) ∧
      (issuer.expire < 2 ^ 24 → pk.expire = issuer.expire / 256 * 256 + 0x31) := by
  have hagree := (pan_prefix_rule_iff pan { tag := 0x5a, value := issuer.pan.take 4 }).mpr hnib
  clear hnib
  -- the message and its header
  obtain ⟨p0, p1, p2, p3, hp4⟩ := list_length_four (issuer.pan.take 4)
    (by rw [List.length_take]; omega)
  obtain ⟨s0, s1, s2, hs3⟩ := list_length_three (issuer.serial.take 3)
    (by rw [List.length_take]; omega)
  have hserial : issuer.serial.take 3 = issuer.serial := List.take_of_length_le (by omega)
  have hmodlen : (issuer.modulus.take issuer.mlen).length = issuer.mlen := by
    rw [List.length_take]; omega
  have hexplen : (issuer.exp.take issuer.elen).length = issuer.elen := by
    rw [List.length_take]; omega
  have hmsg : sign_key_msg issuer 2 4 =
      [2, p0, p1, p2, p3, (issuer.expire >>> 8) &&& 0xff, (issuer.expire >>> 16) &&& 0xff,
        s0, s1, s2, sha1, issuer.pk_algo, issuer.mlen, issuer.elen]
        ++ issuer.modulus.take issuer.mlen := by
    unfold sign_key_msg
    rw [hp4, hs3, hhash, Nat.mod_eq_of_lt hm256, Nat.mod_eq_of_lt (by omega : issuer.elen < 256)]
    rfl
  generalize hhdr : [2, p0, p1, p2, p3, (issuer.expire >>> 8) &&& 0xff,
    (issuer.expire >>> 16) &&& 0xff, s0, s1, s2, sha1, issuer.pk_algo, issuer.mlen,
    issuer.elen] = hdr at hmsg
  have hhdrl : hdr.length = 14 := by rw [← hhdr]; rfl
  have hmsgl : (sign_key_msg issuer 2 4).length = 14 + issuer.mlen := by
    rw [hmsg, List.length_append, hhdrl, hmodlen]
  generalize hpldef : envelope_len cp - 2 - ch.get_size = pl at *
  have hpl14 : 14 ≤ pl := by omega
  -- signing
  obtain ⟨h, hread, hhl⟩ := hdigest (ch.written
    ++ (envelope_part (sign_key_msg issuer 2 4) pl ++ List.drop pl (sign_key_msg issuer 2 4)
      ++ bufs_bytes [some (issuer.exp.take issuer.elen), none, none]))
  have hsm := sign_message_eq be sha1 cp 0x90 0x92 (sign_key_msg issuer 2 4)
    [some (issuer.exp.take issuer.elen), none, none] ch h hch (by omega)
    (by rw [hpldef]; exact hread) (by omega)
  rw [hpldef] at hsm
  have htake : List.take ch.get_size h = h := List.take_of_length_le (by omega)
  have hpartl := envelope_part_length (sign_key_msg issuer 2 4) pl
  have hxl : ([0x6a] ++ envelope_part (sign_key_msg issuer 2 4) pl
      ++ List.take ch.get_size h ++ [0xbc]).length = envelope_len cp := by
    simp only [List.length_append, List.length_singleton, hpartl, htake, hhl]
    omega
  have henv : signed_envelope ch cp (sign_key_msg issuer 2 4) (issuer.exp.take issuer.elen)
      = some ([0x6a] ++ envelope_part (sign_key_msg issuer 2 4) pl
        ++ List.take ch.get_size h ++ [0xbc]) := by
    unfold signed_envelope
    rw [hpldef, show crypto_hash_read (crypto_hash_write ch
      (envelope_part (sign_key_msg issuer 2 4) pl ++ List.drop pl (sign_key_msg issuer 2 4)
        ++ List.take issuer.elen issuer.exp)) = some h from by
          have e : bufs_bytes [some (issuer.exp.take issuer.elen), none, none]
              = List.take issuer.elen issuer.exp := by
            simp only [bufs_bytes, List.append_nil]
          rw [e] at hread
          exact hread]
    rfl
  obtain ⟨cert, hdecr, hcl, hencr⟩ := hinv _ henv
  rw [hdecr] at hsm
  have hsk := sign_key_eq be sha1 cp issuer 2 4 0x90 0x9f32 0x92 none (by omega) (by omega)
    hmodl (by omega)
  rw [hsm] at hsk
  generalize hexpdef : issuer.exp.take issuer.elen = expv at *
  generalize hremdef : (if pl < (sign_key_msg issuer 2 4).length then
      some ({ tag := 0x92, value := List.drop pl (sign_key_msg issuer 2 4) } : tlv)
    else none) = remopt
  have hremv : (remopt.getD empty_tlv).value = List.drop pl (sign_key_msg issuer 2 4) := by
    rw [← hremdef]
    by_cases hc : pl < (sign_key_msg issuer 2 4).length
    · rw [if_pos hc]; rfl
    · rw [if_neg hc]
      exact (List.drop_of_length_le (by omega)).symm
  obtain ⟨g5a, g90, g9f32, g92⟩ := issuer_db_get cert expv
    (List.drop pl (sign_key_msg issuer 2 4)) pan (pl < (sign_key_msg issuer 2 4).length) hpantag
  rw [hremdef] at g92
  -- decoding the message
  have hpart0 : ∀ i, i < 14 → (envelope_part (sign_key_msg issuer 2 4) pl)[i]? = hdr[i]? := by
    intro i hi
    unfold envelope_part
    rw [List.getElem?_append_left (by rw [List.length_take]; omega), List.getElem?_take_of_lt
      (by omega), hmsg, List.getElem?_append_left (by omega)]
  have hread2 : crypto_hash_read (crypto_hash_write ch
      (envelope_part (sign_key_msg issuer 2 4) pl ++ tlvs_bytes
        [some (remopt.getD empty_tlv), some { tag := 0x9f32, value := expv }, none, none]))
      = some h := by
    have e : tlvs_bytes [some (remopt.getD empty_tlv), some { tag := 0x9f32, value := expv },
        none, none] = List.drop pl (sign_key_msg issuer 2 4)
          ++ bufs_bytes [some expv, none, none] := by
      simp only [tlvs_bytes, bufs_bytes, hremv]
    rw [e, ← List.append_assoc]
    exact hread
  have hdec := decode_message_of_envelope be ca 2 { tag := 0x90, value := cert }
    [some (remopt.getD empty_tlv), some { tag := 0x9f32, value := expv }, none, none]
    kcp ch sha1 (envelope_part (sign_key_msg issuer 2 4) pl) (List.take ch.get_size h) h
    (by
      show cert.length = ca.mlen
      rw [hcl, hxl, hmlen])
    hk hencr
    (by rw [hpart0 0 (by omega), ← hhdr]; rfl)
    (by decide)
    (by
      show (envelope_part (sign_key_msg issuer 2 4) pl)[10]? = some sha1
      rw [hpart0 10 (by omega), ← hhdr]; rfl)
    hch (by rw [htake, hhl]) hread2 rfl
  rw [hpartl] at hdec
  -- the plaintext in explicit form
  obtain ⟨rest, hplain, hmodeq⟩ := key_envelope_shape hdr (issuer.modulus.take issuer.mlen)
    (List.take ch.get_size h) pl (by omega)
  rw [← hmsg, hhdrl, hmodlen] at hmodeq
  rw [← hmsg] at hplain
  generalize hplaindef : [0x6a] ++ envelope_part (sign_key_msg issuer 2 4) pl
    ++ List.take ch.get_size h ++ [0xbc] = plain at *
  rw [← hhdr] at hplain
  have hpan2 : (plain.drop 2).take 4 = issuer.pan.take 4 := by
    rw [hplain, hp4]; rfl
  have hM : plain[9 + 4]? = some issuer.mlen := by rw [hplain]; rfl
  have he : plain[10 + 4]? = some ({ tag := 0x9f32, value := expv } : tlv).len := by
    have h14 : plain[10 + 4]? = some issuer.elen := by rw [hplain]; simp
    rw [h14]
    show some issuer.elen = some expv.length
    rw [hexplen]
  have hrl : (remopt.getD empty_tlv).len = 14 + issuer.mlen - pl := by
    unfold tlv.len
    rw [hremv, List.length_drop, hmsgl]
  have hlc : ¬ (((2 : Nat) = 2 ∧
        (emv_cn_length { tag := 0x5a, value := (plain.drop 2).take 4 } < 4 ∨
          emv_cn_length { tag := 0x5a, value := (plain.drop 2).take 4 } > emv_cn_length pan)) ∨
      ((2 : Nat) = 4 ∧
        emv_cn_length { tag := 0x5a, value := (plain.drop 2).take 4 } ≠ emv_cn_length pan)) := by
    rw [hpan2]
    omega
  have hloop : pan_compare_loop pan { tag := 0x5a, value := (plain.drop 2).take 4 }
      (emv_cn_length { tag := 0x5a, value := (plain.drop 2).take 4 }) 0 = .ok () := by
    apply pan_compare_loop_ok_of
    · exact pan_indices_in_range 2 4 pan _ (Or.inl ⟨rfl, rfl⟩) hlc
    · intro j _ hj
      rw [hpan2] at hj ⊢
      exact hagree.2.2 j (by omega)
  obtain ⟨pk, hpk⟩ := decode_key_ok_of be (some ca) ca 2 4 pan { tag := 0x90, value := cert }
    { tag := 0x9f32, value := expv } remopt none plain (1 + pl) issuer.mlen rfl
    (Or.inl ⟨rfl, rfl⟩) hdec (by omega) hlc hloop hM (by rw [hrl]; omega) he
    (by show expv.length ≤ 3; rw [hexplen]; exact hel)
    (by
      intro hne
      rw [hremv] at hne
      have hlt : pl < (sign_key_msg issuer 2 4).length := by
        by_contra hcon
        exact hne (List.drop_of_length_le (by omega))
      rw [hrl]
      omega)
  obtain ⟨cert', exp', pan', signer, data, len, P, M, ha, pa, yy, mm, hc1, hc2, hc3, hc4, hP,
    hdec', _, _, _, _, hM', _, _, _, hha, hpa, hyy, hmm, _, hpkeq⟩ :=
    decode_key_ok_inv be (some ca) 2 _ _ _ remopt none pk hpk
  cases hc1
  cases hc2
  cases hc3
  cases hc4
  have hP4 : P = 4 := by
    rcases hP with ⟨_, d⟩ | ⟨c, _⟩
    · exact d
    · omega
  subst hP4
  rw [hdec] at hdec'
  obtain ⟨hd1, hd2⟩ := Prod.mk.inj (Res.ok.inj hdec')
  subst hd1
  subst hd2
  rw [hM] at hM'
  cases hM'
  have hha' : ha = sha1 := by
    rw [hplain] at hha
    exact (Option.some.inj hha).symm
  have hpa' : pa = issuer.pk_algo := by
    rw [hplain] at hpa
    exact (Option.some.inj hpa).symm
  have hyy' : yy = (issuer.expire >>> 16) &&& 0xff := by
    rw [hplain] at hyy
    exact (Option.some.inj hyy).symm
  have hmm' : mm = (issuer.expire >>> 8) &&& 0xff := by
    rw [hplain] at hmm
    exact (Option.some.inj hmm).symm
  have hser' : (plain.drop (4 + 4)).take 3 = issuer.serial := by
    rw [← hserial, hs3, hplain]; rfl
  have hdrop15 : plain.drop (11 + 4) = rest := by
    rw [hplain]; rfl
  have hexpire : pk.expire = ((((issuer.expire >>> 16) &&& 0xff) <<< 16) |||
      (((issuer.expire >>> 8) &&& 0xff) <<< 8) ||| 0x31) := by
    rw [hpkeq, hyy', hmm']
  refine ⟨tlvdb_add (tlvdb_fixed 0x90 cert ++
      (if pl < (sign_key_msg issuer 2 4).length then
        tlvdb_fixed 0x92 (List.drop pl (sign_key_msg issuer 2 4)) else []))
      (tlvdb_fixed 0x9f32 expv), pk, ?_, ?_, ?_, ?_, ?_, ?_, ?_, ?_, ?_, ?_, hexpire, ?_⟩
  · unfold emv_pki_sign_issuer_cert
    rw [hsk]
    rfl
  · unfold emv_pki_recover_issuer_cert
    rw [g5a, g90, g9f32, g92]
    exact hpk
  · rw [hpkeq]
    show ((plain.drop (11 + 4)).take (1 + pl - 11 - 4) ++ (remopt.getD empty_tlv).value).take
      issuer.mlen = _
    rw [hdrop15, hremv]
    have e : 1 + pl - 11 - 4 = pl - 14 := by omega
    rw [e]
    exact hmodeq
  · rw [hpkeq]
  · rw [hpkeq]
    show (expv ++ List.replicate (3 - expv.length) 0).take expv.length = expv
    exact List.take_left' rfl
  · rw [hpkeq]
    exact hexplen
  · rw [hpkeq]
    exact hser'
  · rw [hpkeq]
    show (plain.drop 2).take 4 ++ List.replicate (10 - 4) 0xff = _
    rw [hpan2]
  · rw [hpkeq, hhash]
    exact hha'
  · rw [hpkeq]
    exact hpa'
  · intro hlt
    rw [hexpire]
    exact expire_day_replaced issuer.expire hlt

/-- C3 as stated fails for an issuer key whose `hash_algo` is not SHA-1: signing
succeeds (three records are emitted) and hashes with SHA-1 regardless, recovery opens the
hash named in the certificate and returns NULL (the test backend opens algorithm 1
only). -/
theorem issuer_cert_other_hash_rejected :
    (emv_pki_sign_issuer_cert test_backend 1 (test_pk 128) { test_issuer with hash_algo := 2 }
      >>= fun db => Res.ok (db.map tlv.tag)) = .ok [0x90, 0x92, 0x9f32] ∧
    (emv_pki_sign_issuer_cert test_backend 1 (test_pk 128) { test_issuer with hash_algo := 2 }
      >>= fun db => emv_pki_recover_issuer_cert test_backend (some (test_signer 128))
        (tlvdb_add db [test_pan])) = .null := by
  refine ⟨by decide!, by decide!⟩

/-- C3, amended, at scenario S2: PAN prefix `41 11 11 11`, PAN
`41 11 11 11 11 11 11 11 FF FF`, the 1024-bit CA key of the RSA backend and a 128-byte issuer
modulus. -/
theorem issuer_cert_roundtrip_witness :
    ∃ db pk, emv_pki_sign_issuer_cert rsa_backend 1 rsa_signer_cp test_issuer = .ok db ∧
      emv_pki_recover_issuer_cert rsa_backend (some rsa_signer) (tlvdb_add db [test_pan])
        = .ok pk ∧
      pk.modulus = test_issuer.modulus.take test_issuer.mlen ∧ pk.mlen = test_issuer.mlen ∧
      pk.exp.take pk.elen = test_issuer.exp.take test_issuer.elen ∧
      pk.elen = test_issuer.elen ∧
      pk.serial = test_issuer.serial ∧
      pk.pan = test_issuer.pan.take 4 ++ List.replicate 6 0xff ∧
      pk.hash_algo = test_issuer.hash_algo ∧ pk.pk_algo = test_issuer.pk_algo ∧
      pk.expire = ((((test_issuer.expire >>> 16) &&& 0xff) <<< 16) |||
        (((test_issuer.expire >>> 8) &&& 0xff) <<< 8) ||| 0x31) ∧
      (test_issuer.expire < 2 ^ 24 → pk.expire = test_issuer.expire / 256 * 256 + 0x31) :=
  issuer_cert_roundtrip rsa_backend 1 rsa_signer_cp rsa_signer rsa_signer_pub
    { test_hash with algo := 1 } test_issuer test_pan
    rfl (fun w => ⟨test_digest w, rfl, test_digest_length w⟩) (by decide) (by decide) rfl
    (inverts_of_check _ _ _ (by decide!))
    rfl rfl rfl (by decide!) (by decide) rfl (by decide) rfl
    (by decide!)

theorem nibble_at_cons (c : Nat) (rest : List Nat) (p : Nat) :
    nibble_at (c :: rest) (p + 2) = nibble_at rest p := by
  unfold nibble_at
  have h1 : (p + 2) / 2 = p / 2 + 1 := by omega
  have h2 : (p + 2) % 2 = p % 2 := by omega
  rw [h1, h2, List.getElem?_cons_succ]

theorem emv_cn_length_loop_first_f (l : List Nat) (i : Nat) :
    2 * i ≤ emv_cn_length_loop l i ∧ emv_cn_length_loop l i ≤ 2 * (i + l.length) ∧
    (∀ p, p < emv_cn_length_loop l i - 2 * i → ∃ n, nibble_at l p = some n ∧ n ≠ 0xf) ∧
    (emv_cn_length_loop l i < 2 * (i + l.length) →
      nibble_at l (emv_cn_length_loop l i - 2 * i) = some 0xf) := by
  induction l generalizing i with
  | nil =>
    refine ⟨by simp [emv_cn_length_loop], by simp [emv_cn_length_loop], ?_, ?_⟩
    · intro p hp
      simp [emv_cn_length_loop] at hp
    · intro h
      simp [emv_cn_length_loop] at h
  | cons c rest ih =>
    unfold emv_cn_length_loop
    by_cases h1 : c >>> 4 = 0xf
    · rw [if_pos h1]
      refine ⟨le_refl _, by simp, ?_, ?_⟩
      · intro p hp
        omega
      · intro _
        simp [nibble_at, h1]
    · rw [if_neg h1]
      by_cases h2 : c &&& 0xf = 0xf
      · rw [if_pos h2]
        refine ⟨by omega, by simp only [List.length_cons]; omega, ?_, ?_⟩
        · intro p hp
          have hp0 : p = 0 := by omega
          subst hp0
          exact ⟨c >>> 4, by simp [nibble_at], h1⟩
        · intro _
          have e : 2 * i + 1 - 2 * i = 1 := by omega
          rw [e]
          simp [nibble_at, h2]
      · rw [if_neg h2]
        obtain ⟨a1, a2, a3, a4⟩ := ih (i + 1)
        refine ⟨by omega, by simp only [List.length_cons]; omega, ?_, ?_⟩
        · intro p hp
          match p, hp with
          | 0, _ => exact ⟨c >>> 4, by simp [nibble_at], h1⟩
          | 1, _ => exact ⟨c &&& 0xf, by simp [nibble_at], h2⟩
          | q + 2, hq =>
            rw [nibble_at_cons]
            exact a3 q (by omega)
        · intro h
          have e : emv_cn_length_loop rest (i + 1) - 2 * i
              = (emv_cn_length_loop rest (i + 1) - 2 * (i + 1)) + 2 := by omega
          rw [e, nibble_at_cons]
          apply a4
          simp only [List.length_cons] at h
          omega

/-- C20: `emv_cn_length` returns the position of the first nibble equal to `0xF`, counting
the high nibble of byte `i` as position `2i` and its low nibble as position `2i + 1`, and
`2 * len` when no nibble is `0xF`: the result is at most `2 * len`, every nibble below it
differs from `0xF`, and when it is below `2 * len` the nibble at it is `0xF`. -/
theorem emv_cn_length_first_f (t : tlv) :
    emv_cn_length t ≤ 2 * t.len ∧
    (∀ p, p < emv_cn_length t → ∃ n, nibble_at t.value p = some n ∧ n ≠ 0xf) ∧
    (emv_cn_length t < 2 * t.len → nibble_at t.value (emv_cn_length t) = some 0xf) := by
  obtain ⟨_, a2, a3, a4⟩ := emv_cn_length_loop_first_f t.value 0
  unfold emv_cn_length tlv.len
  simp only [Nat.mul_zero, Nat.sub_zero, Nat.zero_add] at a2 a3 a4
  exact ⟨a2, a3, a4⟩

/-- Inversion of a successful `emv_pki_recover_idn`. -/
theorem recover_idn_ok_inv (be : crypto_backend) (enc_pk : Option emv_pk) (db : tlvdb)
    (dyn_data : List Nat) (out : tlvdb)
    (h : emv_pki_recover_idn be enc_pk db dyn_data = .ok out) :
    ∃ data len ldd n,
      emv_pki_decode_message be enc_pk 5 (tlvdb_get db 0x9f4b)
        [some { tag := 0, value := dyn_data }, none] = .ok (data, len) ∧
      len < data.length ∧
      data[3]? = some ldd ∧ data[4]? = some n ∧ 2 ≤ ldd ∧ ldd + 3 ≤ len ∧ n + 1 ≤ ldd ∧
      5 + n ≤ data.length ∧
      out = [{ tag := 0x9f4c, value := (data.drop 5).take n }] := by
  simp only [emv_pki_recover_idn, Res.bind_eq_ok, reject_if_eq_ok, rd_eq_ok, rdn_eq_ok] at h
  obtain ⟨⟨data, len⟩, hdec, _, hlen, ldd, hldd, _, hb, n, hn, _, hnb, idn, ⟨hfit, hidn⟩, hres⟩ := h
  obtain ⟨_, _, _, _, ch, _, _, _, _, _, _, _, _, hsz, hdl, _, _, _, _, _, _, _, hlen'⟩ :=
    decode_message_ok_inv be enc_pk 5 _ _ data len hdec
  simp only [] at hlen hldd hb hn hnb hfit hidn hres
  have hlt : len < 2 ^ 64 := by omega
  have e1 : size_sub len 3 = len - 3 := size_sub_of_le _ _ hlt (by omega)
  rw [e1] at hb
  have e2 : size_sub ldd 1 = ldd - 1 := size_sub_of_le _ _ (by omega) (by omega)
  rw [e2] at hnb
  refine ⟨data, len, ldd, n, hdec, by omega, hldd, hn, by omega, by omega, by omega, hfit, ?_⟩
  have hres' := Res.ok.inj hres
  rw [← hres', hidn]
  rfl

/-- `emv_pki_recover_idn` returns NULL when the inner length is below 2 or the IDN length
exceeds the inner length minus one. -/
theorem recover_idn_null_of (be : crypto_backend) (enc_pk : Option emv_pk) (db : tlvdb)
    (dyn_data : List Nat) (data : List Nat) (len ldd n : Nat)
    (hdec : emv_pki_decode_message be enc_pk 5 (tlvdb_get db 0x9f4b)
      [some { tag := 0, value := dyn_data }, none] = .ok (data, len))
    (hldd : data[3]? = some ldd) (hn : data[4]? = some n)
    (hbad : ldd < 2 ∨ ldd < n + 1) :
    emv_pki_recover_idn be enc_pk db dyn_data = .null := by
  obtain ⟨_, _, _, _, ch, _, _, _, _, _, _, _, _, hsz, hdl, _, _, _, _, _, _, _, hlen'⟩ :=
    decode_message_ok_inv be enc_pk 5 _ _ data len hdec
  have hlt : len < 2 ^ 64 := by omega
  unfold emv_pki_recover_idn
  simp only []
  rw [hdec, Res.ok_bind]
  simp only []
  by_cases h3 : len < 3
  · rw [reject_if_pos _ h3]
    rfl
  · rw [reject_if_neg _ h3, Res.ok_bind, (rd_eq_ok _ _ _).mpr hldd, Res.ok_bind]
    have e1 : size_sub len 3 = len - 3 := size_sub_of_le _ _ hlt (by omega)
    rw [e1]
    by_cases hb : ldd < 2 ∨ ldd > len - 3
    · rw [reject_if_pos _ hb]
      rfl
    · rw [reject_if_neg _ hb, Res.ok_bind, (rd_eq_ok _ _ _).mpr hn, Res.ok_bind]
      have e2 : size_sub ldd 1 = ldd - 1 := size_sub_of_le _ _ (by omega) (by omega)
      rw [e2, reject_if_pos _ (by omega)]
      rfl

/-- C18: `emv_pki_recover_idn` returns a TLV only if the decode for message type 5
succeeded, `plain[3] >= 2` and `plain[4] <= plain[3] - 1`, and then the TLV has tag
`0x9F4C`, length `plain[4]` and value `plain[5 .. 5 + plain[4])`; whenever the decode
succeeds and one of the two bounds is violated it returns NULL. -/
theorem recover_idn_bounds (be : crypto_backend) (enc_pk : Option emv_pk) (db : tlvdb)
    (dyn_data : List Nat) :
    (∀ out, emv_pki_recover_idn be enc_pk db dyn_data = .ok out →
      ∃ data len ldd n,
        emv_pki_decode_message be enc_pk 5 (tlvdb_get db 0x9f4b)
          [some { tag := 0, value := dyn_data }, none] = .ok (data, len) ∧
        data[3]? = some ldd ∧ data[4]? = some n ∧ 2 ≤ ldd ∧ n ≤ ldd - 1 ∧
        out = [{ tag := 0x9f4c, value := (data.drop 5).take n }] ∧
        ((data.drop 5).take n).length = n) ∧
    (∀ data len ldd n,
      emv_pki_decode_message be enc_pk 5 (tlvdb_get db 0x9f4b)
        [some { tag := 0, value := dyn_data }, none] = .ok (data, len) →
      data[3]? = some ldd → data[4]? = some n → (ldd < 2 ∨ n > ldd - 1) →
      emv_pki_recover_idn be enc_pk db dyn_data = .null) := by
  constructor
  · intro out h
    obtain ⟨data, len, ldd, n, hdec, _, hldd, hn, h2, _, hnl, hfit, hout⟩ :=
      recover_idn_ok_inv be enc_pk db dyn_data out h
    refine ⟨data, len, ldd, n, hdec, hldd, hn, h2, by omega, hout, ?_⟩
    rw [List.length_take, List.length_drop]
    omega
  · intro data len ldd n hdec hldd hn hbad
    exact recover_idn_null_of be enc_pk db dyn_data data len ldd n hdec hldd hn (by omega)

theorem tlvdb_get_single (tag : Nat) (v : List Nat) :
    tlvdb_get [{ tag := tag, value := v }] tag = some { tag := tag, value := v } := by
  simp [tlvdb_get, List.find?]

theorem rdn_append_left (a b : List Nat) (off n : Nat) (h : off + n ≤ a.length) :
    rdn (a ++ b) off n = .ok ((a.drop off).take n) := by
  rw [rdn_of_le _ _ _ (by rw [List.length_append]; omega)]
  congr 1
  rw [List.drop_append_of_le_length (by omega), List.take_append_of_le_length]
  rw [List.length_drop]
  omega

theorem list_length_two (l : List Nat) (h : l.length = 2) : ∃ a b, l = [a, b] := by
  match l, h with
  | [a, b], _ => exact ⟨a, b, rfl⟩

/-- C17: for a key pair on which the RSA public operation inverts the private one on the
envelope that is signed, whose envelope has room for the four message bytes, the header, the
trailer and the digest (26 bytes for the 20-byte SHA-1 digest), every 2-byte DAC and every
SDA byte stream, `emv_pki_sign_dac` emits one TLV `0x93` as long as the envelope, and
`emv_pki_recover_dac` on it with the same SDA stream returns the TLV `0x9F45` whose value is
the DAC.
The hypothesis on the key pair holds for every textbook RSA key pair on messages and
digests of bytes (`rsa_inverts_signed_envelope`). -/
theorem dac_roundtrip (be : crypto_backend) (sha1 : Nat) (cp : crypto_pk)
    (signer : emv_pk) (kcp : crypto_pk) (ch : crypto_hash) (dac sda : List Nat)
    (hsha : sha1 < 256)
    (hch : crypto_hash_open be sha1 = some ch)
    (hdigest : ∀ w, ∃ h, ch.read w = some h ∧ h.length = ch.get_size)
    (hfit : 6 + ch.get_size ≤ envelope_len cp)
    (hdac : dac.length = 2)
    (hmlen : signer.mlen = envelope_len cp)
    (hk : crypto_pk_open be signer.pk_algo (signer.modulus.take signer.mlen)
      (signer.exp.take signer.elen) = some kcp)
    (hinv : ∀ x, signed_envelope ch cp ([3, sha1] ++ dac) sda = some x →
      ∃ c, crypto_pk_decrypt cp x = some c ∧ c.length = x.length ∧
        crypto_pk_encrypt kcp c = some x) :
    ∃ cert,
      emv_pki_sign_dac be sha1 cp dac (some sda) = .ok [{ tag := 0x93, value := cert }] ∧
      cert.length = envelope_len cp ∧
      emv_pki_recover_dac be (some signer) [{ tag := 0x93, value := cert }] sda
        = .ok [{ tag := 0x9f45, value := dac }] := by
  obtain ⟨d0, d1, rfl⟩ := list_length_two dac hdac
  have hsda : tlvs_bytes [some { tag := 0, value := sda }, none] = sda := by
    simp only [tlvs_bytes, List.append_nil]
  obtain ⟨cert, plain, digest, hsign, hdec, hplain, _, _⟩ :=
    sign_then_decode be sha1 cp signer kcp ch 3 [3, sha1, d0, d1]
      [some { tag := 0, value := sda }, none] 0x93 0 hch hdigest
      (by simp only [List.length_cons, List.length_nil]; omega)
      (Or.inr (Or.inl rfl)) rfl rfl hmlen hk (by rw [hsda]; exact hinv)
  obtain ⟨s, c, _, _, _, _, hs, hc, hcl, _⟩ := decode_message_ok_inv be _ 3 _ _ _ _ hdec
  have hs' := Option.some.inj hs
  have hc' := Option.some.inj hc
  subst hs' hc'
  refine ⟨cert, ?_, ?_, ?_⟩
  · unfold emv_pki_sign_dac
    rw [show rd [d0, d1] 0 = Res.ok d0 from rfl, Res.ok_bind,
      show rd [d0, d1] 1 = Res.ok d1 from rfl, Res.ok_bind, Nat.mod_eq_of_lt hsha]
    exact hsign
  · rw [← hmlen, ← hcl]
    rfl
  · unfold emv_pki_recover_dac
    simp only []
    rw [tlvdb_get_single, hdec, Res.ok_bind]
    simp only []
    rw [reject_if_neg _ (by omega), Res.ok_bind, hplain,
      show [0x6a] ++ [3, sha1, d0, d1]
          ++ List.replicate (envelope_len cp - 2 - ch.get_size - [3, sha1, d0, d1].length) 0xbb
          ++ digest ++ [0xbc]
        = [0x6a, 3, sha1, d0, d1]
          ++ (List.replicate (envelope_len cp - 2 - ch.get_size - [3, sha1, d0, d1].length) 0xbb
          ++ digest ++ [0xbc]) by simp,
      rdn_append_left _ _ 3 2 (by simp)]
    rfl

set_option maxRecDepth 100000 in
/-- C18 at a concrete input: the certificate signed for the IDN `07 08` is recovered, and
the plaintext obeys the two bounds. -/
theorem recover_idn_bounds_witness :
    emv_pki_recover_idn test_backend (some (test_signer 30)) idn_db [1, 2, 3]
      = .ok [{ tag := 0x9f4c, value := [7, 8] }] ∧
    ∃ data len ldd n,
      emv_pki_decode_message test_backend (some (test_signer 30)) 5 (tlvdb_get idn_db 0x9f4b)
        [some { tag := 0, value := [1, 2, 3] }, none] = .ok (data, len) ∧
      data[3]? = some ldd ∧ data[4]? = some n ∧ 2 ≤ ldd ∧ n ≤ ldd - 1 ∧
      ([{ tag := 0x9f4c, value := [7, 8] }] : tlvdb)
        = [{ tag := 0x9f4c, value := (data.drop 5).take n }] ∧
      ((data.drop 5).take n).length = n :=
  ⟨by decide!, (recover_idn_bounds test_backend (some (test_signer 30)) idn_db [1, 2, 3]).1
    [{ tag := 0x9f4c, value := [7, 8] }] (by decide!)⟩

set_option maxRecDepth 1000000 in
/-- C17 at the input of scenario S4: SDA stream `00 01 … 3F`, DAC `AB CD`, the 1024-bit
signer of the RSA backend, certificate of 128 bytes. -/
theorem dac_roundtrip_witness :
    ∃ cert,
      emv_pki_sign_dac rsa_backend 1 rsa_signer_cp [0xab, 0xcd] (some (List.range 64))
        = .ok [{ tag := 0x93, value := cert }] ∧
      cert.length = envelope_len rsa_signer_cp ∧
      emv_pki_recover_dac rsa_backend (some rsa_signer) [{ tag := 0x93, value := cert }]
        (List.range 64) = .ok [{ tag := 0x9f45, value := [0xab, 0xcd] }] :=
  dac_roundtrip rsa_backend 1 rsa_signer_cp rsa_signer rsa_signer_pub
    { test_hash with algo := 1 } [0xab, 0xcd] (List.range 64)
    (by decide) rfl (fun w => ⟨test_digest w, rfl, test_digest_length w⟩) (by decide) rfl rfl rfl
    (inverts_of_check _ _ _ (by decide!))

set_option maxRecDepth 100000 in
/-- C22 as stated fails for the empty IDN: `emv_pki_sign_idn` emits a certificate whose
inner length byte is 1, and `emv_pki_recover_idn` rejects an inner length below 2. -/
theorem empty_idn_not_recovered :
    emv_pki_sign_idn test_backend 1 (test_pk 30) [] (some [1, 2, 3]) = .ok empty_idn_db ∧
    (tlvdb_get empty_idn_db 0x9f4b).map (fun t => t.value.take 5) = some [0x6a, 5, 1, 1, 0] ∧
    emv_pki_recover_idn test_backend (some (test_signer 30)) empty_idn_db [1, 2, 3] = .null := by
  refine ⟨by decide!, by decide!, by decide!⟩

theorem envelope_len_lt (cp : crypto_pk) : envelope_len cp < 2 ^ 64 := by
  unfold envelope_len SIZE_MOD
  omega

/-- C22, amended: for a key pair on which the RSA public operation inverts the private one
on the envelope that is signed, every IDN of at most 254 bytes that fits the envelope
(`4 + idn_len + 2 + hlen <= N`, that is `4 + idn_len <= N - 22` for SHA-1) and every
dynamic-data buffer, `emv_pki_sign_idn` emits one TLV `0x9F4B`, and `emv_pki_recover_idn`
applied to it with the same dynamic data returns the TLV `0x9F4C` whose value is the IDN
when the IDN is not empty, and NULL when the IDN is empty.
The hypothesis on the key pair holds for every textbook RSA key pair on messages and
digests of bytes (`rsa_inverts_signed_envelope`). -/
theorem idn_roundtrip (be : crypto_backend) (sha1 : Nat) (cp : crypto_pk)
    (signer : emv_pk) (kcp : crypto_pk) (ch : crypto_hash) (idn dyn : List Nat)
    (hsha : sha1 < 256)
    (hch : crypto_hash_open be sha1 = some ch)
    (hdigest : ∀ w, ∃ h, ch.read w = some h ∧ h.length = ch.get_size)
    (hidn2 : idn.length ≤ 254)
    (hfit : 4 + idn.length + 2 + ch.get_size ≤ envelope_len cp)
    (hmlen : signer.mlen = envelope_len cp)
    (hk : crypto_pk_open be signer.pk_algo (signer.modulus.take signer.mlen)
      (signer.exp.take signer.elen) = some kcp)
    (hinv : ∀ x, signed_envelope ch cp ([5, sha1, idn.length + 1, idn.length] ++ idn) dyn
        = some x →
      ∃ c, crypto_pk_decrypt cp x = some c ∧ c.length = x.length ∧
        crypto_pk_encrypt kcp c = some x) :
    ∃ cert,
      emv_pki_sign_idn be sha1 cp idn (some dyn) = .ok [{ tag := 0x9f4b, value := cert }] ∧
      emv_pki_recover_idn be (some signer) [{ tag := 0x9f4b, value := cert }] dyn
        = (if idn = [] then .null else .ok [{ tag := 0x9f4c, value := idn }]) := by
  have hNlt := envelope_len_lt cp
  have hgl := ch.get_size_lt
  have hdyn : tlvs_bytes [some { tag := 0, value := dyn }, none] = dyn := by
    simp only [tlvs_bytes, List.append_nil]
  obtain ⟨cert, plain, digest, hsign, hdec, hplain, _, _⟩ :=
    sign_then_decode be sha1 cp signer kcp ch 5 ([5, sha1, idn.length + 1, idn.length] ++ idn)
      [some { tag := 0, value := dyn }, none] 0x9f4b 0 hch hdigest
      (by simp only [List.length_append, List.length_cons, List.length_nil]; omega)
      (Or.inr (Or.inr (Or.inr rfl))) rfl rfl hmlen hk (by rw [hdyn]; exact hinv)
  refine ⟨cert, ?_, ?_⟩
  · unfold emv_pki_sign_idn
    simp only []
    rw [Nat.mod_eq_of_lt hsha, Nat.mod_eq_of_lt (show idn.length + 1 < 256 by omega),
      Nat.mod_eq_of_lt (show idn.length < 256 by omega),
      Nat.mod_eq_of_lt (show 4 + idn.length < 2 ^ 32 by omega),
      List.take_of_length_le (by
        simp only [List.length_append, List.length_cons, List.length_nil]; omega)]
    exact hsign
  · generalize hR : List.replicate (envelope_len cp - 2 - ch.get_size
      - ([5, sha1, idn.length + 1, idn.length] ++ idn).length) 0xbb = R at hplain
    have hp : plain = [0x6a, 5, sha1, idn.length + 1, idn.length] ++ idn
        ++ (R ++ digest ++ [0xbc]) := by
      rw [hplain]
      simp
    unfold emv_pki_recover_idn
    simp only []
    rw [tlvdb_get_single, hdec, Res.ok_bind]
    simp only []
    rw [reject_if_neg _ (by omega), Res.ok_bind, hp,
      show rd ([0x6a, 5, sha1, idn.length + 1, idn.length] ++ idn ++ (R ++ digest ++ [0xbc])) 3
        = Res.ok (idn.length + 1) by simp [rd], Res.ok_bind,
      size_sub_of_le _ 3 (by omega) (by omega)]
    by_cases hempty : idn = []
    · rw [if_pos hempty, reject_if_pos _ (by rw [hempty]; exact Or.inl (by decide))]
      rfl
    · have hidn1 : 1 ≤ idn.length := by
        cases idn with
        | nil => exact absurd rfl hempty
        | cons a l => simp only [List.length_cons]; omega
      rw [if_neg hempty, reject_if_neg _ (by omega), Res.ok_bind,
        show rd ([0x6a, 5, sha1, idn.length + 1, idn.length] ++ idn ++ (R ++ digest ++ [0xbc])) 4
          = Res.ok idn.length by simp [rd], Res.ok_bind,
        size_sub_of_le _ 1 (by omega) (by omega),
        reject_if_neg _ (by omega), Res.ok_bind,
        rdn_mid [0x6a, 5, sha1, idn.length + 1, idn.length] idn _ 5 idn.length rfl rfl]
      rfl

set_option maxRecDepth 1000000 in
/-- C22, amended, at concrete inputs under the 1024-bit signer of the RSA backend: the IDN
`07 08` is recovered, the empty IDN is signed and its certificate rejected. -/
theorem idn_roundtrip_witness :
    (∃ cert,
      emv_pki_sign_idn rsa_backend 1 rsa_signer_cp [7, 8] (some [1, 2, 3])
        = .ok [{ tag := 0x9f4b, value := cert }] ∧
      emv_pki_recover_idn rsa_backend (some rsa_signer) [{ tag := 0x9f4b, value := cert }]
        [1, 2, 3] = (if [7, 8] = ([] : List Nat) then .null
          else .ok [{ tag := 0x9f4c, value := [7, 8] }])) ∧
    (∃ cert,
      emv_pki_sign_idn rsa_backend 1 rsa_signer_cp [] (some [1, 2, 3])
        = .ok [{ tag := 0x9f4b, value := cert }] ∧
      emv_pki_recover_idn rsa_backend (some rsa_signer) [{ tag := 0x9f4b, value := cert }]
        [1, 2, 3] = (if ([] : List Nat) = [] then .null
          else .ok [{ tag := 0x9f4c, value := [] }])) :=
  ⟨idn_roundtrip rsa_backend 1 rsa_signer_cp rsa_signer rsa_signer_pub
      { test_hash with algo := 1 } [7, 8] [1, 2, 3]
      (by decide) rfl (fun w => ⟨test_digest w, rfl, test_digest_length w⟩) (by decide)
      (by decide) rfl rfl (inverts_of_check _ _ _ (by decide!)),
    idn_roundtrip rsa_backend 1 rsa_signer_cp rsa_signer rsa_signer_pub
      { test_hash with algo := 1 } [] [1, 2, 3]
      (by decide) rfl (fun w => ⟨test_digest w, rfl, test_digest_length w⟩) (by decide)
      (by decide) rfl rfl (inverts_of_check _ _ _ (by decide!))⟩

set_option maxRecDepth 100000 in
/-- C25 fails on a certificate of type 5 whose body of 9 bytes carries the inner length 6 and
the IDN length 5: the guard `data[3] > data_len - 3` lets it pass, `5 + 5 > 9`, and the IDN
returned ends with the first byte `C4` of the embedded digest. -/
theorem recover_idn_emits_digest_byte :
    emv_pki_decode_message test_backend (some (test_signer 30)) 5
      (tlvdb_get long_idn_db 0x9f4b) [some { tag := 0, value := [1, 2, 3] }, none]
      = .ok (long_idn_plain, 9) ∧
    long_idn_plain.take 9 = [0x6a, 5, 1, 6, 5, 0xa1, 0xa2, 0xa3, 0xa4] ∧
    (long_idn_plain.drop 9).take 20 = test_digest [5, 1, 6, 5, 0xa1, 0xa2, 0xa3, 0xa4, 1, 2, 3] ∧
    long_idn_plain[9]? = some 0xc4 ∧
    emv_pki_recover_idn test_backend (some (test_signer 30)) long_idn_db [1, 2, 3]
      = .ok [{ tag := 0x9f4c, value := [0xa1, 0xa2, 0xa3, 0xa4, 0xc4] }] := by
  refine ⟨by decide!, by decide!, by decide!, by decide!, by decide!⟩

set_option maxRecDepth 100000 in
/-- C16 as stated fails on scenario S3: with a 128-byte signer of the test backend and the
ICC key with a 144-byte modulus, `emv_pki_sign_icc_cert` emits the certificate TLV `0x9F46`
of 128 bytes, the remainder TLV `0x9F48` of 58 bytes and the exponent TLV `0x9F47` of 3
bytes, not a certificate of 148 bytes and a remainder of 16 bytes. -/
theorem s3_cert_lengths :
    emv_pki_sign_icc_cert test_backend 1 (test_pk 128) test_icc (some s3_sda) = .ok s3_certs ∧
    s3_certs.map (fun t => (t.tag, t.len)) = [(0x9f46, 128), (0x9f48, 58), (0x9f47, 3)] ∧
    (sign_key_msg test_icc 4 10).length = 164 := by
  refine ⟨by decide!, by decide!, by decide!⟩

/-- C16, amended: when the hash opens and yields a digest, the envelope of
`N = (nbits + 7) / 8` bytes has room for header, digest and trailer, and the RSA private
operation maps an `N`-byte buffer to a buffer of the same length, `emv_pki_sign_message`
emits a certificate TLV of `N` bytes, followed by a remainder TLV of
`msg_len - (N - 2 - hlen)` bytes exactly when `msg_len > N - 2 - hlen`. -/
theorem sign_message_lengths (be : crypto_backend) (sha1 : Nat) (cp : crypto_pk)
    (cert_tag rem_tag : Nat) (msg : List Nat) (adds : List (Option (List Nat)))
    (ch : crypto_hash)
    (hch : crypto_hash_open be sha1 = some ch)
    (hN : ch.get_size + 2 ≤ envelope_len cp)
    (hdigest : ∀ w, ∃ h, ch.read w = some h ∧ ch.get_size ≤ h.length)
    (hpriv : ∀ x, x.length = envelope_len cp →
      ∃ c, crypto_pk_decrypt cp x = some c ∧ c.length = x.length) :
    ∃ cert rem,
      cert.length = envelope_len cp ∧
      emv_pki_sign_message be sha1 cp cert_tag rem_tag msg adds =
        .ok ([{ tag := cert_tag, value := cert }] ++
          (if envelope_len cp - 2 - ch.get_size < msg.length then
            [{ tag := rem_tag, value := rem }] else [])) ∧
      rem.length = msg.length - (envelope_len cp - 2 - ch.get_size) := by
  obtain ⟨h, hread, hhl⟩ := hdigest (ch.written
    ++ (envelope_part msg (envelope_len cp - 2 - ch.get_size)
      ++ List.drop (envelope_len cp - 2 - ch.get_size) msg ++ bufs_bytes adds))
  have hsign := sign_message_eq be sha1 cp cert_tag rem_tag msg adds ch h hch hN hread hhl
  have hpl := envelope_part_length msg (envelope_len cp - 2 - ch.get_size)
  have hxl : ([0x6a] ++ envelope_part msg (envelope_len cp - 2 - ch.get_size)
      ++ List.take ch.get_size h ++ [0xbc]).length = envelope_len cp := by
    simp only [List.length_append, List.length_singleton, hpl, List.length_take]
    omega
  obtain ⟨cert, hdecr, hcl⟩ := hpriv _ hxl
  rw [hdecr] at hsign
  refine ⟨cert, msg.drop (envelope_len cp - 2 - ch.get_size), by rw [hcl, hxl], ?_, ?_⟩
  · rw [hsign]
    rfl
  · rw [List.length_drop]

set_option maxRecDepth 100000 in
/-- C16, amended, at the message of scenario S3 (164 bytes) under a 128-byte signer of the
test backend: a certificate of 128 bytes and a remainder of `164 - 106 = 58` bytes. -/
theorem sign_message_lengths_witness :
    ∃ cert rem,
      cert.length = envelope_len (test_pk 128) ∧
      emv_pki_sign_message test_backend 1 (test_pk 128) 0x9f46 0x9f48 (sign_key_msg test_icc 4 10)
        [some [1, 0, 1], some s3_sda, none] =
        .ok ([{ tag := 0x9f46, value := cert }] ++
          (if envelope_len (test_pk 128) - 2 - test_hash.get_size
              < (sign_key_msg test_icc 4 10).length then
            [{ tag := 0x9f48, value := rem }] else [])) ∧
      rem.length = (sign_key_msg test_icc 4 10).length
        - (envelope_len (test_pk 128) - 2 - test_hash.get_size) :=
  sign_message_lengths test_backend 1 (test_pk 128) 0x9f46 0x9f48 (sign_key_msg test_icc 4 10)
    [some [1, 0, 1], some s3_sda, none] { test_hash with algo := 1 } rfl (by decide)
    (fun w => ⟨test_digest w, rfl, by rw [test_digest_length]; decide⟩)
    (fun x _ => ⟨x, rfl, rfl⟩)

set_option maxRecDepth 100000 in
/-- C11 fails on a certificate of type 2 whose exponent-length byte `plain[14]` is 4, given
with an exponent TLV of 4 bytes: every check passes (with an exponent TLV of 3 bytes the
call returns NULL), `emv_pk_new(20, 4)` returns NULL and the source stores through that
pointer, `memcpy(pk->rid, ...)`, instead of returning no key. -/
theorem decode_key_long_exponent_null_deref :
    (emv_pki_decode_message test_backend (some (test_signer 64)) 2 (tlvdb_get long_exp_db 0x90)
        [some empty_tlv, some { tag := 0x9f32, value := [1, 0, 0, 1] }, none, none]
      >>= fun r => Res.ok (r.2, r.1[13]?, r.1[14]?)) = .ok (43, some 20, some 4) ∧
    emv_pk_new 20 4 = none ∧
    emv_pki_decode_key test_backend (some (test_signer 64)) 2 (some test_pan)
      (tlvdb_get long_exp_db 0x90) (some { tag := 0x9f32, value := [1, 0, 0, 1] }) none none
      = .fault ∧
    emv_pki_decode_key test_backend (some (test_signer 64)) 2 (some test_pan)
      (tlvdb_get long_exp_db 0x90) (some { tag := 0x9f32, value := [1, 0, 1] }) none none
      = .null := by
  refine ⟨by decide!, by decide!, by decide!, by decide!⟩

set_option maxRecDepth 100000 in
/-- C24 fails on a certificate of type 2 whose body announces a 1-byte modulus, holds
`avail = 4` modulus bytes and comes with a remainder of 3 bytes: the only length check,
`pk_len > avail + rem_len`, passes, the modulus is allocated with 1 byte, and
`memcpy(pk->modulus + 4, rem, 3)` writes outside it. -/
theorem decode_key_remainder_past_modulus :
    (emv_pki_decode_message test_backend (some (test_signer 40)) 2
        (tlvdb_get short_modulus_db 0x90)
        [tlvdb_get short_modulus_db 0x92, some { tag := 0x9f32, value := [3] }, none, none]
      >>= fun r => Res.ok (r.2, r.1[13]?, r.1[14]?)) = .ok (19, some 1, some 1) ∧
    tlvdb_get short_modulus_db 0x92 = some { tag := 0x92, value := [0xc5, 0xc6, 0xc7] } ∧
    (emv_pk_new 1 1).map (fun pk => pk.modulus.length) = some 1 ∧
    ¬ (19 - 11 - 4 + 3 ≤ 1) ∧
    emv_pki_decode_key test_backend (some (test_signer 40)) 2 (some test_pan)
      (tlvdb_get short_modulus_db 0x90) (some { tag := 0x9f32, value := [3] })
      (tlvdb_get short_modulus_db 0x92) none = .fault := by
  refine ⟨by decide!, by decide!, by decide!, by decide!, by decide!⟩

set_option maxRecDepth 100000 in
/-- C23 fails on a correctly signed certificate of type 5 with a 64-byte plaintext, body
length 43, inner length `plain[3] = 32` and `plain[4] = 0xFF`: the byte `plain[5 + 255]` is
read for the CID comparison before any bound on `plain[4]` is checked, outside the
plaintext. -/
theorem perform_cda_reads_past_plaintext :
    (emv_pki_decode_message test_backend (some (test_signer 64)) 5
        (tlvdb_get (s5_this_db 0xff 0x80) 0x9f4b) [tlvdb_get s5_db 0x9f37, none]
      >>= fun r => Res.ok (r.2, r.1.length, r.1[3]?, r.1[4]?, r.1[5 + 0xff]?))
      = .ok (43, 64, some 32, some 0xff, none) ∧
    emv_pki_perform_cda test_backend (fun _ => false) test_encode (some (test_signer 64)) s5_db
      (s5_this_db 0xff 0x80) s5_pdol s5_crm1 s5_crm2 = .fault := by
  refine ⟨by decide!, by decide!⟩

/-- Inversion of a successful `emv_pki_perform_cda` up to the CID comparison. -/
theorem perform_cda_ok_inv (be : crypto_backend) (isc : tlv → Bool) (enc : tlv → List Nat)
    (enc_pk : Option emv_pk) (db this_db : tlvdb) (pdol crm1 crm2 : List Nat) (out : tlvdb)
    (h : emv_pki_perform_cda be isc enc enc_pk db this_db pdol crm1 crm2 = .ok out) :
    ∃ un cid data len n c,
      tlvdb_get db 0x9f37 = some un ∧ tlvdb_get this_db 0x9f27 = some cid ∧
      emv_pki_decode_message be enc_pk 5 (tlvdb_get this_db 0x9f4b) [some un, none]
        = .ok (data, len) ∧
      data[4]? = some n ∧ data[5 + n]? = some c ∧ cid.value = [c] := by
  simp only [emv_pki_perform_cda, Res.bind_eq_ok, or_null_eq_ok, reject_if_eq_ok, rd_eq_ok] at h
  obtain ⟨un, hun, cid, hcid, ⟨data, len⟩, hdec, _, _, ldd, _, _, _, _, hl, c0, hc0, n, hn, c, hc,
    _, hcc, _⟩ := h
  simp only [] at hl hc0 hn hc hcc
  refine ⟨un, cid, data, len, n, c, hun, hcid, hdec, hn, hc, ?_⟩
  have hl1 : cid.value.length = 1 := by simpa [tlv.len] using hl
  obtain ⟨x, hx⟩ := List.length_eq_one.mp hl1
  rw [hx] at hc0 ⊢
  simp at hc0 hcc
  rw [hc0, hcc]

/-- C19: `emv_pki_perform_cda` returns a TLV only if the record `0x9F27` of `this_db` exists,
has exactly one byte and that byte equals `plain[5 + plain[4]]` of the recovered data; it
returns NULL when the record is missing, and, once the decode has succeeded, when the record
is not one byte long or differs from the byte `plain[5 + plain[4]]`. -/
theorem perform_cda_cid_check (be : crypto_backend) (isc : tlv → Bool) (enc : tlv → List Nat)
    (enc_pk : Option emv_pk) (db this_db : tlvdb) (pdol crm1 crm2 : List Nat) :
    (∀ out, emv_pki_perform_cda be isc enc enc_pk db this_db pdol crm1 crm2 = .ok out →
      ∃ un cid data len n c,
        tlvdb_get db 0x9f37 = some un ∧ tlvdb_get this_db 0x9f27 = some cid ∧
        emv_pki_decode_message be enc_pk 5 (tlvdb_get this_db 0x9f4b) [some un, none]
          = .ok (data, len) ∧
        data[4]? = some n ∧ data[5 + n]? = some c ∧ cid.value = [c]) ∧
    (tlvdb_get this_db 0x9f27 = none →
      emv_pki_perform_cda be isc enc enc_pk db this_db pdol crm1 crm2 = .null) ∧
    (∀ un cid data len,
      tlvdb_get db 0x9f37 = some un → tlvdb_get this_db 0x9f27 = some cid →
      emv_pki_decode_message be enc_pk 5 (tlvdb_get this_db 0x9f4b) [some un, none]
        = .ok (data, len) →
      (cid.len ≠ 1 ∨ ∃ n c, data[4]? = some n ∧ data[5 + n]? = some c ∧ cid.value ≠ [c]) →
      emv_pki_perform_cda be isc enc enc_pk db this_db pdol crm1 crm2 = .null) := by
  refine ⟨fun out h => perform_cda_ok_inv be isc enc enc_pk db this_db pdol crm1 crm2 out h,
    ?_, ?_⟩
  · intro hnone
    unfold emv_pki_perform_cda
    rw [hnone]
    cases tlvdb_get db 0x9f37 <;> rfl
  · intro un cid data len hun hcid hdec hbad
    obtain ⟨_, _, _, _, ch, _, _, _, _, _, _, _, _, hsz, hdl, _, _, _, _, _, _, _, hlen'⟩ :=
      decode_message_ok_inv be enc_pk 5 _ _ data len hdec
    unfold emv_pki_perform_cda
    rw [hun, hcid]
    simp only [or_null, Res.ok_bind]
    rw [hdec, Res.ok_bind]
    simp only []
    by_cases h3 : len < 3
    · rw [reject_if_pos _ h3]
      rfl
    obtain ⟨ldd, hldd⟩ : ∃ ldd, data[3]? = some ldd :=
      ⟨data[3], List.getElem?_eq_getElem (by omega)⟩
    rw [reject_if_neg _ h3, Res.ok_bind, (rd_eq_ok _ _ _).mpr hldd, Res.ok_bind]
    by_cases hb : ldd < 30 ∨ ldd > size_sub len 4
    · rw [reject_if_pos _ hb]
      rfl
    rw [reject_if_neg _ hb, Res.ok_bind]
    by_cases hl : cid.len ≠ 1
    · rw [reject_if_pos _ hl]
      rfl
    rw [reject_if_neg _ hl, Res.ok_bind]
    rcases hbad with hbad | ⟨n, c, hn, hc, hne⟩
    · exact absurd hbad hl
    have hl1 : cid.value.length = 1 := by simpa [tlv.len] using hl
    obtain ⟨x, hx⟩ := List.length_eq_one.mp hl1
    rw [hx, show rd [x] 0 = Res.ok x from rfl, Res.ok_bind, (rd_eq_ok _ _ _).mpr hn, Res.ok_bind,
      (rd_eq_ok _ _ _).mpr hc, Res.ok_bind, reject_if_pos _ (by
        intro hxc
        apply hne
        rw [hx, hxc])]
    rfl

set_option maxRecDepth 100000 in
/-- C19 at the inputs of scenarios S5 and S6: with the CID record `80` the call returns the
IDN, with the CID record `00` against the same signed data it returns NULL. -/
theorem perform_cda_cid_check_witness :
    emv_pki_perform_cda test_backend (fun _ => false) test_encode (some (test_signer 64)) s5_db
      (s5_this_db 2 0x80) s5_pdol s5_crm1 s5_crm2 = .ok [{ tag := 0x9f4c, value := [7, 8] }] ∧
    emv_pki_perform_cda test_backend (fun _ => false) test_encode (some (test_signer 64)) s5_db
      (s5_this_db 2 0) s5_pdol s5_crm1 s5_crm2 = .null :=
  ⟨by decide!,
    (perform_cda_cid_check test_backend (fun _ => false) test_encode (some (test_signer 64))
      s5_db (s5_this_db 2 0) s5_pdol s5_crm1 s5_crm2).2.2
      { tag := 0x9f37, value := [0x11, 0x22, 0x33, 0x44] } { tag := 0x9f27, value := [0] }
      s5_plain 43 (by decide!) (by decide!) (by decide!)
      (Or.inr ⟨2, 0x80, by decide!, by decide!, by decide!⟩)⟩

theorem drop_replicate_length (src : List Nat) (n c : Nat) :
    (List.replicate n c).drop src.length = List.replicate (n - src.length) c := by
  rw [List.drop_replicate]

/-- What `emv_pki_make_ca` returns when the key context yields a non-empty modulus and an
exponent of 1 to 3 bytes and the hash yields a digest of at most 20 bytes. -/
theorem make_ca_eq (be : crypto_backend) (cp : crypto_pk) (rid : List Nat)
    (index expire hash_algo : Nat) (gp : Nat → Option (List Nat)) (mod exp : List Nat)
    (ch : crypto_hash) (h : List Nat)
    (hgp : cp.get_parameter = some gp) (hmod : gp 0 = some mod) (hexp : gp 1 = some exp)
    (hmodne : mod ≠ []) (hexp1 : 1 ≤ exp.length) (hexp3 : exp.length ≤ 3)
    (hrid : rid.length = 5)
    (hch : crypto_hash_open be (hash_algo % 256) = some ch)
    (hread : crypto_hash_read (crypto_hash_write ch (rid ++ [index] ++ mod ++ exp)) = some h)
    (hhl : h.length = ch.get_size) (hsz : ch.get_size ≤ 20) :
    emv_pki_make_ca be cp (some rid) index expire hash_algo = .ok
      { rid := rid, index := index, serial := List.replicate 3 0, pan := List.replicate 10 0,
        hash_algo := hash_algo % 256, pk_algo := cp.algo % 256,
        hash := h ++ List.replicate (20 - h.length) 0,
        exp := exp ++ List.replicate (3 - exp.length) 0, elen := exp.length,
        mlen := mod.length, modulus := mod, expire := expire } := by
  have hp0 : crypto_pk_get_parameter cp 0 = some mod := by
    unfold crypto_pk_get_parameter
    rw [hgp]
    exact hmod
  have hp1 : crypto_pk_get_parameter cp 1 = some exp := by
    unfold crypto_pk_get_parameter
    rw [hgp]
    exact hexp
  have hml : mod.length ≠ 0 := fun hc => hmodne (List.length_eq_zero.mp hc)
  have hnew : emv_pk_new mod.length exp.length = some
      { rid := List.replicate 5 0, index := 0, serial := List.replicate 3 0,
        pan := List.replicate 10 0, hash_algo := 0, pk_algo := 0,
        hash := List.replicate 20 0, exp := List.replicate 3 0, elen := exp.length,
        mlen := mod.length, modulus := List.replicate mod.length 0, expire := 0 } := by
    unfold emv_pk_new
    rw [if_neg (by omega)]
  have hr5 : rid.take 5 = rid := List.take_of_length_le (by omega)
  unfold emv_pki_make_ca
  rw [show or_null (some rid) = Res.ok rid from rfl, Res.ok_bind, hp0,
    show or_null (some mod) = Res.ok mod from rfl, Res.ok_bind,
    reject_if_neg _ hml, Res.ok_bind, hp1,
    show or_null (some exp) = Res.ok exp from rfl, Res.ok_bind,
    reject_if_neg _ (by omega), Res.ok_bind, hnew,
    show ∀ x : emv_pk, or_fault (some x) = Res.ok x from fun _ => rfl, Res.ok_bind,
    rdn_zero rid 5 (by omega), Res.ok_bind, hr5]
  simp only []
  rw [memcpy_at_zero_ok _ rid (by simp [hrid]), Res.ok_bind,
    memcpy_at_zero_ok _ mod (by simp), Res.ok_bind,
    memcpy_at_zero_ok _ exp (by simp; omega), Res.ok_bind, hch,
    show or_null (some ch) = Res.ok ch from rfl, Res.ok_bind]
  simp only [drop_replicate_length, hrid, Nat.sub_self, List.replicate_zero, List.append_nil,
    show List.drop 5 (List.replicate 5 (0 : Nat)) = [] from rfl]
  rw [rdn_zero mod mod.length (le_refl _), Res.ok_bind, List.take_length,
    rdn_zero _ exp.length (by simp), Res.ok_bind, List.take_left' rfl,
    crypto_hash_write_write, crypto_hash_write_write, crypto_hash_write_write,
    ← List.append_assoc, ← List.append_assoc, hread,
    show or_null (some h) = Res.ok h from rfl, Res.ok_bind]
  have hgs : crypto_hash_get_size (crypto_hash_write ch (rid ++ [index] ++ mod ++ exp))
      = ch.get_size := rfl
  rw [hgs, rdn_zero h ch.get_size (by omega), Res.ok_bind, ← hhl, List.take_length,
    memcpy_at_zero_ok _ h (by simp; omega), Res.ok_bind, drop_replicate_length]
  rfl

/-- C26, amended: for a key context that yields a non-empty modulus and an exponent of 1 to
3 bytes, every 5-byte RID, index and expiry, and every hash algorithm that opens and yields
a digest of 1 to 20 bytes, `emv_pki_make_ca` returns a key that carries the RID, index,
expiry, modulus and exponent, whose `hash` field starts with the digest of
`rid ‖ index ‖ modulus ‖ exp`, and `emv_pk_verify` accepts it. -/
theorem make_ca_verifies (be : crypto_backend) (cp : crypto_pk) (rid : List Nat)
    (index expire hash_algo : Nat) (gp : Nat → Option (List Nat)) (mod exp : List Nat)
    (ch : crypto_hash)
    (hgp : cp.get_parameter = some gp) (hmod : gp 0 = some mod) (hexp : gp 1 = some exp)
    (hmodne : mod ≠ []) (hexp1 : 1 ≤ exp.length) (hexp3 : exp.length ≤ 3)
    (hrid : rid.length = 5)
    (hch : crypto_hash_open be (hash_algo % 256) = some ch)
    (hdigest : ∀ w, ∃ h, ch.read w = some h ∧ h.length = ch.get_size)
    (hsz0 : 1 ≤ ch.get_size) (hsz : ch.get_size ≤ 20) :
    ∃ pk h,
      emv_pki_make_ca be cp (some rid) index expire hash_algo = .ok pk ∧
      pk.rid = rid ∧ pk.index = index ∧ pk.expire = expire ∧
      pk.mlen = mod.length ∧ pk.modulus = mod ∧
      pk.elen = exp.length ∧ pk.exp.take pk.elen = exp ∧
      crypto_hash_read (crypto_hash_write ch (rid ++ [index] ++ mod ++ exp)) = some h ∧
      pk.hash.take ch.get_size = h ∧
      emv_pk_verify be pk = .ok true := by
  obtain ⟨h, hread, hhl⟩ := hdigest (ch.written ++ (rid ++ [index] ++ mod ++ exp))
  have hread' : crypto_hash_read (crypto_hash_write ch (rid ++ [index] ++ mod ++ exp)) = some h :=
    hread
  refine ⟨_, h, make_ca_eq be cp rid index expire hash_algo gp mod exp ch h hgp hmod hexp hmodne
    hexp1 hexp3 hrid hch hread' hhl hsz, rfl, rfl, rfl, rfl, rfl, rfl, List.take_left' rfl, hread',
    ?_, ?_⟩
  · rw [← hhl]
    exact List.take_left' rfl
  · unfold emv_pk_verify
    simp only []
    rw [hch]
    simp only []
    have hgs : crypto_hash_get_size (crypto_hash_write ch (rid ++ [index] ++ mod ++ exp))
        = ch.get_size := rfl
    rw [rdn_zero rid 5 (by omega), Res.ok_bind, List.take_of_length_le (by omega),
      rdn_zero mod mod.length (le_refl _), Res.ok_bind, List.take_length,
      rdn_zero _ exp.length (by simp), Res.ok_bind, List.take_left' rfl,
      crypto_hash_write_write, crypto_hash_write_write, crypto_hash_write_write,
      ← List.append_assoc, ← List.append_assoc, hread']
    simp only []
    rw [hgs, if_neg (by omega), rdn_zero h ch.get_size (by omega), Res.ok_bind,
      rdn_zero _ ch.get_size (by simp; omega), Res.ok_bind, ← hhl, List.take_length,
      List.take_left' rfl]
    simp

set_option maxRecDepth 100000 in
/-- C26, amended, at the input of scenario S1 under the test backend. -/
theorem make_ca_verifies_witness :
    ∃ pk h,
      emv_pki_make_ca test_backend s1_cp (some [0xa0, 0, 0, 0, 3]) 0x92 0x221231 1 = .ok pk ∧
      pk.rid = [0xa0, 0, 0, 0, 3] ∧ pk.index = 0x92 ∧ pk.expire = 0x221231 ∧
      pk.mlen = s1_modulus.length ∧ pk.modulus = s1_modulus ∧
      pk.elen = [3].length ∧ pk.exp.take pk.elen = [3] ∧
      crypto_hash_read (crypto_hash_write { test_hash with algo := 1 }
        ([0xa0, 0, 0, 0, 3] ++ [0x92] ++ s1_modulus ++ [3])) = some h ∧
      pk.hash.take ({ test_hash with algo := 1 } : crypto_hash).get_size = h ∧
      emv_pk_verify test_backend pk = .ok true :=
  make_ca_verifies test_backend s1_cp [0xa0, 0, 0, 0, 3] 0x92 0x221231 1
    (fun p => if p = 0 then some s1_modulus else if p = 1 then some [3] else none)
    s1_modulus [3] { test_hash with algo := 1 } rfl rfl rfl (by decide!) (by decide) (by decide)
    rfl rfl (fun w => ⟨test_digest w, rfl, test_digest_length w⟩) (by decide) (by decide)

set_option maxRecDepth 100000 in
/-- C15 fails for a key whose `pk_algo` is RSA (1) and whose `hash_algo` is the unknown
value 2: in the `hash_algo` position `emv_pk_dump_pk` emits `??01`, the digits of `pk_algo`,
not `??02`. In the `pk_algo` position an unknown value `0x25` is emitted as `??25`. -/
theorem dump_pk_unknown_hash_algo :
    emv_pk_dump_pk 1 1 { dump_key with hash_algo := 2 } = .ok (cstr
      ("a0:00:00:00:03 92 221231 rsa 03 c5:c5:c5:c5:c5:c5:c5:c5:c5:c5:c5:c5:c5:c5:c5:c5 " ++
       "??0100:01:02:03:04:05:06:07:08:09:0a:0b:0c:0d:0e:0f:10:11:12:13")) ∧
    emv_pk_dump_pk 1 1 { dump_key with pk_algo := 0x25 } = .ok (cstr
      ("a0:00:00:00:03 92 221231 ??2503 c5:c5:c5:c5:c5:c5:c5:c5:c5:c5:c5:c5:c5:c5:c5:c5 " ++
       "sha1 00:01:02:03:04:05:06:07:08:09:0a:0b:0c:0d:0e:0f:10:11:12:13")) := by
  refine ⟨by decide!, by decide!⟩

set_option maxRecDepth 100000 in
/-- C13 fails on lines that deviate from the registry shape: a line whose RID and index are
not separated (`…:039`, the character `3` is read twice) yields a key with index `0x39`; a
colon after the last byte of the RID and text after the 20th hash byte are accepted. -/
theorem parse_pk_accepts_shape_deviations :
    (emv_pk_parse_pk 1 1 (cstr ("a0:00:00:00:039 221231 rsa 03 c5 sha1 " ++
      "00:01:02:03:04:05:06:07:08:09:0a:0b:0c:0d:0e:0f:10:11:12:13"))).map
      (fun k => (k.rid, k.index, k.expire)) = some ([0xa0, 0, 0, 0, 3], 0x39, 0x221231) ∧
    (emv_pk_parse_pk 1 1 (cstr ("a0:00:00:00:03: 92 221231 rsa 03 c5 sha1 " ++
      "00:01:02:03:04:05:06:07:08:09:0a:0b:0c:0d:0e:0f:10:11:12:13"))).map
      (fun k => (k.rid, k.index, k.expire)) = some ([0xa0, 0, 0, 0, 3], 0x92, 0x221231) ∧
    (emv_pk_parse_pk 1 1 (cstr ("a0:00:00:00:03 92 221231 rsa 03 c5 sha1 " ++
      "00:01:02:03:04:05:06:07:08:09:0a:0b:0c:0d:0e:0f:10:11:12:13:zz and more"))).map
      (fun k => (k.rid, k.index, k.expire)) = some ([0xa0, 0, 0, 0, 3], 0x92, 0x221231) := by
  refine ⟨by decide!, by decide!, by decide!⟩

set_option maxRecDepth 100000 in
/-- C21 fails on a line whose exponent has three bytes followed by a colon: the loop of
`emv_pk_read_bin` ends without storing the count, and `emv_pk_parse_pk` returns a key with
`elen = 0` although the exponent bytes `01 00 01` were stored. Without the colon the same
line gives `elen = 3`. -/
theorem parse_pk_exponent_count_lost :
    (emv_pk_parse_pk 1 1 (cstr ("a0:00:00:00:03 92 221231 rsa 01:00:01: c5 sha1 " ++
      "00:01:02:03:04:05:06:07:08:09:0a:0b:0c:0d:0e:0f:10:11:12:13"))).map
      (fun k => (k.exp, k.elen, k.mlen)) = some ([1, 0, 1], 0, 1) ∧
    (emv_pk_parse_pk 1 1 (cstr ("a0:00:00:00:03 92 221231 rsa 01:00:01 c5 sha1 " ++
      "00:01:02:03:04:05:06:07:08:09:0a:0b:0c:0d:0e:0f:10:11:12:13"))).map
      (fun k => (k.exp, k.elen, k.mlen)) = some ([1, 0, 1], 3, 1) := by
  refine ⟨by decide!, by decide!⟩

/-- Inversion of `emv_pk_verify` returning true. -/
theorem emv_pk_verify_true_inv (be : crypto_backend) (pk : emv_pk)
    (h : emv_pk_verify be pk = .ok true) :
    ∃ ch d,
      crypto_hash_open be pk.hash_algo = some ch ∧
      crypto_hash_read (crypto_hash_write ch
        (pk.rid.take 5 ++ [pk.index] ++ pk.modulus.take pk.mlen ++ pk.exp.take pk.elen))
        = some d ∧
      0 < ch.get_size ∧ d.take ch.get_size = pk.hash.take ch.get_size := by
  unfold emv_pk_verify at h
  cases hch : crypto_hash_open be pk.hash_algo with
  | none =>
    rw [hch] at h
    cases h
  | some ch =>
    rw [hch] at h
    simp only [] at h
    obtain ⟨rid, hrid, h⟩ := (Res.bind_eq_ok _ _ _).mp h
    obtain ⟨m, hm, h⟩ := (Res.bind_eq_ok _ _ _).mp h
    obtain ⟨x, hx, h⟩ := (Res.bind_eq_ok _ _ _).mp h
    obtain ⟨_, hrid⟩ := (rdn_eq_ok _ _ _ _).mp hrid
    obtain ⟨_, hm⟩ := (rdn_eq_ok _ _ _ _).mp hm
    obtain ⟨_, hx⟩ := (rdn_eq_ok _ _ _ _).mp hx
    subst hrid hm hx
    simp only [List.drop_zero, crypto_hash_write_write] at h
    cases hr : crypto_hash_read (crypto_hash_write ch
        (pk.rid.take 5 ++ [pk.index] ++ pk.modulus.take pk.mlen ++ pk.exp.take pk.elen)) with
    | none =>
      rw [hr] at h
      cases h
    | some d =>
      rw [hr] at h
      simp only [] at h
      have hgs : crypto_hash_get_size (crypto_hash_write ch
          (pk.rid.take 5 ++ [pk.index] ++ pk.modulus.take pk.mlen ++ pk.exp.take pk.elen))
          = ch.get_size := rfl
      rw [hgs] at h
      by_cases h0 : ch.get_size = 0
      · rw [if_pos h0] at h
        cases h
      · rw [if_neg h0] at h
        obtain ⟨a, ha, h⟩ := (Res.bind_eq_ok _ _ _).mp h
        obtain ⟨b, hb, h⟩ := (Res.bind_eq_ok _ _ _).mp h
        obtain ⟨_, ha⟩ := (rdn_eq_ok _ _ _ _).mp ha
        obtain ⟨_, hb⟩ := (rdn_eq_ok _ _ _ _).mp hb
        subst ha hb
        have hd := Res.ok.inj h
        refine ⟨ch, d, rfl, ?_, by omega, ?_⟩
        · exact hr
        · simpa using hd

/-- Inversion of the registry loop. -/
theorem get_ca_pk_loop_ok_inv (be : crypto_backend) (PK_RSA SHA1 : Nat) (rid : List Nat)
    (idx : Nat) (lines : List (List Nat)) (pk : emv_pk)
    (h : emv_pk_get_ca_pk_loop be PK_RSA SHA1 rid idx lines = .ok pk) :
    emv_pk_verify be pk = .ok true ∧ pk.rid.take 5 = rid.take 5 ∧ pk.index = idx ∧
    ∃ line, line ∈ lines ∧ emv_pk_parse_pk PK_RSA SHA1 line = some pk := by
  induction lines with
  | nil =>
    unfold emv_pk_get_ca_pk_loop at h
    cases h
  | cons buf rest ih =>
    unfold emv_pk_get_ca_pk_loop at h
    cases hp : emv_pk_parse_pk PK_RSA SHA1 buf with
    | none =>
      rw [hp] at h
      obtain ⟨a, b, c, line, hl, hq⟩ := ih h
      exact ⟨a, b, c, line, List.mem_cons_of_mem _ hl, hq⟩
    | some k =>
      rw [hp] at h
      simp only [] at h
      obtain ⟨a, ha, h⟩ := (Res.bind_eq_ok _ _ _).mp h
      obtain ⟨b, hb, h⟩ := (Res.bind_eq_ok _ _ _).mp h
      obtain ⟨_, ha⟩ := (rdn_eq_ok _ _ _ _).mp ha
      obtain ⟨_, hb⟩ := (rdn_eq_ok _ _ _ _).mp hb
      subst ha hb
      by_cases hc : List.take 5 (List.drop 0 k.rid) ≠ List.take 5 (List.drop 0 rid) ∨ k.index ≠ idx
      · rw [if_pos hc] at h
        obtain ⟨a, b, c, line, hl, hq⟩ := ih h
        exact ⟨a, b, c, line, List.mem_cons_of_mem _ hl, hq⟩
      · rw [if_neg hc] at h
        obtain ⟨v, hv, h⟩ := (Res.bind_eq_ok _ _ _).mp h
        cases v with
        | false => cases h
        | true =>
          have hk := Res.ok.inj h
          subst hk
          have hc' : List.take 5 k.rid = List.take 5 rid ∧ k.index = idx := by
            simpa [not_or] using hc
          exact ⟨hv, hc'.1, hc'.2, buf, List.mem_cons_self _ _, hp⟩

/-- C14: a key returned by `emv_pk_get_ca_pk` for a requested RID and index was parsed by
`emv_pk_parse_pk` from a line of the registry, has the requested RID and index, and
`emv_pk_verify` returns true on it, that is the hash named by `pk.hash_algo` opens, its
digest of `rid ‖ index ‖ modulus ‖ exp` has a positive size and equals the first bytes of
`pk.hash`. -/
theorem get_ca_pk_verified (be : crypto_backend) (PK_RSA SHA1 : Nat)
    (file : Option (List (List Nat))) (rid : List Nat) (idx : Nat) (pk : emv_pk)
    (h : emv_pk_get_ca_pk be PK_RSA SHA1 file rid idx = .ok pk) :
    emv_pk_verify be pk = .ok true ∧ pk.rid.take 5 = rid.take 5 ∧ pk.index = idx ∧
    (∃ lines line, file = some lines ∧ line ∈ lines ∧
      emv_pk_parse_pk PK_RSA SHA1 line = some pk) ∧
    ∃ ch d,
      crypto_hash_open be pk.hash_algo = some ch ∧
      crypto_hash_read (crypto_hash_write ch
        (pk.rid.take 5 ++ [pk.index] ++ pk.modulus.take pk.mlen ++ pk.exp.take pk.elen))
        = some d ∧
      0 < ch.get_size ∧ d.take ch.get_size = pk.hash.take ch.get_size := by
  unfold emv_pk_get_ca_pk at h
  cases file with
  | none => cases h
  | some lines =>
    simp only [] at h
    obtain ⟨hv, hr, hi, line, hl, hp⟩ := get_ca_pk_loop_ok_inv be PK_RSA SHA1 rid idx lines pk h
    exact ⟨hv, hr, hi, ⟨lines, line, rfl, hl, hp⟩, emv_pk_verify_true_inv be pk hv⟩

set_option maxRecDepth 1000000 in
/-- C14 at a registry of three lines whose last line is the line of scenario S1. -/
theorem get_ca_pk_verified_witness :
    emv_pk_get_ca_pk test_backend 1 1 (some s1_file) [0xa0, 0, 0, 0, 3] 0x92 = .ok s1_parsed ∧
    emv_pk_verify test_backend s1_parsed = .ok true ∧
    s1_parsed.rid.take 5 = [0xa0, 0, 0, 0, 3].take 5 ∧ s1_parsed.index = 0x92 ∧
    (∃ lines line, some s1_file = some lines ∧ line ∈ lines ∧
      emv_pk_parse_pk 1 1 line = some s1_parsed) ∧
    ∃ ch d,
      crypto_hash_open test_backend s1_parsed.hash_algo = some ch ∧
      crypto_hash_read (crypto_hash_write ch
        (s1_parsed.rid.take 5 ++ [s1_parsed.index] ++ s1_parsed.modulus.take s1_parsed.mlen
          ++ s1_parsed.exp.take s1_parsed.elen)) = some d ∧
      0 < ch.get_size ∧ d.take ch.get_size = s1_parsed.hash.take ch.get_size :=
  ⟨by decide!, get_ca_pk_verified test_backend 1 1 (some s1_file) [0xa0, 0, 0, 0, 3] 0x92
    s1_parsed (by decide!)⟩

theorem hex_tohex (v : Nat) (h : v < 16) : HEX (TOHEX v) = some v := by
  unfold HEX TOHEX
  by_cases h10 : v < 10
  · rw [if_pos h10, if_pos (by omega)]
    congr 1
  · rw [if_neg h10, if_neg (by omega), if_neg (by omega), if_pos (by omega)]
    congr 1
    omega

theorem bcd_tohex (v : Nat) (h : v < 10) : BCD (TOHEX v) = some v := by
  unfold BCD TOHEX
  rw [if_pos h, if_pos (by omega)]
  congr 1

theorem tohex_ne_space (v : Nat) : TOHEX v ≠ 0x20 := by
  unfold TOHEX
  split <;> omega

theorem tohex_ne_colon (v : Nat) (h : v < 16) : TOHEX v ≠ 0x3a := by
  unfold TOHEX
  split <;> omega

theorem byte_hi (b : Nat) (h : b < 256) : b >>> 4 < 16 := by
  rw [Nat.shiftRight_eq_div_pow]
  omega

theorem byte_lo (b : Nat) : b &&& 0xf < 16 := by
  rw [show (0xf : Nat) = 2 ^ 4 - 1 from rfl, Nat.and_pow_two_sub_one_eq_mod]
  omega

theorem byte_join (b : Nat) : (b >>> 4) * 16 + (b &&& 0xf) = b := by
  rw [show (0xf : Nat) = 2 ^ 4 - 1 from rfl, Nat.and_pow_two_sub_one_eq_mod,
    Nat.shiftRight_eq_div_pow]
  omega

theorem write_bin_loop_eq (rest : List Nat) (b : Nat) :
    hexpair b ++ emv_pk_write_bin_loop rest = hexfield (b :: rest) := by
  induction rest generalizing b with
  | nil => simp [emv_pk_write_bin_loop, hexfield]
  | cons c r ih =>
    rw [hexfield, ← ih c]
    simp [emv_pk_write_bin_loop, hexpair]

theorem hexfield_length (bytes : List Nat) (h : bytes ≠ []) :
    (hexfield bytes).length + 1 = 3 * bytes.length := by
  induction bytes with
  | nil => exact absurd rfl h
  | cons b rest ih =>
    cases rest with
    | nil => simp [hexfield, hexpair]
    | cons c r =>
      have := ih (by simp)
      rw [hexfield]
      simp only [List.length_append, List.length_cons, hexpair, List.length_nil] at this ⊢
      omega

theorem hexfield_starts (bytes rest : List Nat) (h : bytes ≠ []) :
    starts_token (hexfield bytes ++ rest) := by
  match bytes, h with
  | [b], _ => exact ⟨_, _, rfl, tohex_ne_space _⟩
  | b :: c :: r, _ => exact ⟨_, _, rfl, tohex_ne_space _⟩

theorem chr_append (pre l : List Nat) (i : Nat) : chr (pre ++ l) (pre.length + i) = chr l i := by
  unfold chr
  rw [List.getD_eq_getElem?_getD, List.getD_eq_getElem?_getD,
    List.getElem?_append_right (by omega)]
  congr 2
  omega

theorem chr_append_zero (pre l : List Nat) : chr (pre ++ l) pre.length = chr l 0 :=
  chr_append pre l 0

theorem skip_spaces_loop_add (l : List Nat) (p : Nat) :
    skip_spaces_loop l p = p + skip_spaces_loop l 0 := by
  induction l generalizing p with
  | nil => simp [skip_spaces_loop]
  | cons c r ih =>
    unfold skip_spaces_loop
    split
    · rw [ih (p + 1), ih (0 + 1)]
      omega
    · rfl

theorem skip_spaces_append (pre post : List Nat) :
    skip_spaces (pre ++ post) pre.length = pre.length + skip_spaces_loop post 0 := by
  unfold skip_spaces
  rw [List.drop_left, skip_spaces_loop_add]

theorem skip_spaces_loop_token (l : List Nat) (h : starts_token l) :
    skip_spaces_loop l 0 = 0 := by
  obtain ⟨c, r, rfl, hc⟩ := h
  unfold skip_spaces_loop
  rw [if_neg (fun hh => hc hh.2)]

theorem skip_spaces_loop_space (l : List Nat) (h : starts_token l) :
    skip_spaces_loop (0x20 :: l) 0 = 1 := by
  unfold skip_spaces_loop
  rw [if_pos (by decide), skip_spaces_loop_add, skip_spaces_loop_token l h]

theorem skip_spaces_loop_nil : skip_spaces_loop [] 0 = 0 := rfl

theorem chr_cons_zero (c : Nat) (l : List Nat) : chr (c :: l) 0 = c := rfl

theorem chr_cons_succ (c : Nat) (l : List Nat) (i : Nat) : chr (c :: l) (i + 1) = chr l i := rfl

/-- One pass of the loop of `emv_pk_read_bin` over the two digits of a byte. -/
theorem read_bin_loop_step (size : Nat) (read : Bool) (pre rest : List Nat) (b left : Nat)
    (bin : List Nat) (hb : b < 256) :
    emv_pk_read_bin_loop (pre ++ (hexpair b ++ rest)) size read (left + 1) pre.length bin =
      if chr rest 0 = 0x3a then
        emv_pk_read_bin_loop (pre ++ (hexpair b ++ rest)) size read left (pre.length + 3)
          (bin ++ [b])
      else if read then .ok (pre.length + 2, bin ++ [b], some (size - left))
      else if left = 0 then .ok (pre.length + 2, bin ++ [b], none)
      else .error (-((pre.length + 2 : Nat) : Int)) := by
  have e0 : chr (pre ++ (hexpair b ++ rest)) pre.length = TOHEX (b >>> 4) :=
    chr_append_zero pre _
  have e1 : chr (pre ++ (hexpair b ++ rest)) (pre.length + 1) = TOHEX (b &&& 0xf) :=
    chr_append pre _ 1
  have e2 : chr (pre ++ (hexpair b ++ rest)) (pre.length + 2) = chr rest 0 :=
    chr_append pre _ 2
  rw [emv_pk_read_bin_loop, e0, hex_tohex _ (byte_hi b hb)]
  simp only []
  rw [e1, hex_tohex _ (byte_lo b)]
  simp only []
  rw [e2, byte_join]

theorem read_bin_loop_hexfield (size : Nat) (read : Bool) (bytes : List Nat) :
    ∀ (pre post : List Nat) (left : Nat) (bin : List Nat),
      bytes ≠ [] → (∀ b ∈ bytes, b < 256) → chr post 0 ≠ 0x3a →
      (if read then bytes.length ≤ left else bytes.length = left) →
      emv_pk_read_bin_loop (pre ++ (hexfield bytes ++ post)) size read left pre.length bin =
        .ok (pre.length + (hexfield bytes).length, bin ++ bytes,
          if read then some (size - (left - bytes.length)) else none) := by
  induction bytes with
  | nil => intro _ _ _ _ h; exact absurd rfl h
  | cons b rest ih =>
    intro pre post left bin _ hlt hpost hleft
    have hb : b < 256 := hlt b (List.mem_cons_self _ _)
    cases rest with
    | nil =>
      obtain ⟨l, rfl⟩ : ∃ l, left = l + 1 := by
        cases left with
        | zero => cases read <;> simp at hleft
        | succ l => exact ⟨l, rfl⟩
      rw [hexfield, read_bin_loop_step size read pre post b l bin hb, if_neg hpost]
      cases read with
      | true => simp [hexpair]
      | false =>
        have hl0 : l = 0 := by simpa using hleft.symm
        subst hl0
        simp [hexpair]
    | cons c r =>
      obtain ⟨l, rfl⟩ : ∃ l, left = l + 1 := by
        cases left with
        | zero => cases read <;> simp at hleft
        | succ l => exact ⟨l, rfl⟩
      have hstep := read_bin_loop_step size read pre (0x3a :: (hexfield (c :: r) ++ post)) b l
        bin hb
      rw [chr_cons_zero, if_pos rfl] at hstep
      have hbuf : pre ++ (hexfield (b :: c :: r) ++ post)
          = pre ++ (hexpair b ++ 0x3a :: (hexfield (c :: r) ++ post)) := by
        rw [hexfield]
        simp
      have hbuf2 : pre ++ (hexpair b ++ 0x3a :: (hexfield (c :: r) ++ post))
          = (pre ++ (hexpair b ++ [0x3a])) ++ (hexfield (c :: r) ++ post) := by
        simp
      have hlen2 : (pre ++ (hexpair b ++ [0x3a])).length = pre.length + 3 := by
        simp [hexpair]
      rw [hbuf, hstep, hbuf2, ← hlen2,
        ih (pre ++ (hexpair b ++ [0x3a])) post l (bin ++ [b]) (by simp)
          (fun x hx => hlt x (List.mem_cons_of_mem _ hx)) hpost
          (by cases read <;> simp at hleft ⊢ <;> omega)]
      have hl3 : (hexfield (b :: c :: r)).length = (hexfield (c :: r)).length + 3 := by
        rw [hexfield]
        simp [hexpair]
      rw [hlen2, hl3]
      cases read <;> simp <;> omega

theorem skip_spaces_start (sp X : List Nat) (hsp : sp = [] ∨ sp = [0x20])
    (hX : starts_token X) : skip_spaces (sp ++ X) 0 = sp.length := by
  unfold skip_spaces
  rcases hsp with rfl | rfl
  · exact skip_spaces_loop_token X hX
  · exact skip_spaces_loop_space X hX

/-- `emv_pk_read_bin` on a field of hexadecimal bytes followed by a space and a further
token. -/
theorem read_bin_field (size : Nat) (read : Bool) (sp bytes rest : List Nat)
    (hsp : sp = [] ∨ sp = [0x20]) (hne : bytes ≠ []) (hlt : ∀ b ∈ bytes, b < 256)
    (hleft : if read then bytes.length ≤ size else bytes.length = size)
    (hrest : starts_token rest) :
    emv_pk_read_bin (sp ++ (hexfield bytes ++ 0x20 :: rest)) size read =
      (((sp.length + (hexfield bytes).length : Nat) : Int), bytes,
        if read then some bytes.length else none) := by
  unfold emv_pk_read_bin
  rw [skip_spaces_start sp _ hsp (hexfield_starts bytes _ hne),
    read_bin_loop_hexfield size read bytes sp (0x20 :: rest) size [] hne hlt
      (by rw [chr_cons_zero]; decide) hleft]
  simp only []
  have hb : sp ++ (hexfield bytes ++ 0x20 :: rest) = (sp ++ hexfield bytes) ++ 0x20 :: rest := by
    simp
  have hl : (sp ++ hexfield bytes).length = sp.length + (hexfield bytes).length := by simp
  rw [hb, ← hl, skip_spaces_append, skip_spaces_loop_space rest hrest]
  congr 1
  · push_cast
    omega
  · congr 1
    cases read
    · rfl
    · simp only [if_true] at hleft ⊢
      congr 1
      omega

/-- `emv_pk_read_bin` on a last field of exactly `size` hexadecimal bytes. -/
theorem read_bin_last (size : Nat) (sp bytes : List Nat)
    (hsp : sp = [] ∨ sp = [0x20]) (hne : bytes ≠ []) (hlt : ∀ b ∈ bytes, b < 256)
    (hleft : bytes.length = size) :
    emv_pk_read_bin (sp ++ hexfield bytes) size false =
      (((sp.length + (hexfield bytes).length : Nat) : Int) - 1, bytes, none) := by
  unfold emv_pk_read_bin
  have hs := skip_spaces_start sp _ hsp (hexfield_starts bytes [] hne)
  have hl := read_bin_loop_hexfield size false bytes sp [] size [] hne hlt (by decide)
    (by simpa using hleft)
  rw [List.append_nil] at hs hl
  rw [hs, hl]
  simp only []
  have hl : (sp ++ hexfield bytes).length = sp.length + (hexfield bytes).length := by simp
  have hb : sp ++ hexfield bytes = (sp ++ hexfield bytes) ++ [] := by simp
  rw [← hl]
  nth_rewrite 1 [hb]
  rw [skip_spaces_append, skip_spaces_loop_nil]
  simp

/-- `emv_pk_read_ymv` on six decimal digits between two spaces. -/
theorem read_ymv_digits (n5 n4 n3 n2 n1 n0 : Nat) (rest : List Nat)
    (h5 : n5 < 10) (h4 : n4 < 10) (h3 : n3 < 10) (h2 : n2 < 10) (h1 : n1 < 10) (h0 : n0 < 10)
    (hm : n3 * 16 + n2 ≤ 0x12) (hd : n1 * 16 + n0 ≤ 0x31) (hrest : starts_token rest) :
    emv_pk_read_ymv (0x20 :: ([TOHEX n5, TOHEX n4, TOHEX n3, TOHEX n2, TOHEX n1, TOHEX n0]
      ++ 0x20 :: rest)) =
      (7, (n5 * 16 + n4) * 0x10000 + (n3 * 16 + n2) * 0x100 + (n1 * 16 + n0)) := by
  have hs0 : skip_spaces (0x20 :: ([TOHEX n5, TOHEX n4, TOHEX n3, TOHEX n2, TOHEX n1, TOHEX n0]
      ++ 0x20 :: rest)) 0 = 1 :=
    skip_spaces_start [0x20] _ (Or.inr rfl) ⟨_, _, rfl, tohex_ne_space n5⟩
  have hs7 : skip_spaces (0x20 :: ([TOHEX n5, TOHEX n4, TOHEX n3, TOHEX n2, TOHEX n1, TOHEX n0]
      ++ 0x20 :: rest)) 7 = 8 := by
    have := skip_spaces_append [0x20, TOHEX n5, TOHEX n4, TOHEX n3, TOHEX n2, TOHEX n1, TOHEX n0]
      (0x20 :: rest)
    rw [skip_spaces_loop_space rest hrest] at this
    exact this
  unfold emv_pk_read_ymv
  rw [hs0]
  simp only [emv_pk_read_ymv_loop, chr, List.cons_append, List.nil_append, List.getD_cons_succ,
    List.getD_cons_zero, bcd_tohex _ h5, bcd_tohex _ h4, bcd_tohex _ h3, bcd_tohex _ h2,
    bcd_tohex _ h1, bcd_tohex _ h0]
  have hs7' := hs7
  simp only [List.cons_append, List.nil_append] at hs7'
  rw [if_neg (by omega), show 1 + 2 + 2 + 2 = 7 from rfl, hs7']
  rfl

/-- `emv_pk_read_string` on a token of at most 8 printable characters between two
spaces. -/
theorem read_string_token (tok rest : List Nat) (n : Nat)
    (htok : ∀ c ∈ tok, ¬ (c = 0x20) ∧ ¬ (c < 0x20 ∨ c ≥ 0x7f)) (hne : tok ≠ [])
    (hn : tok.length ≤ n) (hrest : starts_token rest) :
    emv_pk_read_string (0x20 :: (tok ++ 0x20 :: rest)) (n + 2) =
      (((1 + tok.length : Nat) : Int), tok) := by
  have hloop : ∀ (t pre str : List Nat) (k : Nat),
      (∀ c ∈ t, ¬ (c = 0x20) ∧ ¬ (c < 0x20 ∨ c ≥ 0x7f)) → t.length ≤ k →
      emv_pk_read_string_loop (pre ++ (t ++ 0x20 :: rest)) (k + 1) pre.length str
        = .ok (pre.length + t.length, str ++ t) := by
    intro t
    induction t with
    | nil =>
      intro pre str k _ _
      rw [emv_pk_read_string_loop, List.nil_append, chr_append_zero, chr_cons_zero, if_pos rfl]
      simp
    | cons c r ih =>
      intro pre str k hc hk
      obtain ⟨k', rfl⟩ : ∃ k', k = k' + 1 := ⟨k - 1, by simp at hk; omega⟩
      have h1 := hc c (List.mem_cons_self _ _)
      rw [emv_pk_read_string_loop, List.cons_append, chr_append_zero, chr_cons_zero,
        if_neg h1.1, if_neg h1.2]
      have hb : pre ++ c :: (r ++ 0x20 :: rest) = (pre ++ [c]) ++ (r ++ 0x20 :: rest) := by simp
      have hl : (pre ++ [c]).length = pre.length + 1 := by simp
      rw [hb, ← hl, ih (pre ++ [c]) (str ++ [c]) k' (fun x hx => hc x (List.mem_cons_of_mem _ hx))
        (by simp at hk; omega)]
      simp
      omega
  obtain ⟨c, r, rfl⟩ : ∃ c r, tok = c :: r := by
    cases tok with
    | nil => exact absurd rfl hne
    | cons c r => exact ⟨c, r, rfl⟩
  have hc := (htok c (List.mem_cons_self _ _)).1
  unfold emv_pk_read_string
  rw [show 0x20 :: (c :: r ++ 0x20 :: rest) = [0x20] ++ (c :: r ++ 0x20 :: rest) from rfl,
    skip_spaces_start [0x20] (c :: r ++ 0x20 :: rest) (Or.inr rfl)
      ⟨c, r ++ 0x20 :: rest, rfl, hc⟩,
    show n + 2 - 1 = n + 1 from rfl,
    hloop (c :: r) [0x20] [] n htok hn]
  simp only []
  have hb : [0x20] ++ (c :: r ++ 0x20 :: rest) = ([0x20] ++ (c :: r)) ++ 0x20 :: rest := by simp
  have hl : ([0x20] ++ (c :: r)).length = [0x20].length + (c :: r).length :=
    List.length_append _ _
  rw [hb, ← hl, skip_spaces_append, skip_spaces_loop_space rest hrest]
  simp
  omega

theorem drop_field (F rest : List Nat) :
    List.drop (1 + F.length) (0x20 :: (F ++ rest)) = rest := by
  rw [Nat.add_comm, List.drop_succ_cons, List.drop_left]

theorem stored_full (n : Nat) (bin : List Nat) (h : bin.length = n) : stored n bin = bin := by
  unfold stored
  rw [h, Nat.sub_self]
  simp

/-- `emv_pk_parse_pk` on a line of the registry shape. -/
theorem parse_registry_text (PK_RSA SHA1 : Nat) (rid idx exp mod hash : List Nat)
    (n5 n4 n3 n2 n1 n0 : Nat)
    (hrid : rid.length = 5) (hidx : idx.length = 1)
    (hexp1 : 1 ≤ exp.length) (hexp3 : exp.length ≤ 3)
    (hmod1 : 1 ≤ mod.length) (hmod2 : mod.length ≤ 256) (hhash : hash.length = 20)
    (brid : ∀ b ∈ rid, b < 256) (bidx : ∀ b ∈ idx, b < 256) (bexp : ∀ b ∈ exp, b < 256)
    (bmod : ∀ b ∈ mod, b < 256) (bhash : ∀ b ∈ hash, b < 256)
    (h5 : n5 < 10) (h4 : n4 < 10) (h3 : n3 < 10) (h2 : n2 < 10) (h1 : n1 < 10) (h0 : n0 < 10)
    (hm : n3 * 16 + n2 ≤ 0x12) (hd : n1 * 16 + n0 ≤ 0x31) :
    emv_pk_parse_pk PK_RSA SHA1
      (hexfield rid ++ 0x20 :: (hexfield idx ++ 0x20 ::
        ([TOHEX n5, TOHEX n4, TOHEX n3, TOHEX n2, TOHEX n1, TOHEX n0] ++ 0x20 ::
        ([0x72, 0x73, 0x61] ++ 0x20 :: (hexfield exp ++ 0x20 :: (hexfield mod ++ 0x20 ::
        ([0x73, 0x68, 0x61, 0x31] ++ 0x20 :: hexfield hash))))))) =
      some
        { rid := rid, index := idx.getD 0 0,
          serial := List.replicate 3 0, pan := List.replicate 10 0,
          hash_algo := SHA1 % 256, pk_algo := PK_RSA % 256, hash := hash,
          exp := stored 3 exp, elen := exp.length, mlen := mod.length,
          modulus := stored 256 mod,
          expire := (n5 * 16 + n4) * 0x10000 + (n3 * 16 + n2) * 0x100 + (n1 * 16 + n0) } := by
  have nrid : rid ≠ [] := fun h => by rw [h] at hrid; cases hrid
  have nidx : idx ≠ [] := fun h => by rw [h] at hidx; cases hidx
  have nexp : exp ≠ [] := fun h => by rw [h] at hexp1; simp at hexp1
  have nmod : mod ≠ [] := fun h => by rw [h] at hmod1; simp at hmod1
  have nhash : hash ≠ [] := fun h => by rw [h] at hhash; cases hhash
  generalize hT7 : [0x73, 0x68, 0x61, 0x31] ++ 0x20 :: hexfield hash = T7
  generalize hT6 : hexfield mod ++ 0x20 :: T7 = T6
  generalize hT5 : hexfield exp ++ 0x20 :: T6 = T5
  generalize hT4 : [0x72, 0x73, 0x61] ++ 0x20 :: T5 = T4
  generalize hT3 : [TOHEX n5, TOHEX n4, TOHEX n3, TOHEX n2, TOHEX n1, TOHEX n0] ++ 0x20 :: T4 = T3
  generalize hT2 : hexfield idx ++ 0x20 :: T3 = T2
  have s7 : starts_token T7 := by rw [← hT7]; exact ⟨_, _, rfl, by decide⟩
  have s6 : starts_token T6 := by rw [← hT6]; exact hexfield_starts mod _ nmod
  have s5 : starts_token T5 := by rw [← hT5]; exact hexfield_starts exp _ nexp
  have s4 : starts_token T4 := by rw [← hT4]; exact ⟨_, _, rfl, by decide⟩
  have s3 : starts_token T3 := by rw [← hT3]; exact ⟨_, _, rfl, tohex_ne_space n5⟩
  have s2 : starts_token T2 := by rw [← hT2]; exact hexfield_starts idx _ nidx
  have e1 : emv_pk_read_bin (hexfield rid ++ 0x20 :: T2) 5 false
      = ((((hexfield rid).length : Nat) : Int), rid, none) := by
    have := read_bin_field 5 false [] rid T2 (Or.inl rfl) nrid brid (by simpa using hrid) s2
    simpa using this
  have e2 : emv_pk_read_bin (0x20 :: T2) 1 false
      = (((1 + (hexfield idx).length : Nat) : Int), idx, none) := by
    have := read_bin_field 1 false [0x20] idx T3 (Or.inr rfl) nidx bidx (by simpa using hidx) s3
    rw [hT2] at this
    simpa using this
  have e3 : emv_pk_read_ymv (0x20 :: T3)
      = (7, (n5 * 16 + n4) * 0x10000 + (n3 * 16 + n2) * 0x100 + (n1 * 16 + n0)) := by
    rw [← hT3]
    exact read_ymv_digits n5 n4 n3 n2 n1 n0 T4 h5 h4 h3 h2 h1 h0 hm hd s4
  have e4 : emv_pk_read_string (0x20 :: T4) 10 = (4, [0x72, 0x73, 0x61]) := by
    rw [← hT4]
    exact read_string_token [0x72, 0x73, 0x61] T5 8 (by decide) (by decide) (by decide) s5
  have e5 : emv_pk_read_bin (0x20 :: T5) 3 true
      = (((1 + (hexfield exp).length : Nat) : Int), exp, some exp.length) := by
    have := read_bin_field 3 true [0x20] exp T6 (Or.inr rfl) nexp bexp (by simpa using hexp3) s6
    rw [hT5] at this
    simpa using this
  have e6 : emv_pk_read_bin (0x20 :: T6) 256 true
      = (((1 + (hexfield mod).length : Nat) : Int), mod, some mod.length) := by
    have := read_bin_field 256 true [0x20] mod T7 (Or.inr rfl) nmod bmod (by simpa using hmod2) s7
    rw [hT6] at this
    simpa using this
  have e7 : emv_pk_read_string (0x20 :: T7) 10 = (5, [0x73, 0x68, 0x61, 0x31]) := by
    rw [← hT7]
    exact read_string_token [0x73, 0x68, 0x61, 0x31] (hexfield hash) 8 (by decide) (by decide) (by decide)
      (by have := hexfield_starts hash [] nhash; simpa using this)
  have e8 : emv_pk_read_bin (0x20 :: hexfield hash) 20 false
      = (((1 + (hexfield hash).length : Nat) : Int) - 1, hash, none) := by
    have := read_bin_last 20 [0x20] hash (Or.inr rfl) nhash bhash hhash
    simpa using this
  have l1 := hexfield_length rid nrid
  have l2 := hexfield_length idx nidx
  have l5 := hexfield_length exp nexp
  have l6 := hexfield_length mod nmod
  have l8 := hexfield_length hash nhash
  have a1 : advance (hexfield rid ++ 0x20 :: T2) (((hexfield rid).length : Nat) : Int)
      = some (0x20 :: T2) := by
    unfold advance
    rw [if_neg (by omega), Int.toNat_ofNat, List.drop_left]
  have adv : ∀ (F rest : List Nat), F ≠ [] →
      advance (0x20 :: (F ++ rest)) (((1 + F.length : Nat) : Int)) = some rest := by
    intro F rest _
    unfold advance
    rw [if_neg (by omega), Int.toNat_ofNat, drop_field]
  have a2 := adv (hexfield idx) (0x20 :: T3) (by intro h; rw [h] at l2; simp at l2; omega)
  rw [hT2] at a2
  have a3 : advance (0x20 :: T3) 7 = some (0x20 :: T4) := by
    rw [← hT3]
    rfl
  have a4 : advance (0x20 :: T4) 4 = some (0x20 :: T5) := by
    rw [← hT4]
    rfl
  have a5 := adv (hexfield exp) (0x20 :: T6) (by intro h; rw [h] at l5; simp at l5; omega)
  rw [hT5] at a5
  have a6 := adv (hexfield mod) (0x20 :: T7) (by intro h; rw [h] at l6; simp at l6; omega)
  rw [hT6] at a6
  have a7 : advance (0x20 :: T7) 5 = some (0x20 :: hexfield hash) := by
    rw [← hT7]
    rfl
  unfold emv_pk_parse_pk
  simp only []
  rw [e1]
  simp only [a1, Option.some_bind, Option.bind_eq_bind]
  rw [e2]
  simp only [a2, Option.some_bind]
  rw [e3]
  simp only [a3, Option.some_bind]
  rw [e4]
  simp only [a4, Option.some_bind, ne_eq, not_true_eq_false, if_false]
  rw [e5]
  simp only [a5, Option.some_bind]
  rw [e6]
  simp only [a6, Option.some_bind]
  rw [e7]
  simp only [a7, Option.some_bind, ne_eq, not_true_eq_false, if_false]
  rw [e8, if_neg (by simp only []; omega)]
  simp only [Option.getD_some, stored_full 5 rid hrid, stored_full 1 idx hidx,
    stored_full 20 hash hhash]

theorem write_bin_ok (outlen : Nat) (buf : List Nat) (len : Nat) (h1 : 1 ≤ len)
    (h2 : len ≤ buf.length) (h3 : 3 * len ≤ outlen) (h4 : 3 * len < 2 ^ 64) :
    emv_pk_write_bin outlen buf len = .ok (hexfield (buf.take len) ++ [0x20]) := by
  unfold emv_pk_write_bin
  have hmod : len * 3 % SIZE_MOD = len * 3 := Nat.mod_eq_of_lt (by unfold SIZE_MOD; omega)
  rw [if_neg (by omega), hmod, if_neg (by omega), rdn_zero buf len h2, Res.ok_bind]
  cases hbt : buf.take len with
  | nil =>
    have := congrArg List.length hbt
    rw [List.length_take, List.length_nil] at this
    omega
  | cons b0 rest =>
    rw [show rd (b0 :: rest) 0 = Res.ok b0 by simp [rd], Res.ok_bind]
    simp only [List.drop_succ_cons, List.drop_zero]
    have htext : [TOHEX (b0 >>> 4), TOHEX (b0 &&& 0xf)] ++ emv_pk_write_bin_loop rest
        = hexfield (b0 :: rest) := write_bin_loop_eq rest b0
    rw [htext]
    have hl := hexfield_length (b0 :: rest) (by simp)
    have hlen : (b0 :: rest).length = len := by
      rw [← hbt, List.length_take]
      omega
    rw [if_pos (by rw [List.length_append, List.length_singleton]; omega)]

theorem dump_pk_eq (PK_RSA SHA1 : Nat) (pk : emv_pk)
    (hrid : 5 ≤ pk.rid.length) (hpa : pk.pk_algo = PK_RSA) (hha : pk.hash_algo = SHA1)
    (he1 : 1 ≤ pk.elen) (he3 : pk.elen ≤ 3) (hel : pk.elen ≤ pk.exp.length)
    (hm1 : 1 ≤ pk.mlen) (hm2 : pk.mlen ≤ 256) (hml : pk.mlen ≤ pk.modulus.length)
    (hhash : 20 ≤ pk.hash.length) :
    emv_pk_dump_pk PK_RSA SHA1 pk = .ok (registry_line pk) := by
  have hl1 : (hexfield (pk.rid.take 5)).length = 14 := by
    have := hexfield_length (pk.rid.take 5) (by
      intro h
      have := congrArg List.length h
      rw [List.length_take, List.length_nil] at this
      omega)
    rw [List.length_take] at this
    omega
  have hl2 : (hexfield [pk.index]).length = 2 := rfl
  have hl5 : (hexfield (pk.exp.take pk.elen)).length + 1 = 3 * pk.elen := by
    have := hexfield_length (pk.exp.take pk.elen) (by
      intro h
      have := congrArg List.length h
      rw [List.length_take, List.length_nil] at this
      omega)
    rw [List.length_take] at this
    omega
  have hl6 : (hexfield (pk.modulus.take pk.mlen)).length + 1 = 3 * pk.mlen := by
    have := hexfield_length (pk.modulus.take pk.mlen) (by
      intro h
      have := congrArg List.length h
      rw [List.length_take, List.length_nil] at this
      omega)
    rw [List.length_take] at this
    omega
  have hl8 : (hexfield (pk.hash.take 20)).length = 59 := by
    have := hexfield_length (pk.hash.take 20) (by
      intro h
      have := congrArg List.length h
      rw [List.length_take, List.length_nil] at this
      omega)
    rw [List.length_take] at this
    omega
  have hs : ∀ n, n ≤ 1024 → size_sub 1024 n = 1024 - n :=
    fun n hn => size_sub_of_le 1024 n (by decide) hn
  unfold emv_pk_dump_pk
  simp only []
  rw [show ([] : List Nat).length = 0 from rfl, hs 0 (by omega),
    write_bin_ok _ pk.rid 5 (by omega) hrid (by omega) (by omega), Res.ok_bind,
    reject_if_neg _ (by simp), Res.ok_bind, List.nil_append]
  generalize hR : hexfield (pk.rid.take 5) ++ [0x20] = R
  have hRl : R.length = 15 := by rw [← hR, List.length_append, hl1]; rfl
  rw [hRl, hs 15 (by omega),
    write_bin_ok _ [pk.index] 1 (by omega) (by simp) (by omega) (by omega), Res.ok_bind,
    reject_if_neg _ (by simp), Res.ok_bind]
  have hws : ∀ (n : Nat) (str : List Nat), str ≠ [] → str.length ≤ 1024 - n →
      emv_pk_write_str (1024 - n) str = str := by
    intro n str h1 h2
    unfold emv_pk_write_str
    rw [if_neg (fun h => h1 (List.length_eq_zero.mp h)), if_neg (by omega)]
  rw [show List.take 1 [pk.index] = [pk.index] from rfl]
  generalize hO2 : R ++ (hexfield [pk.index] ++ [0x20]) = O2
  have hO2l : O2.length = 18 := by
    rw [← hO2, List.length_append, List.length_append, hRl, hl2]
    rfl
  rw [hO2l, reject_if_neg _ (by omega), Res.ok_bind, if_pos hpa]
  generalize hO3 : O2 ++ [TOHEX ((pk.expire >>> 20) &&& 0xf), TOHEX ((pk.expire >>> 16) &&& 0xf),
    TOHEX ((pk.expire >>> 12) &&& 0xf), TOHEX ((pk.expire >>> 8) &&& 0xf),
    TOHEX ((pk.expire >>> 4) &&& 0xf), TOHEX ((pk.expire >>> 0) &&& 0xf), 0x20] = O3
  have hO3l : O3.length = 25 := by
    rw [← hO3, List.length_append, hO2l]
    rfl
  rw [hO3l, hs 25 (by omega), hws 25 _ (by simp) (by simp), reject_if_neg _ (by simp),
    Res.ok_bind, Res.ok_bind]
  generalize hO4 : O3 ++ [0x72, 0x73, 0x61] ++ [0x20] = O4
  have hO4l : O4.length = 29 := by
    rw [← hO4, List.length_append, List.length_append, hO3l]
    rfl
  rw [hO4l, hs 29 (by omega),
    write_bin_ok _ pk.exp pk.elen he1 hel (by omega) (by omega), Res.ok_bind,
    reject_if_neg _ (by simp), Res.ok_bind]
  generalize hO5 : O4 ++ (hexfield (pk.exp.take pk.elen) ++ [0x20]) = O5
  have hO5l : O5.length = 29 + 3 * pk.elen := by
    rw [← hO5, List.length_append, List.length_append, hO4l, List.length_singleton]
    omega
  rw [hO5l, hs _ (by omega),
    write_bin_ok _ pk.modulus pk.mlen hm1 hml (by omega) (by omega), Res.ok_bind,
    reject_if_neg _ (by simp), Res.ok_bind, if_pos hha]
  generalize hO6 : O5 ++ (hexfield (pk.modulus.take pk.mlen) ++ [0x20]) = O6
  have hO6l : O6.length = 29 + 3 * pk.elen + 3 * pk.mlen := by
    rw [← hO6, List.length_append, List.length_append, hO5l, List.length_singleton]
    omega
  have hsha : [0x73, 0x68, 0x61, 0x31].length ≤ 1024 - (29 + 3 * pk.elen + 3 * pk.mlen) := by
    simp only [List.length_cons, List.length_nil]
    omega
  rw [hO6l, hs _ (by omega), hws _ _ (by simp) hsha, reject_if_neg _ (by simp),
    Res.ok_bind, Res.ok_bind]
  generalize hO7 : O6 ++ [0x73, 0x68, 0x61, 0x31] ++ [0x20] = O7
  have hO7l : O7.length = 34 + 3 * pk.elen + 3 * pk.mlen := by
    rw [← hO7, List.length_append, List.length_append, hO6l]
    simp only [List.length_cons, List.length_nil]
    omega
  rw [hO7l, hs _ (by omega),
    write_bin_ok _ pk.hash 20 (by omega) hhash (by omega) (by omega), Res.ok_bind,
    reject_if_neg _ (by simp), Res.ok_bind]
  congr 1
  rw [← List.append_assoc, List.length_append, List.length_singleton, Nat.add_sub_cancel,
    List.take_left' rfl, ← hO7, ← hO6, ← hO5, ← hO4, ← hO3, ← hO2, ← hR]
  simp [registry_line, expire_digits]

theorem stored_take (n : Nat) (bin : List Nat) : (stored n bin).take bin.length = bin := by
  unfold stored
  exact List.take_left' rfl

set_option maxRecDepth 100000 in
/-- C12 as stated fails for a key with recognised algorithms whose expiry is not a valid
BCD date: for `expire = 0x221332` (day `32`) `emv_pk_dump_pk` writes the line and
`emv_pk_parse_pk` rejects it. -/
theorem dump_parse_rejects_expire :
    emv_pk_dump_pk 1 1 { dump_key with expire := 0x221332 } = .ok (cstr
      ("a0:00:00:00:03 92 221332 rsa 03 c5:c5:c5:c5:c5:c5:c5:c5:c5:c5:c5:c5:c5:c5:c5:c5 " ++
       "sha1 00:01:02:03:04:05:06:07:08:09:0a:0b:0c:0d:0e:0f:10:11:12:13")) ∧
    emv_pk_parse_pk 1 1 (cstr
      ("a0:00:00:00:03 92 221332 rsa 03 c5:c5:c5:c5:c5:c5:c5:c5:c5:c5:c5:c5:c5:c5:c5:c5 " ++
       "sha1 00:01:02:03:04:05:06:07:08:09:0a:0b:0c:0d:0e:0f:10:11:12:13")) = none := by
  refine ⟨by decide!, by decide!⟩

/-- C12, amended: for a key with `pk_algo = PK_RSA` and `hash_algo = HASH_SHA_1`, a 5-byte
RID, a 20-byte hash, an exponent of 1 to 3 bytes, a modulus of 1 to 256 bytes, byte-sized
entries, and an expiry of six decimal digits `YYMMDD` with `MM <= 0x12` and `DD <= 0x31`,
`emv_pk_dump_pk` returns a line on which `emv_pk_parse_pk` succeeds, and the key parsed
equals the key in rid, index, expire, pk_algo, elen and exponent bytes, mlen and modulus
bytes, hash_algo and hash. -/
theorem dump_parse_roundtrip (PK_RSA SHA1 : Nat) (pk : emv_pk)
    (hrid : pk.rid.length = 5) (hhash : pk.hash.length = 20)
    (hpa : pk.pk_algo = PK_RSA) (hha : pk.hash_algo = SHA1)
    (hpab : pk.pk_algo < 256) (hhab : pk.hash_algo < 256)
    (he1 : 1 ≤ pk.elen) (he3 : pk.elen ≤ 3) (hel : pk.elen ≤ pk.exp.length)
    (hm1 : 1 ≤ pk.mlen) (hm2 : pk.mlen ≤ 256) (hml : pk.mlen ≤ pk.modulus.length)
    (hidx : pk.index < 256)
    (brid : ∀ b ∈ pk.rid, b < 256) (bexp : ∀ b ∈ pk.exp, b < 256)
    (bmod : ∀ b ∈ pk.modulus, b < 256) (bhash : ∀ b ∈ pk.hash, b < 256)
    (hxl : pk.expire < 2 ^ 24)
    (hbcd : ∀ i, i < 6 → (pk.expire >>> (4 * i)) &&& 0xf ≤ 9)
    (hmm : (pk.expire >>> 8) &&& 0xff ≤ 0x12) (hdd : pk.expire &&& 0xff ≤ 0x31) :
    ∃ text r,
      emv_pk_dump_pk PK_RSA SHA1 pk = .ok text ∧ emv_pk_parse_pk PK_RSA SHA1 text = some r ∧
      r.rid = pk.rid ∧ r.index = pk.index ∧ r.expire = pk.expire ∧ r.pk_algo = pk.pk_algo ∧
      r.elen = pk.elen ∧ r.exp.take r.elen = pk.exp.take pk.elen ∧
      r.mlen = pk.mlen ∧ r.modulus.take r.mlen = pk.modulus.take pk.mlen ∧
      r.hash_algo = pk.hash_algo ∧ r.hash = pk.hash := by
  have hdump := dump_pk_eq PK_RSA SHA1 pk (by omega) hpa hha he1 he3 hel hm1 hm2 hml (by omega)
  have bits : ∀ x : Nat, x &&& 0xf = x % 16 := fun x => by
    rw [show (0xf : Nat) = 2 ^ 4 - 1 from rfl, Nat.and_pow_two_sub_one_eq_mod]
  have bits8 : ∀ x : Nat, x &&& 0xff = x % 256 := fun x => by
    rw [show (0xff : Nat) = 2 ^ 8 - 1 from rfl, Nat.and_pow_two_sub_one_eq_mod]
  have d0 := hbcd 0 (by omega)
  have d1 := hbcd 1 (by omega)
  have d2 := hbcd 2 (by omega)
  have d3 := hbcd 3 (by omega)
  have d4 := hbcd 4 (by omega)
  have d5 := hbcd 5 (by omega)
  simp only [bits, bits8, Nat.shiftRight_eq_div_pow] at d0 d1 d2 d3 d4 d5 hmm hdd
  norm_num at d0 d1 d2 d3 d4 d5 hmm hdd
  have htr : pk.rid.take 5 = pk.rid := List.take_of_length_le (by omega)
  have hth : pk.hash.take 20 = pk.hash := List.take_of_length_le (by omega)
  have hel' : (pk.exp.take pk.elen).length = pk.elen := by
    rw [List.length_take]
    omega
  have hml' : (pk.modulus.take pk.mlen).length = pk.mlen := by
    rw [List.length_take]
    omega
  have hparse := parse_registry_text PK_RSA SHA1 pk.rid [pk.index] (pk.exp.take pk.elen)
    (pk.modulus.take pk.mlen) pk.hash
    ((pk.expire >>> 20) &&& 0xf) ((pk.expire >>> 16) &&& 0xf) ((pk.expire >>> 12) &&& 0xf)
    ((pk.expire >>> 8) &&& 0xf) ((pk.expire >>> 4) &&& 0xf) ((pk.expire >>> 0) &&& 0xf)
    hrid rfl (by omega) (by omega) (by omega) (by omega) hhash brid
    (by intro b hb; rw [List.mem_singleton] at hb; omega)
    (fun b hb => bexp b (List.mem_of_mem_take hb))
    (fun b hb => bmod b (List.mem_of_mem_take hb)) bhash
    (by simp only [bits, Nat.shiftRight_eq_div_pow]; norm_num; omega)
    (by simp only [bits, Nat.shiftRight_eq_div_pow]; norm_num; omega)
    (by simp only [bits, Nat.shiftRight_eq_div_pow]; norm_num; omega)
    (by simp only [bits, Nat.shiftRight_eq_div_pow]; norm_num; omega)
    (by simp only [bits, Nat.shiftRight_eq_div_pow]; norm_num; omega)
    (by simp only [bits, Nat.shiftRight_eq_div_pow]; norm_num; omega)
    (by simp only [bits, Nat.shiftRight_eq_div_pow]; norm_num; omega)
    (by simp only [bits, Nat.shiftRight_eq_div_pow]; norm_num; omega)
  refine ⟨registry_line pk,
    { rid := pk.rid, index := [pk.index].getD 0 0, serial := List.replicate 3 0,
      pan := List.replicate 10 0, hash_algo := SHA1 % 256, pk_algo := PK_RSA % 256,
      hash := pk.hash, exp := stored 3 (pk.exp.take pk.elen),
      elen := (pk.exp.take pk.elen).length, mlen := (pk.modulus.take pk.mlen).length,
      modulus := stored 256 (pk.modulus.take pk.mlen),
      expire := (((pk.expire >>> 20) &&& 0xf) * 16 + ((pk.expire >>> 16) &&& 0xf)) * 0x10000
        + (((pk.expire >>> 12) &&& 0xf) * 16 + ((pk.expire >>> 8) &&& 0xf)) * 0x100
        + (((pk.expire >>> 4) &&& 0xf) * 16 + ((pk.expire >>> 0) &&& 0xf)) },
    hdump, ?_, rfl, rfl, ?_, ?_, hel', ?_, hml', ?_, ?_, rfl⟩
  · unfold registry_line expire_digits
    rw [htr, hth]
    exact hparse
  · simp only [bits, Nat.shiftRight_eq_div_pow]
    norm_num
    omega
  · show PK_RSA % 256 = pk.pk_algo
    rw [← hpa]
    exact Nat.mod_eq_of_lt hpab
  · exact stored_take 3 _
  · exact stored_take 256 _
  · show SHA1 % 256 = pk.hash_algo
    rw [← hha]
    exact Nat.mod_eq_of_lt hhab

set_option maxRecDepth 100000 in
/-- C12, amended, at the key of scenario S1: RID `A0 00 00 00 03`, index `92`, expiry
`22 12 31`, exponent `03`, 128-byte modulus, under the constants `PK_RSA = 1` and
`HASH_SHA_1 = 1` of the test backend. -/
theorem dump_parse_roundtrip_witness :
    ∃ text r,
      emv_pk_dump_pk 1 1 s1_key = .ok text ∧ emv_pk_parse_pk 1 1 text = some r ∧
      r.rid = s1_key.rid ∧ r.index = s1_key.index ∧ r.expire = s1_key.expire ∧
      r.pk_algo = s1_key.pk_algo ∧
      r.elen = s1_key.elen ∧ r.exp.take r.elen = s1_key.exp.take s1_key.elen ∧
      r.mlen = s1_key.mlen ∧ r.modulus.take r.mlen = s1_key.modulus.take s1_key.mlen ∧
      r.hash_algo = s1_key.hash_algo ∧ r.hash = s1_key.hash :=
  dump_parse_roundtrip 1 1 s1_key (by decide!) (by decide!) (by decide!) (by decide!)
    (by decide!) (by decide!) (by decide!) (by decide!) (by decide!) (by decide!) (by decide!)
    (by decide!) (by decide!) (by decide!) (by decide!) (by decide!) (by decide!) (by decide!)
    (by decide!) (by decide!) (by decide!)

set_option maxRecDepth 100000 in
/-- C26 as stated fails for a hash whose digest has 0 bytes (which is at most 20): under
such a backend `emv_pki_make_ca` returns a key for the inputs of scenario S1 and
`emv_pk_verify` returns false on it, because it requires a digest size other than 0. -/
theorem make_ca_empty_digest_not_verified :
    (emv_pki_make_ca empty_digest_backend s1_cp (some [0xa0, 0, 0, 0, 3]) 0x92 0x221231 1
      >>= fun pk => emv_pk_verify empty_digest_backend pk) = .ok false ∧
    (emv_pki_make_ca empty_digest_backend s1_cp (some [0xa0, 0, 0, 0, 3]) 0x92 0x221231 1
      >>= fun pk => Res.ok (pk.rid, pk.index, pk.expire, pk.mlen, pk.elen, pk.hash))
      = .ok ([0xa0, 0, 0, 0, 3], 0x92, 0x221231, 128, 1, List.replicate 20 0) := by
  refine ⟨by decide!, by decide!⟩

end Emv
